import Mathlib

/-!
Verification of the dask-awkward graph optimizer
(`src/dask_awkward/lib/optimize.py`) against its natural-language
specification.

The embedding models Python dicts as association lists in insertion order
with unique keys, Python sets of layer names as duplicate-free lists, and
Python exceptions as values of `PyErr` threaded through `Except`.  External
collaborators that live outside the repository (the `AwkwardInputLayer.mock`
/ `project` interface, the generic `Layer.mock`, and the synchronous
`get_sync` evaluator together with `ak.typetracer.touch_data`) are passed in
as an explicit `Collab` record of oracles, modelled from the spec.

Value semantics is used throughout; the few statements the source makes that
mutate a pre-existing (input) object in place are additionally reported in an
explicit effects channel: `optimize_columns` popping the `_cached_dict`
attribute of layers it passes into the tracer graph by reference
(lines 153-154), and `rewrite_layer_chains` writing later chain members'
`io_deps` entries through the alias `outlayer.io_deps = layer0.io_deps`
(lines 350-354) into the chain-head layer's dictionary.
-/

namespace DaskAwk

/-- A Python exception, by its rendered type and message. -/
structure PyErr where
  ty : String
  msg : String
deriving DecidableEq, Repr

instance {ε α : Type} [DecidableEq ε] [DecidableEq α] : DecidableEq (Except ε α) :=
  fun a b =>
    match a, b with
    | .ok x, .ok y => if h : x = y then isTrue (by rw [h]) else isFalse (by simp [h])
    | .error x, .error y =>
      if h : x = y then isTrue (by rw [h]) else isFalse (by simp [h])
    | .ok _, .error _ => isFalse (by simp)
    | .error _, .ok _ => isFalse (by simp)

/-- A task-head function value: a named Python callable, or one of the two
module-level helpers `_touch_all_data` / `_touch_and_call_fn` that the
optimizer splices into task tuples. -/
inductive FnV where
  | named (s : String)
  | touchAllData
  | touchAndCallFn
deriving DecidableEq, Repr

mutual

/-- A task argument.  `ref n` stands for the blockwise reference string
"__dask_blockwise__n"; `str` is any other string (an input name spliced in
by fusion, in particular); lists, tuples and dicts can nest; `func` is a
Python callable appearing as an argument (as `_touch_and_call` creates). -/
inductive Arg where
  | ref (n : Nat)
  | str (s : String)
  | listArg (xs : Args)
  | tupleArg (xs : Args)
  | dictArg (kvs : KVs)
  | func (f : FnV)
  | intArg (i : Int)
  | noneArg
deriving DecidableEq, Repr

/-- A sequence of task arguments. -/
inductive Args where
  | nil
  | cons (a : Arg) (rest : Args)
deriving DecidableEq, Repr

/-- The entries of a dict-valued task argument. -/
inductive KVs where
  | nil
  | cons (k : String) (v : Arg) (rest : KVs)
deriving DecidableEq, Repr

end

/-- The arguments of a task, as a plain list. -/
def Args.toList : Args → List Arg
  | .nil => []
  | .cons a rest => a :: rest.toList

/-- A task tuple `(callable, *args)`. -/
structure Task where
  fn : FnV
  args : Args
deriving DecidableEq, Repr

/-- A layer of a high level graph.  Duck-typed capabilities of the Python
object are recorded as flags (`isABL` = isinstance AwkwardBlockwiseLayer,
`isInput` = isinstance AwkwardInputLayer, `hasMock` = hasattr "mock",
`optTouchAll` = hasattr "_opt_touch_all", `hasDims` = hasattr "_dims",
`cachedDict` = hasattr "_cached_dict").  `pyLen` is `len(layer)`, the
number of output keys.  `inputsAttr = none` models a missing `inputs`
attribute.  Blockwise metadata (`indices`, `numblocks`, `ioDeps`, `dsk`,
`outputIndices`) mirrors the fields read and written by
`rewrite_layer_chains`. -/
structure Layer where
  isABL : Bool
  isInput : Bool
  isProjectable : Bool
  hasMock : Bool
  annots : Option (List (String × Bool))
  optTouchAll : Bool
  indices : List (String × Option (List String))
  numblocks : List (String × Option Nat)
  ioDeps : List (String × String)
  dsk : List (String × Task)
  outputIndices : List String
  hasDims : Bool
  cachedDict : Bool
  inputsAttr : Option (List String)
  pyLen : Nat
deriving DecidableEq, Repr

/-- A high level graph: named layers plus the dependency relation.  Both
dicts are association lists in insertion order with unique keys. -/
structure HLG where
  layers : List (String × Layer)
  dependencies : List (String × List String)
deriving DecidableEq, Repr

/-- Python `d[k]`: a lookup that raises `KeyError` when the key is absent. -/
def pyGet {α : Type} (m : List (String × α)) (k : String) : Except PyErr α :=
  match m.lookup k with
  | some v => .ok v
  | none => .error ⟨"KeyError", k⟩

/-- Python `d[k] = v` on a dict: overwrite in place (keeping the key's
position) when present, append otherwise. -/
def dictSet {α : Type} : List (String × α) → String → α → List (String × α)
  | [], k, v => [(k, v)]
  | (k0, v0) :: rest, k, v =>
    if k0 = k then (k, v) :: rest else (k0, v0) :: dictSet rest k v

/-- Python `d.pop(k)` with no default: remove the key or raise `KeyError`. -/
def dictPop {α : Type} (m : List (String × α)) (k : String) :
    Except PyErr (List (String × α)) :=
  match m.lookup k with
  | some _ => .ok (m.filter (fun p => p.1 ≠ k))
  | none => .error ⟨"KeyError", k⟩

/-- `dsk.dependents[k]`: the reverse-dependency relation, computed from
`dependencies` (dask derives it with `reverse_dict`); the resulting set is
listed in the key order of `dependencies`. -/
def dependentsOf (g : HLG) (k : String) : List String :=
  g.dependencies.filterMap (fun p => if k ∈ p.2 then some p.1 else none)

/-! ## Column projection pass: `optimize_columns` (lines 83-184) -/

/-- The warning template of lines 19-26, verbatim. -/
def COLUMN_OPT_FAILED_WARNING_MSG : String :=
  "The necessary columns optimization failed; exception raised:\n\n{exception} with message {message}.\n\nPlease see the FAQ section of the docs for more information:\nhttps://dask-awkward.readthedocs.io/en/stable/more/faq.html\n\n"

/-- `COLUMN_OPT_FAILED_WARNING_MSG.format(exception=type(err), message=err)`:
`PyErr.ty` renders `type(err)` and `PyErr.msg` renders `str(err)`. -/
def formatFailedWarning (e : PyErr) : String :=
  (COLUMN_OPT_FAILED_WARNING_MSG.replace "{exception}" e.ty).replace
    "{message}" e.msg

/-- The debug diagnostic of line 168. -/
def columnOptDebugMsg : String :=
  "Column projection optimization failed; optimization skipped."

/-- The ValueError message of lines 173-176 for an invalid on-fail value. -/
def invalidOnFailMsg (onFail : String) : String :=
  "Invalid awkward.optimization.on-fail option: " ++ onFail ++
    ".\nValid options are 'warn', 'pass', or 'raise'."

/-- `_projectable_input_layer_names` (lines 187-206). -/
def projectableInputLayerNames (g : HLG) : List String :=
  g.layers.filterMap (fun p =>
    if p.2.isInput && p.2.isProjectable then some p.1 else none)

/-- `_layers_with_annotation` (lines 209-210): names whose annotations carry
a truthy value at `key` (`(v.annotations or {}).get(key)`). -/
def layersWithAnnotKey (g : HLG) (key : String) : List String :=
  g.layers.filterMap (fun p =>
    match p.2.annots with
    | some m => if (m.lookup key).getD false then some p.1 else none
    | none => none)

/-- `_ak_output_layer_names` (lines 213-229). -/
def akOutputLayerNames (g : HLG) : List String :=
  layersWithAnnotKey g "ak_output"

/-- `_opt_touch_all_layer_names` (lines 232-233). -/
def optTouchAllLayerNames (g : HLG) : List String :=
  g.layers.filterMap (fun p => if p.2.optTouchAll then some p.1 else none)

/-- `_has_projectable_awkward_io_layer` (lines 237-242). -/
def hasProjectableAwkwardIoLayer (g : HLG) : Bool :=
  g.layers.any (fun p => p.2.isInput && p.2.isProjectable)

/-- `_mock_output` (lines 253-262): assert the layer's task dict has exactly
one entry, then on a deep copy replace each task `(fn, *args)` by
`(_touch_all_data, *args)` - the original callable is dropped. -/
def mockOutput (layer : Layer) : Except PyErr Layer :=
  if layer.dsk.length = 1 then
    .ok { layer with
          dsk := layer.dsk.map (fun p => (p.1, ⟨FnV.touchAllData, p.2.args⟩)) }
  else .error ⟨"AssertionError", ""⟩

/-- `_touch_and_call` (lines 270-278): assert one task entry, then on a deep
copy replace each task `(fn, *args)` by `(_touch_and_call_fn, fn, *args)`. -/
def touchAndCall (layer : Layer) : Except PyErr Layer :=
  if layer.dsk.length = 1 then
    .ok { layer with
          dsk := layer.dsk.map (fun p =>
            (p.1, ⟨FnV.touchAndCallFn, Args.cons (Arg.func p.2.fn) p.2.args⟩)) }
  else .error ⟨"AssertionError", ""⟩

/-- Modelled from the spec: the collaborator interfaces that live outside
this repository's `src/`.  `mockInput` is `AwkwardInputLayer.mock()`
returning a mocked layer plus opaque projection state; `mockLayer` is the
generic `Layer.mock()`; `projectLayer` is `AwkwardInputLayer.project(state)`;
`evalKeys` is the synchronous `get_sync` evaluation of the tracer graph at
the leaf keys together with the final `ak.typetracer.touch_data` loop
(lines 155-158), whose only observable outcome here is success or a raised
exception. -/
structure Collab where
  mockInput : String → Layer → Except PyErr (Layer × String)
  mockLayer : String → Layer → Except PyErr Layer
  projectLayer : String → Layer → String → Layer
  evalKeys : List (String × Nat) → Except PyErr Unit

/-- Lines 117-126: build the tracer layer mapping in iteration order,
replacing projectable input layers by `lay.mock()` (recording state) and
other mock-capable layers by their mock; other layers pass through by
reference.  The first raised exception propagates. -/
def ocMockFold (cb : Collab) (projectable : List String) :
    List (String × Layer) →
    Except PyErr (List (String × Layer) × List (String × String))
  | [] => .ok ([], [])
  | (name, lay) :: rest =>
    if name ∈ projectable then
      match cb.mockInput name lay with
      | .error e => .error e
      | .ok (ml, st) =>
        match ocMockFold cb projectable rest with
        | .error e => .error e
        | .ok (ls, sts) => .ok ((name, ml) :: ls, (name, st) :: sts)
    else if lay.hasMock then
      match cb.mockLayer name lay with
      | .error e => .error e
      | .ok ml =>
        match ocMockFold cb projectable rest with
        | .error e => .error e
        | .ok (ls, sts) => .ok ((name, ml) :: ls, sts)
    else
      match ocMockFold cb projectable rest with
      | .error e => .error e
      | .ok (ls, sts) => .ok ((name, lay) :: ls, sts)

/-- Lines 128-129: wrap every `ak_output`-annotated name with
`_mock_output`, reading and updating the tracer layer mapping in order. -/
def ocApplyMockOutput :
    List String → List (String × Layer) → Except PyErr (List (String × Layer))
  | [], pl => .ok pl
  | n :: ns, pl =>
    match pyGet pl n with
    | .error e => .error e
    | .ok lay =>
      match mockOutput lay with
      | .error e => .error e
      | .ok l2 => ocApplyMockOutput ns (dictSet pl n l2)

/-- Lines 131-132: wrap every `_opt_touch_all` layer with `_touch_and_call`. -/
def ocApplyTouchAll :
    List String → List (String × Layer) → Except PyErr (List (String × Layer))
  | [], pl => .ok pl
  | n :: ns, pl =>
    match pyGet pl n with
    | .error e => .error e
    | .ok lay =>
      match touchAndCall lay with
      | .error e => .error e
      | .ok l2 => ocApplyTouchAll ns (dictSet pl n l2)

/-- Lines 144-146: the leaf evaluation keys, `(k, 0)` for every layer with
no dependents. -/
def leafLayerKeys (g : HLG) : List (String × Nat) :=
  (g.dependencies.map Prod.fst).filterMap (fun k =>
    if dependentsOf g k = [] then some (k, 0) else none)

/-- The names whose entry in the tracer mapping is the *original* layer
object (neither mocked nor wrapped): lines 153-154 pop `_cached_dict` on
these pre-existing objects in place.  Only those that actually carry the
attribute are reported. -/
def ocPassthroughPopNames (g : HLG) : List String :=
  g.layers.filterMap (fun p =>
    if p.1 ∉ projectableInputLayerNames g ∧ ¬ p.2.hasMock
       ∧ p.1 ∉ akOutputLayerNames g ∧ ¬ p.2.optTouchAll ∧ p.2.cachedDict
    then some p.1 else none)

/-- Lines 180-182: on success, apply `project(state)` to each recorded input
layer inside a fresh copy of the original layer mapping. -/
def ocProjectLayers (cb : Collab) :
    List (String × String) → List (String × Layer) →
    Except PyErr (List (String × Layer))
  | [], ls => .ok ls
  | (n, st) :: rest, ls =>
    match pyGet ls n with
    | .error e => .error e
    | .ok lay => ocProjectLayers cb rest (dictSet ls n (cb.projectLayer n lay st))

/-- The outcome of `optimize_columns`: the returned graph, the warnings
raised via `warnings.warn`, the debug-level diagnostics, and the in-place
effects on input layer objects (the names whose `_cached_dict` attribute
was popped by lines 153-154). -/
structure OCResult where
  graph : HLG
  warns : List String
  debugLogs : List String
  cachePops : List String
deriving DecidableEq, Repr

/-- `optimize_columns` (lines 83-184), with the external collaborators and
the `awkward.optimization.on-fail` configuration passed explicitly. -/
def optimizeColumns (cb : Collab) (onFail : String) (g : HLG) :
    Except PyErr OCResult :=
  if hasProjectableAwkwardIoLayer g then
    match ocMockFold cb (projectableInputLayerNames g) g.layers with
    | .error e => .error e
    | .ok (pl1, states) =>
      match ocApplyMockOutput (akOutputLayerNames g) pl1 with
      | .error e => .error e
      | .ok pl2 =>
        match ocApplyTouchAll (optTouchAllLayerNames g) pl2 with
        | .error e => .error e
        | .ok _pl3 =>
          match cb.evalKeys (leafLayerKeys g) with
          | .ok _ =>
            match ocProjectLayers cb states g.layers with
            | .error e => .error e
            | .ok projected =>
              .ok ⟨⟨projected, g.dependencies⟩, [], [], ocPassthroughPopNames g⟩
          | .error err =>
            if onFail = "warn" then
              .ok ⟨g, [formatFailedWarning err], [], ocPassthroughPopNames g⟩
            else if onFail = "pass" then
              .ok ⟨g, [], [columnOptDebugMsg], ocPassthroughPopNames g⟩
            else if onFail = "raise" then
              .error err
            else
              .error ⟨"ValueError", invalidOnFailMsg onFail⟩
  else
    .ok ⟨g, [], [], []⟩

/-! ## Layer-chain fusion pass: `rewrite_layer_chains` (lines 281-370) -/

/-- The type of a Blockwise `indices` attribute: ordered
`(reference-name, axis-spec-or-None)` slots. -/
abbrev IndexList := List (String × Option (List String))

mutual

/-- One argument of `_recursive_replace` (lines 373-395).  `lind` is the
current chain member's `layer.indices`, `parent` the name of the previous
chain member, and the second argument the fused layer's `indices` list that
the Python code mutates by appending (threaded explicitly here).  A
reference token with a non-partitioned slot (axis None) is replaced by the
slot's name; a reference to the previous chain member by the member's name;
any other reference appends its slot to the fused indices and is renumbered;
lists and tuples recurse; everything else (dicts included) passes through. -/
def replaceArg (lind : IndexList) (parent : String) :
    Arg → IndexList → Except PyErr (Arg × IndexList)
  | Arg.ref n, ind =>
    match lind[n]? with
    | none => .error ⟨"IndexError", "list index out of range"⟩
    | some (nm, ax) =>
      match ax with
      | none => .ok (Arg.str nm, ind)
      | some _ =>
        if nm = parent then .ok (Arg.str parent, ind)
        else .ok (Arg.ref ind.length, ind ++ [(nm, ax)])
  | Arg.listArg xs, ind =>
    match replaceArgs lind parent xs ind with
    | .error e => .error e
    | .ok (ys, ind2) => .ok (Arg.listArg ys, ind2)
  | Arg.tupleArg xs, ind =>
    match replaceArgs lind parent xs ind with
    | .error e => .error e
    | .ok (ys, ind2) => .ok (Arg.tupleArg ys, ind2)
  | a, ind => .ok (a, ind)

/-- `_recursive_replace` over an argument sequence, left to right. -/
def replaceArgs (lind : IndexList) (parent : String) :
    Args → IndexList → Except PyErr (Args × IndexList)
  | .nil, ind => .ok (.nil, ind)
  | .cons a rest, ind =>
    match replaceArg lind parent a ind with
    | .error e => .error e
    | .ok (a2, ind2) =>
      match replaceArgs lind parent rest ind2 with
      | .error e => .error e
      | .ok (rest2, ind3) => .ok (.cons a2 rest2, ind3)

end

/-- The forward-walk guard of lines 302-307: from the current chain end
`lay`, the unique dependent `child` is returned when `lay` has exactly one
dependent, `child`'s only dependency is `lay`, `child` is an
AwkwardBlockwiseLayer, and both have equal length (partition count). -/
def fwdStep (g : HLG) (lay : String) : Except PyErr (Option String) :=
  match dependentsOf g lay with
  | [child] =>
    match pyGet g.dependencies child with
    | .error e => .error e
    | .ok ds =>
      if ds = [lay] then
        match pyGet g.layers child with
        | .error e => .error e
        | .ok childLay =>
          if childLay.isABL then
            match pyGet g.layers lay with
            | .error e => .error e
            | .ok layLay =>
              if layLay.pyLen = childLay.pyLen then .ok (some child) else .ok none
          else .ok none
      else .ok none
  | _ => .ok none

/-- The backward-walk guard of lines 315-320, symmetrically: the unique
parent of `lay` whose only dependent is `lay`, Blockwise and of equal
length. -/
def bwdStep (g : HLG) (lay : String) : Except PyErr (Option String) :=
  match pyGet g.dependencies lay with
  | .error e => .error e
  | .ok parents =>
    match parents with
    | [p] =>
      if dependentsOf g p = [lay] then
        match pyGet g.layers p with
        | .error e => .error e
        | .ok pLay =>
          if pLay.isABL then
            match pyGet g.layers lay with
            | .error e => .error e
            | .ok layLay =>
              if layLay.pyLen = pLay.pyLen then .ok (some p) else .ok none
          else .ok none
      else .ok none
    | _ => .ok none

/-- The forward walk of lines 302-312: extend the chain with successive
unique dependents, removing each from the unvisited set (`all_layers`;
Python's `set.remove` raises `KeyError` on an absent element). -/
def walkFwd (g : HLG) (al : List String) (lay : String) (chain : List String) :
    Except PyErr (List String × List String) :=
  match fwdStep g lay with
  | .error e => .error e
  | .ok none => .ok (chain, al)
  | .ok (some child) =>
    if h : child ∈ al then
      walkFwd g (al.erase child) child (chain ++ [child])
    else .error ⟨"KeyError", child⟩
termination_by al.length
decreasing_by
  have h1 := List.length_erase_of_mem h
  have h2 := List.length_pos_of_mem h
  omega

/-- The backward walk of lines 313-325: prepend successive unique parents,
removing each from the unvisited set. -/
def walkBwd (g : HLG) (al : List String) (lay : String) (chain : List String) :
    Except PyErr (List String × List String) :=
  match bwdStep g lay with
  | .error e => .error e
  | .ok none => .ok (chain, al)
  | .ok (some p) =>
    if h : p ∈ al then
      walkBwd g (al.erase p) p (p :: chain)
    else .error ⟨"KeyError", p⟩
termination_by al.length
decreasing_by
  have h1 := List.length_erase_of_mem h
  have h2 := List.length_pos_of_mem h
  omega

theorem walkFwd_al_le (g : HLG) (al : List String) (lay : String)
    (chain : List String) :
    ∀ c2 al2, walkFwd g al lay chain = .ok (c2, al2) → al2.length ≤ al.length := by
  induction al, lay, chain using walkFwd.induct g with
  | case1 al lay chain e heq =>
    intro c2 al2 h
    rw [walkFwd, heq] at h
    exact absurd h (by simp)
  | case2 al lay chain heq =>
    intro c2 al2 h
    rw [walkFwd, heq] at h
    simp only [Except.ok.injEq, Prod.mk.injEq] at h
    simp [← h.2]
  | case3 al lay chain child heq hmem ih =>
    intro c2 al2 h
    rw [walkFwd, heq] at h
    simp only [hmem, dif_pos] at h
    have := ih c2 al2 h
    have h1 := List.length_erase_of_mem hmem
    omega
  | case4 al lay chain child heq hmem =>
    intro c2 al2 h
    rw [walkFwd, heq] at h
    simp only [hmem, dif_neg] at h
    exact absurd h (by simp)

theorem walkBwd_al_le (g : HLG) (al : List String) (lay : String)
    (chain : List String) :
    ∀ c2 al2, walkBwd g al lay chain = .ok (c2, al2) → al2.length ≤ al.length := by
  induction al, lay, chain using walkBwd.induct g with
  | case1 al lay chain e heq =>
    intro c2 al2 h
    rw [walkBwd, heq] at h
    exact absurd h (by simp)
  | case2 al lay chain heq =>
    intro c2 al2 h
    rw [walkBwd, heq] at h
    simp only [Except.ok.injEq, Prod.mk.injEq] at h
    simp [← h.2]
  | case3 al lay chain p heq hmem ih =>
    intro c2 al2 h
    rw [walkBwd, heq] at h
    simp only [hmem, dif_pos] at h
    have := ih c2 al2 h
    have h1 := List.length_erase_of_mem hmem
    omega
  | case4 al lay chain p heq hmem =>
    intro c2 al2 h
    rw [walkBwd, heq] at h
    simp only [hmem, dif_neg] at h
    exact absurd h (by simp)

/-- The chain-discovery loop of lines 292-332: pop each unvisited layer,
pass non-Blockwise layers through, otherwise walk forwards then backwards;
a chain of length at least two is recorded and its last member's layer
shallow-copied into the output mapping, a singleton passes through. -/
def chainLoop (g : HLG) (al : List String) (chains : List (List String))
    (lys : List (String × Layer)) :
    Except PyErr (List (List String) × List (String × Layer)) :=
  match al with
  | [] => .ok (chains, lys)
  | lay :: rest =>
    match pyGet g.layers lay with
    | .error e => .error e
    | .ok val =>
      if val.isABL then
        match hf : walkFwd g rest lay [lay] with
        | .error e => .error e
        | .ok (chain1, al1) =>
          match hb : walkBwd g al1 lay chain1 with
          | .error e => .error e
          | .ok (chain2, al2) =>
            if chain2.length > 1 then
              match chain2.getLast? with
              | none => .error ⟨"IndexError", "list index out of range"⟩
              | some tail =>
                match pyGet g.layers tail with
                | .error e => .error e
                | .ok tailLay =>
                  chainLoop g al2 (chains ++ [chain2]) (dictSet lys tail tailLay)
            else
              chainLoop g al2 chains (dictSet lys lay val)
      else
        chainLoop g rest chains (dictSet lys lay val)
termination_by al.length
decreasing_by
  · have h1 := walkFwd_al_le g rest lay [lay] chain1 al1 hf
    have h2 := walkBwd_al_le g al1 lay chain1 chain2 al2 hb
    simp only [List.length_cons]
    omega
  · have h1 := walkFwd_al_le g rest lay [lay] chain1 al1 hf
    have h2 := walkBwd_al_le g al1 lay chain1 chain2 al2 hb
    simp only [List.length_cons]
    omega
  · simp

/-- The running accumulator of the per-chain rewrite: the fused `dsk`
(`subgraph`), the fused `indices`, the merged `io_deps`, and the entries the
loop of lines 353-354 wrote in place through the alias created at line 350
(`outlayer.io_deps = layer0.io_deps` shares the chain head's dict object). -/
structure FuseAcc where
  subgraph : List (String × Task)
  indices : IndexList
  ioDeps : List (String × String)
  written : List (String × String)
deriving DecidableEq, Repr

/-- Lines 351-358: fold over the chain members after the head, merging each
member's `io_deps`, rewriting its single task via `_recursive_replace`, and
adding it to the fused subgraph keyed by the member's name. -/
def fuseMembers (g : HLG) : String → List String → FuseAcc → Except PyErr FuseAcc
  | _, [], acc => .ok acc
  | parent, member :: rest, acc =>
    match pyGet g.layers member with
    | .error e => .error e
    | .ok layer =>
      let io2 := layer.ioDeps.foldl (fun d p => dictSet d p.1 p.2) acc.ioDeps
      match pyGet layer.dsk member with
      | .error e => .error e
      | .ok task =>
        match replaceArgs layer.indices parent task.args acc.indices with
        | .error e => .error e
        | .ok (args2, ind2) =>
          fuseMembers g member rest
            ⟨dictSet acc.subgraph member ⟨task.fn, args2⟩, ind2, io2,
             acc.written ++ layer.ioDeps⟩

/-- The state threaded through the fusion rewrite: the output layer mapping,
the output dependency mapping, and the in-place `io_deps` writes performed
on input (chain-head) layer objects, keyed by the chain head's name. -/
structure FuseState where
  lys : List (String × Layer)
  deps : List (String × List String)
  effects : List (String × List (String × String))
deriving DecidableEq, Repr

/-- Line 344: `[deps.pop(ch) for ch in chain[:-1]]`. -/
def popDeps : List (String × List String) → List String →
    Except PyErr (List (String × List String))
  | d, [] => .ok d
  | d, k :: ks =>
    match dictPop d k with
    | .error e => .error e
    | .ok d2 => popDeps d2 ks

/-- Lines 335-369: rewrite one discovered chain into the single fused layer
keyed by the chain's last member. -/
def fuseChain (g : HLG) (st : FuseState) (chain : List String) :
    Except PyErr FuseState :=
  match chain with
  | [] => .error ⟨"IndexError", "list index out of range"⟩
  | c0 :: members =>
    let outkey := List.getLast (c0 :: members) (by simp)
    match pyGet g.layers c0 with
    | .error e => .error e
    | .ok layer0 =>
      match pyGet st.lys outkey with
      | .error e => .error e
      | .ok outlayer =>
        match (layer0.numblocks.filterMap Prod.snd).head? with
        | none => .error ⟨"IndexError", "list index out of range"⟩
        | some nb =>
          match pyGet st.deps c0 with
          | .error e => .error e
          | .ok d0 =>
            match popDeps (dictSet st.deps outkey d0) (c0 :: members).dropLast with
            | .error e => .error e
            | .ok deps2 =>
              match fuseMembers g c0 members
                  ⟨layer0.dsk, layer0.indices, layer0.ioDeps, []⟩ with
              | .error e => .error e
              | .ok acc =>
                let outlayer2 : Layer :=
                  { outlayer with
                    ioDeps := acc.ioDeps
                    numblocks := (acc.indices.filterMap (fun p =>
                        if p.2.isSome then some (p.1, (some nb : Option Nat))
                        else none)).foldl (fun d p => dictSet d p.1 p.2) []
                    dsk := acc.subgraph
                    hasDims := false
                    indices := acc.indices.map (fun p =>
                        (p.1, if p.2.isSome then some [".0"] else none))
                    outputIndices := [".0"]
                    inputsAttr := some (layer0.inputsAttr.getD [])
                    cachedDict := false }
                .ok ⟨dictSet st.lys outkey outlayer2, deps2,
                     if acc.written = [] then st.effects
                     else st.effects ++ [(c0, acc.written)]⟩

/-- The loop of line 335 over all discovered chains. -/
def fuseAll (g : HLG) : FuseState → List (List String) → Except PyErr FuseState
  | st, [] => .ok st
  | st, c :: cs =>
    match fuseChain g st c with
    | .error e => .error e
    | .ok st2 => fuseAll g st2 cs

/-- `rewrite_layer_chains` (lines 281-370): discover maximal chains, then
fuse each; returns the new graph and the in-place `io_deps` writes performed
on chain-head input layers (see the module comment on the effects channel). -/
def rewriteLayerChains (g : HLG) :
    Except PyErr (HLG × List (String × List (String × String))) :=
  match chainLoop g (g.layers.map Prod.fst) [] [] with
  | .error e => .error e
  | .ok (chains, lys) =>
    match fuseAll g ⟨lys, g.dependencies, []⟩ chains with
    | .error e => .error e
    | .ok st => .ok (⟨st.lys, st.deps⟩, st.effects)

/-! ## Task evaluation semantics for the touch instrumentation -/

/-- A value at task-evaluation time: Python `None`, an awkward array or
record carrying tracer data buffers, or any other value. -/
inductive Data where
  | pyNone
  | arr (bufs : List String)
  | other
deriving DecidableEq, Repr

/-- `ak.typetracer.touch_data` as recorded events: the buffers of an array
value are touched, other values record nothing. -/
def touchD : Data → List String
  | .arr bs => bs
  | _ => []

/-- Evaluate one task whose arguments the scheduler has already resolved to
values via `ρ`; named callables are interpreted by `interp`.  Returns the
task's value and the touch events recorded: `_touch_all_data`
(lines 245-250) touches every argument and returns None;
`_touch_and_call_fn` (lines 265-267) touches every argument, then calls the
wrapped function. -/
def evalTask (interp : String → List Data → Data) (ρ : Arg → Data) (t : Task) :
    Data × List String :=
  match t.fn with
  | .named f => (interp f (t.args.toList.map ρ), [])
  | .touchAllData =>
    (Data.pyNone, (t.args.toList.map ρ).foldr (fun v acc => touchD v ++ acc) [])
  | .touchAndCallFn =>
    match t.args with
    | .cons (Arg.func (FnV.named f)) rest =>
      let vs := rest.toList.map ρ
      (interp f vs, vs.foldr (fun v acc => touchD v ++ acc) [])
    | _ => (Data.pyNone, [])

/-! ## Concrete fixtures used by witnesses and counterexamples -/

/-- A plain opaque layer: no capabilities, no blockwise metadata. -/
def baseLayer : Layer :=
  { isABL := false, isInput := false, isProjectable := false, hasMock := false,
    annots := none, optTouchAll := false, indices := [], numblocks := [],
    ioDeps := [], dsk := [], outputIndices := [], hasDims := false,
    cachedDict := false, inputsAttr := none, pyLen := 1 }

/-- A projectable awkward input layer. -/
def projLayer : Layer := { baseLayer with isInput := true, isProjectable := true }

/-- A one-layer graph whose only layer is a projectable input layer. -/
def gProj : HLG := ⟨[("a", projLayer)], [("a", [])]⟩

/-- Trivial collaborators: mocking and projecting are identities, the tracer
evaluation succeeds. -/
def cbTriv : Collab :=
  ⟨fun _ l => .ok (l, ""), fun _ l => .ok l, fun _ l _ => l, fun _ => .ok ()⟩

/-- Collaborators whose input-layer `mock()` raises. -/
def cbMockBoom : Collab :=
  ⟨fun _ _ => .error ⟨"RuntimeError", "boom"⟩, fun _ l => .ok l,
   fun _ l _ => l, fun _ => .ok ()⟩

/-- Collaborators whose tracer evaluation raises. -/
def cbEvalBoom : Collab :=
  ⟨fun _ l => .ok (l, ""), fun _ l => .ok l, fun _ l _ => l,
   fun _ => .error ⟨"TypeError", "tracer"⟩⟩

/-! ## C7: no-op fast path of `optimize_columns` -/

/-- C7: for every graph in which no layer is both an AwkwardInputLayer and
is_projectable, `optimize_columns` returns the input graph unchanged - same
layers, same dependencies, no warnings, no in-place effects - for every
collaborator set and configuration, so in particular no tracer evaluation
and no rewriting takes place (lines 114-115). -/
theorem optimizeColumns_noop_without_projectable (cb : Collab) (onFail : String)
    (g : HLG) (h : hasProjectableAwkwardIoLayer g = false) :
    optimizeColumns cb onFail g = .ok ⟨g, [], [], []⟩ := by
  unfold optimizeColumns
  simp [h]

/-- Witness for C7 at a concrete one-layer graph without projectable input
layers. -/
theorem optimizeColumns_noop_witness :
    hasProjectableAwkwardIoLayer ⟨[("a", baseLayer)], [("a", [])]⟩ = false ∧
    optimizeColumns cbTriv "warn" ⟨[("a", baseLayer)], [("a", [])]⟩ =
      .ok ⟨⟨[("a", baseLayer)], [("a", [])]⟩, [], [], []⟩ :=
  ⟨by decide,
   optimizeColumns_noop_without_projectable cbTriv "warn"
     ⟨[("a", baseLayer)], [("a", [])]⟩ (by decide)⟩

/-! ## C4: the argument substitution of `_recursive_replace` -/

/-- C4: during fusion every reference-token argument is rewritten by exactly
the case analysis of `_recursive_replace` (lines 373-395): a token whose
slot has axis None is replaced by the slot's literal reference name; a token
whose slot refers to the immediately preceding chain member is replaced by
the sentinel (the member's key); any other token appends the referenced slot
to the fused indices and is renumbered to the newly appended slot index; the
substitution recurses into list and tuple arguments (threading the indices
state left to right); every other argument - dicts included - passes through
unchanged with the indices untouched. -/
theorem recursive_replace_spec
    (lind : IndexList) (parent nm : String) (ax : List String) (n : Nat)
    (ind : IndexList) (xs : Args) (kvs : KVs) (s : String) (f : FnV) (i : Int)
    (a : Arg) (rest : Args) :
    (lind[n]? = some (nm, none) →
      replaceArg lind parent (Arg.ref n) ind = .ok (Arg.str nm, ind))
  ∧ (lind[n]? = some (parent, some ax) →
      replaceArg lind parent (Arg.ref n) ind = .ok (Arg.str parent, ind))
  ∧ (lind[n]? = some (nm, some ax) → nm ≠ parent →
      replaceArg lind parent (Arg.ref n) ind =
        .ok (Arg.ref ind.length, ind ++ [(nm, some ax)]))
  ∧ (replaceArg lind parent (Arg.listArg xs) ind =
      match replaceArgs lind parent xs ind with
      | .error e => .error e
      | .ok (ys, ind2) => .ok (Arg.listArg ys, ind2))
  ∧ (replaceArg lind parent (Arg.tupleArg xs) ind =
      match replaceArgs lind parent xs ind with
      | .error e => .error e
      | .ok (ys, ind2) => .ok (Arg.tupleArg ys, ind2))
  ∧ (replaceArg lind parent (Arg.dictArg kvs) ind = .ok (Arg.dictArg kvs, ind))
  ∧ (replaceArg lind parent (Arg.str s) ind = .ok (Arg.str s, ind))
  ∧ (replaceArg lind parent (Arg.func f) ind = .ok (Arg.func f, ind))
  ∧ (replaceArg lind parent (Arg.intArg i) ind = .ok (Arg.intArg i, ind))
  ∧ (replaceArg lind parent Arg.noneArg ind = .ok (Arg.noneArg, ind))
  ∧ (replaceArgs lind parent Args.nil ind = .ok (Args.nil, ind))
  ∧ (replaceArgs lind parent (Args.cons a rest) ind =
      match replaceArg lind parent a ind with
      | .error e => .error e
      | .ok (a2, ind2) =>
        match replaceArgs lind parent rest ind2 with
        | .error e => .error e
        | .ok (rest2, ind3) => .ok (Args.cons a2 rest2, ind3)) := by
  refine ⟨?_, ?_, ?_, ?_, ?_, ?_, ?_, ?_, ?_, ?_, ?_, ?_⟩
  · intro h; rw [replaceArg, h]
  · intro h; rw [replaceArg, h]; simp
  · intro h hne; rw [replaceArg, h]; simp [hne]
  · rw [replaceArg]
  · rw [replaceArg]
  · simp [replaceArg]
  · simp [replaceArg]
  · simp [replaceArg]
  · simp [replaceArg]
  · simp [replaceArg]
  · rw [replaceArgs]
  · rw [replaceArgs]

/-- Witness for C4: each reference-token case of the substitution at
concrete inputs. -/
theorem recursive_replace_spec_witness :
    replaceArg [("lit", none)] "prev" (Arg.ref 0) [] = .ok (Arg.str "lit", []) ∧
    replaceArg [("prev", some [".0"])] "prev" (Arg.ref 0) [] =
      .ok (Arg.str "prev", []) ∧
    replaceArg [("ext", some [".0"])] "prev" (Arg.ref 0) [("x", none)] =
      .ok (Arg.ref 1, [("x", none), ("ext", some [".0"])]) :=
  ⟨(recursive_replace_spec [("lit", none)] "prev" "lit" [".0"] 0 [] Args.nil
      KVs.nil "" FnV.touchAllData 0 Arg.noneArg Args.nil).1 (by decide),
   (recursive_replace_spec [("prev", some [".0"])] "prev" "prev" [".0"] 0 []
      Args.nil KVs.nil "" FnV.touchAllData 0 Arg.noneArg Args.nil).2.1 (by decide),
   (recursive_replace_spec [("ext", some [".0"])] "prev" "ext" [".0"] 0
      [("x", none)] Args.nil KVs.nil "" FnV.touchAllData 0 Arg.noneArg
      Args.nil).2.2.1 (by decide) (by decide)⟩

/-! ## C6: the output-layer instrumentation `_mock_output` -/

/-- An `ak_output`-annotated layer whose single task applies a named writer
callable to one argument. -/
def c6Layer : Layer :=
  { baseLayer with
    annots := some [("ak_output", true)],
    dsk := [("out", ⟨FnV.named "write", Args.cons (Arg.str "x") Args.nil⟩)] }

/-- An interpretation in which the original callable returns an array with
buffer set containing R, while its argument resolves to an array with buffer
set containing A. -/
def c6Interp : String → List Data → Data := fun _ _ => Data.arr ["R"]

/-- The scheduler resolution of arguments for the C6 counterexample. -/
def c6Rho : Arg → Data := fun _ => Data.arr ["A"]

/-- C6 counterexample: `_mock_output` does not wrap the task to compute the
original result and then touch that result - it *replaces* the callable with
`_touch_all_data`, so the rewritten task returns None (the original result
is never computed) and the touches recorded are those of the original task's
*arguments* (buffer A), not of its result (buffer R). -/
theorem mock_output_counterexample :
    mockOutput c6Layer =
      .ok { c6Layer with
            dsk := [("out", ⟨FnV.touchAllData, Args.cons (Arg.str "x") Args.nil⟩)] } ∧
    (evalTask c6Interp c6Rho
        ⟨FnV.touchAllData, Args.cons (Arg.str "x") Args.nil⟩).2 = ["A"] ∧
    touchD (evalTask c6Interp c6Rho
        ⟨FnV.named "write", Args.cons (Arg.str "x") Args.nil⟩).1 = ["R"] ∧
    (evalTask c6Interp c6Rho
        ⟨FnV.touchAllData, Args.cons (Arg.str "x") Args.nil⟩).2 ≠
      touchD (evalTask c6Interp c6Rho
        ⟨FnV.named "write", Args.cons (Arg.str "x") Args.nil⟩).1 ∧
    (evalTask c6Interp c6Rho
        ⟨FnV.touchAllData, Args.cons (Arg.str "x") Args.nil⟩).1 ≠
      (evalTask c6Interp c6Rho
        ⟨FnV.named "write", Args.cons (Arg.str "x") Args.nil⟩).1 := by
  refine ⟨rfl, rfl, rfl, by decide, by decide⟩

/-- C6 as amended: for every layer selected by the `ak_output` annotation
scan with a single task template, `_mock_output` rewrites that task into one
that records a touch signal on all tracer-capable values among the original
task's *arguments*, discarding the original callable (whose result is never
computed) and returning None. -/
theorem mock_output_touches_args (g : HLG) (name : String) (layer : Layer)
    (k : String) (t : Task)
    (hann : name ∈ akOutputLayerNames g)
    (hlay : g.layers.lookup name = some layer)
    (htask : layer.dsk = [(k, t)]) :
    mockOutput layer =
      .ok { layer with dsk := [(k, ⟨FnV.touchAllData, t.args⟩)] } ∧
    ∀ interp ρ, evalTask interp ρ ⟨FnV.touchAllData, t.args⟩ =
      (Data.pyNone,
       (t.args.toList.map ρ).foldr (fun v acc => touchD v ++ acc) []) := by
  constructor
  · rw [mockOutput, htask]
    simp
  · intro interp ρ
    rfl

/-- Witness for C6 as amended, at the concrete annotated writer layer. -/
theorem mock_output_touches_args_witness :
    ("w" ∈ akOutputLayerNames ⟨[("w", c6Layer)], [("w", [])]⟩) ∧
    mockOutput c6Layer =
      .ok { c6Layer with
            dsk := [("out", ⟨FnV.touchAllData, Args.cons (Arg.str "x") Args.nil⟩)] } :=
  ⟨by decide,
   (mock_output_touches_args ⟨[("w", c6Layer)], [("w", [])]⟩ "w" c6Layer "out"
      ⟨FnV.named "write", Args.cons (Arg.str "x") Args.nil⟩ (by decide)
      (by decide) (by decide)).1⟩

/-! ## C10: invalid `on-fail` configuration -/

/-- C10 counterexample: with an invalid on-fail value ("bogus") but a tracer
evaluation that succeeds, `optimize_columns` raises nothing - the
configuration is only consulted on the failure path (lines 159-176) - so the
pass does not raise a ValueError for every graph. -/
theorem invalid_onfail_counterexample :
    optimizeColumns cbTriv "bogus" gProj = .ok ⟨gProj, [], [], []⟩ := by decide

/-- C10 as amended: when the tracer-graph evaluation raises and the on-fail
configuration value is none of warn, pass or raise, `optimize_columns`
raises a ValueError whose message identifies the bad value and states the
valid set (lines 172-176). -/
theorem optimizeColumns_invalid_onfail (cb : Collab) (onFail : String)
    (g : HLG) (err : PyErr) (pl1 : List (String × Layer))
    (sts : List (String × String)) (pl2 pl3 : List (String × Layer))
    (hproj : hasProjectableAwkwardIoLayer g = true)
    (h1 : ocMockFold cb (projectableInputLayerNames g) g.layers = .ok (pl1, sts))
    (h2 : ocApplyMockOutput (akOutputLayerNames g) pl1 = .ok pl2)
    (h3 : ocApplyTouchAll (optTouchAllLayerNames g) pl2 = .ok pl3)
    (heval : cb.evalKeys (leafLayerKeys g) = .error err)
    (hw : onFail ≠ "warn") (hp : onFail ≠ "pass") (hr : onFail ≠ "raise") :
    optimizeColumns cb onFail g = .error ⟨"ValueError", invalidOnFailMsg onFail⟩ := by
  unfold optimizeColumns
  simp only [hproj, h1, h2, h3, heval, if_true]
  simp [hw, hp, hr]

/-- Witness for C10 as amended at a concrete graph, collaborators whose
tracer evaluation raises, and the invalid value "bogus". -/
theorem optimizeColumns_invalid_onfail_witness :
    optimizeColumns cbEvalBoom "bogus" gProj =
      .error ⟨"ValueError", invalidOnFailMsg "bogus"⟩ :=
  optimizeColumns_invalid_onfail cbEvalBoom "bogus" gProj ⟨"TypeError", "tracer"⟩
    [("a", projLayer)] [("a", "")] [("a", projLayer)] [("a", projLayer)]
    (by decide) (by decide) (by decide) (by decide) (by decide)
    (by decide) (by decide) (by decide)

/-! ## C1: the failure policy of the column projection pass -/

/-- C1 counterexample: an exception raised while *building* the tracer graph
(here the input layer's `mock()` raising) is outside the try block of
line 152 and propagates out of `optimize_columns` even under the default
policy "warn", instead of the warn-and-return-original behaviour the claim
asserts for every exception during building or evaluation. -/
theorem onfail_policy_counterexample :
    optimizeColumns cbMockBoom "warn" gProj = .error ⟨"RuntimeError", "boom"⟩ := by
  decide

/-- C1 as amended: for every graph on which the tracer-graph *evaluation*
(the try block of lines 152-158: cache invalidation, the synchronous
evaluation of the leaf keys, and the touching of its results) raises an
exception, `optimize_columns` under policy "warn" returns the original
input graph and emits exactly the documented warning template filled with
the exception type and message; under "pass" it returns the original graph
with no warning and only a debug-level diagnostic; under "raise" it
propagates the original exception unchanged. -/
theorem optimizeColumns_onfail_policy (cb : Collab) (g : HLG) (err : PyErr)
    (pl1 : List (String × Layer)) (sts : List (String × String))
    (pl2 pl3 : List (String × Layer))
    (hproj : hasProjectableAwkwardIoLayer g = true)
    (h1 : ocMockFold cb (projectableInputLayerNames g) g.layers = .ok (pl1, sts))
    (h2 : ocApplyMockOutput (akOutputLayerNames g) pl1 = .ok pl2)
    (h3 : ocApplyTouchAll (optTouchAllLayerNames g) pl2 = .ok pl3)
    (heval : cb.evalKeys (leafLayerKeys g) = .error err) :
    optimizeColumns cb "warn" g =
      .ok ⟨g, [formatFailedWarning err], [], ocPassthroughPopNames g⟩ ∧
    optimizeColumns cb "pass" g =
      .ok ⟨g, [], [columnOptDebugMsg], ocPassthroughPopNames g⟩ ∧
    optimizeColumns cb "raise" g = .error err := by
  unfold optimizeColumns
  simp [hproj, h1, h2, h3, heval]

/-- Witness for C1 as amended at a concrete graph and failing tracer
evaluation. -/
theorem optimizeColumns_onfail_policy_witness :
    optimizeColumns cbEvalBoom "warn" gProj =
      .ok ⟨gProj, [formatFailedWarning ⟨"TypeError", "tracer"⟩], [],
           ocPassthroughPopNames gProj⟩ ∧
    optimizeColumns cbEvalBoom "raise" gProj = .error ⟨"TypeError", "tracer"⟩ :=
  ⟨(optimizeColumns_onfail_policy cbEvalBoom gProj ⟨"TypeError", "tracer"⟩
      [("a", projLayer)] [("a", "")] [("a", projLayer)] [("a", projLayer)]
      (by decide) (by decide) (by decide) (by decide) (by decide)).1,
   (optimizeColumns_onfail_policy cbEvalBoom gProj ⟨"TypeError", "tracer"⟩
      [("a", projLayer)] [("a", "")] [("a", projLayer)] [("a", projLayer)]
      (by decide) (by decide) (by decide) (by decide) (by decide)).2.2⟩

/-! ## Chain structure: the guard both walks enforce -/

/-- Whether the layer at name `a` exists and is an AwkwardBlockwiseLayer. -/
def layerABL (g : HLG) (a : String) : Bool :=
  match g.layers.lookup a with
  | some l => l.isABL
  | none => false

/-- The one-to-one fusable edge between consecutive chain members: `b` is
the unique dependent of `a`, `a` is the unique dependency of `b`, both are
AwkwardBlockwiseLayers, and both have equal length (partition count) - the
conjunction enforced by the guards of lines 302-307 and 315-320. -/
def edgeOKb (g : HLG) (a b : String) : Bool :=
  (dependentsOf g a == [b]) &&
  (g.dependencies.lookup b == some [a]) &&
  layerABL g a && layerABL g b &&
  (match g.layers.lookup a, g.layers.lookup b with
   | some la, some lb => la.pyLen == lb.pyLen
   | _, _ => false)

/-- Every consecutive pair of the list is a fusable edge. -/
def ChainPairsOK (g : HLG) : List String → Prop
  | [] => True
  | [_] => True
  | a :: b :: rest => edgeOKb g a b = true ∧ ChainPairsOK g (b :: rest)

theorem chainPairsOK_iff_zip (g : HLG) :
    ∀ l : List String, ChainPairsOK g l ↔
      ∀ p ∈ l.zip l.tail, edgeOKb g p.1 p.2 = true := by
  intro l
  induction l with
  | nil => simp [ChainPairsOK]
  | cons a rest ih =>
    cases rest with
    | nil => simp [ChainPairsOK]
    | cons b rest2 =>
      simp only [ChainPairsOK, List.zip, List.tail_cons, List.zipWith_cons_cons,
        List.mem_cons, forall_eq_or_imp]
      rw [ih]
      simp [List.zip]

theorem chainPairsOK_tail (g : HLG) (a : String) (l : List String)
    (h : ChainPairsOK g (a :: l)) : ChainPairsOK g l := by
  cases l with
  | nil => trivial
  | cons b rest => exact h.2

/-- Appending `b` to a chain ending in `a` preserves the pair property when
the edge from `a` to `b` is fusable. -/
theorem chainPairsOK_append (g : HLG) :
    ∀ (xs : List String) (a b : String), ChainPairsOK g xs →
      xs.getLast? = some a → edgeOKb g a b = true →
      ChainPairsOK g (xs ++ [b]) := by
  intro xs
  induction xs with
  | nil => intro a b _ hl; simp at hl
  | cons x rest ih =>
    intro a b hok hl he
    cases rest with
    | nil =>
      simp at hl
      subst hl
      exact ⟨he, trivial⟩
    | cons y rest2 =>
      rw [List.getLast?_cons_cons] at hl
      exact ⟨hok.1, ih a b hok.2 hl he⟩

/-- Prepending a fusable predecessor preserves the pair property. -/
theorem chainPairsOK_cons (g : HLG) (p : String) (xs : List String)
    (a : String) (h : ChainPairsOK g xs) (hh : xs.head? = some a)
    (he : edgeOKb g p a = true) : ChainPairsOK g (p :: xs) := by
  cases xs with
  | nil => simp at hh
  | cons y rest =>
    simp at hh
    subst hh
    exact ⟨he, h⟩

theorem pyGet_ok {α : Type} (m : List (String × α)) (k : String) (v : α) :
    pyGet m k = .ok v ↔ m.lookup k = some v := by
  unfold pyGet
  cases h : m.lookup k <;> simp

/-- The guard of the forward walk (lines 302-307), as a proposition over the
graph. -/
def FwdGuard (g : HLG) (a b : String) : Prop :=
  dependentsOf g a = [b] ∧ g.dependencies.lookup b = some [a] ∧
  ∃ lb la, g.layers.lookup b = some lb ∧ lb.isABL = true ∧
    g.layers.lookup a = some la ∧ la.pyLen = lb.pyLen

/-- The guard of the backward walk (lines 315-320), as a proposition; `a` is
the candidate parent of `b`. -/
def BwdGuard (g : HLG) (a b : String) : Prop :=
  g.dependencies.lookup b = some [a] ∧ dependentsOf g a = [b] ∧
  ∃ la lb, g.layers.lookup a = some la ∧ la.isABL = true ∧
    g.layers.lookup b = some lb ∧ lb.pyLen = la.pyLen

theorem fwdStep_some_iff (g : HLG) (a b : String) :
    fwdStep g a = .ok (some b) ↔ FwdGuard g a b := by
  unfold fwdStep FwdGuard
  constructor
  · intro h
    split at h
    case h_2 => exact absurd h (by simp)
    case h_1 c heq =>
      split at h
      case h_1 => exact absurd h (by simp)
      case h_2 ds hds =>
        split at h
        case isFalse => exact absurd h (by simp)
        case isTrue hdsa =>
          split at h
          case h_1 => exact absurd h (by simp)
          case h_2 cl hcl =>
            split at h
            case isFalse => exact absurd h (by simp)
            case isTrue habl =>
              split at h
              case h_1 => exact absurd h (by simp)
              case h_2 la hla =>
                split at h
                case isFalse => exact absurd h (by simp)
                case isTrue hlen =>
                  simp only [Except.ok.injEq, Option.some.injEq] at h
                  subst h
                  subst hdsa
                  rw [pyGet_ok] at hds hcl hla
                  exact ⟨heq, hds, cl, la, hcl, habl, hla, hlen⟩
  · rintro ⟨h1, h2, lb, la, hlb, habl, hla, hlen⟩
    rw [h1]
    have e2 : pyGet g.dependencies b = .ok [a] := (pyGet_ok _ _ _).mpr h2
    have e3 : pyGet g.layers b = .ok lb := (pyGet_ok _ _ _).mpr hlb
    have e4 : pyGet g.layers a = .ok la := (pyGet_ok _ _ _).mpr hla
    simp [e2, e3, habl, e4, hlen]

theorem bwdStep_some_iff (g : HLG) (a b : String) :
    bwdStep g b = .ok (some a) ↔ BwdGuard g a b := by
  unfold bwdStep BwdGuard
  constructor
  · intro h
    split at h
    case h_1 => exact absurd h (by simp)
    case h_2 parents hpar =>
      split at h
      case h_2 => exact absurd h (by simp)
      case h_1 p =>
        split at h
        case isFalse => exact absurd h (by simp)
        case isTrue hdep =>
          split at h
          case h_1 => exact absurd h (by simp)
          case h_2 pl hpl =>
            split at h
            case isFalse => exact absurd h (by simp)
            case isTrue habl =>
              split at h
              case h_1 => exact absurd h (by simp)
              case h_2 ll hll =>
                split at h
                case isFalse => exact absurd h (by simp)
                case isTrue hlen =>
                  simp only [Except.ok.injEq, Option.some.injEq] at h
                  subst h
                  rw [pyGet_ok] at hpar hpl hll
                  exact ⟨hpar, hdep, pl, ll, hpl, habl, hll, hlen⟩
  · rintro ⟨h1, h2, la, lb, hla, habl, hlb, hlen⟩
    have e1 : pyGet g.dependencies b = .ok [a] := (pyGet_ok _ _ _).mpr h1
    have e3 : pyGet g.layers a = .ok la := (pyGet_ok _ _ _).mpr hla
    have e4 : pyGet g.layers b = .ok lb := (pyGet_ok _ _ _).mpr hlb
    rw [e1]
    simp [h2, e3, habl, e4, hlen]

theorem edgeOKb_iff_fwd (g : HLG) (a b : String) :
    edgeOKb g a b = true ↔ (FwdGuard g a b ∧ layerABL g a = true) := by
  unfold edgeOKb FwdGuard layerABL
  cases hla : g.layers.lookup a with
  | none => simp [hla]
  | some la =>
    cases hlb : g.layers.lookup b with
    | none => simp [hla, hlb]
    | some lb =>
      simp only [Bool.and_eq_true, beq_iff_eq]
      constructor
      · rintro ⟨⟨⟨⟨h1, h2⟩, h3⟩, h4⟩, h5⟩
        exact ⟨⟨h1, h2, lb, la, rfl, h4, rfl, h5⟩, h3⟩
      · rintro ⟨⟨h1, h2, lb2, la2, hlb2, habl2, hla2, hlen2⟩, h3⟩
        cases hlb2
        cases hla2
        exact ⟨⟨⟨⟨h1, h2⟩, h3⟩, habl2⟩, hlen2⟩

theorem edgeOKb_iff_bwd (g : HLG) (a b : String) :
    edgeOKb g a b = true ↔ (BwdGuard g a b ∧ layerABL g b = true) := by
  unfold edgeOKb BwdGuard layerABL
  cases hla : g.layers.lookup a with
  | none => simp [hla]
  | some la =>
    cases hlb : g.layers.lookup b with
    | none => simp [hla, hlb]
    | some lb =>
      simp only [Bool.and_eq_true, beq_iff_eq]
      constructor
      · rintro ⟨⟨⟨⟨h1, h2⟩, h3⟩, h4⟩, h5⟩
        exact ⟨⟨h2, h1, la, lb, rfl, h3, rfl, h5.symm⟩, h4⟩
      · rintro ⟨⟨h1, h2, la2, lb2, hla2, habl2, hlb2, hlen2⟩, h3⟩
        cases hlb2
        cases hla2
        exact ⟨⟨⟨⟨h2, h1⟩, habl2⟩, h3⟩, hlen2.symm⟩

theorem edgeOKb_ABL (g : HLG) (a b : String) (h : edgeOKb g a b = true) :
    layerABL g a = true ∧ layerABL g b = true := by
  unfold edgeOKb at h
  simp only [Bool.and_eq_true] at h
  exact ⟨h.1.1.2, h.1.2⟩

/-- What the forward walk guarantees: the extended chain keeps the pairwise
edge property, ends in a layer with no further fusable forward step, and is
the input chain plus elements removed from the unvisited set. -/
theorem walkFwd_spec (g : HLG) (al : List String) (lay : String)
    (chain : List String) :
    ∀ c2 al2, walkFwd g al lay chain = .ok (c2, al2) →
      chain.getLast? = some lay → layerABL g lay = true → ChainPairsOK g chain →
      ChainPairsOK g c2 ∧
      (∃ last, c2.getLast? = some last ∧ layerABL g last = true ∧
        fwdStep g last = .ok none) ∧
      (∃ post, c2 = chain ++ post ∧
        al2 = post.foldl (fun l x => l.erase x) al ∧ ∀ x ∈ post, x ∈ al) := by
  induction al, lay, chain using walkFwd.induct g with
  | case1 al lay chain e heq =>
    intro c2 al2 h _ _ _
    rw [walkFwd, heq] at h
    exact absurd h (by simp)
  | case2 al lay chain heq =>
    intro c2 al2 h hlast habl hok
    rw [walkFwd, heq] at h
    simp only [Except.ok.injEq, Prod.mk.injEq] at h
    obtain ⟨hc, ha⟩ := h
    subst hc; subst ha
    exact ⟨hok, ⟨lay, hlast, habl, heq⟩, [], by simp⟩
  | case3 al lay chain child heq hmem ih =>
    intro c2 al2 h hlast habl hok
    rw [walkFwd, heq] at h
    simp only [hmem, dif_pos] at h
    have hedge : edgeOKb g lay child = true :=
      (edgeOKb_iff_fwd g lay child).mpr ⟨(fwdStep_some_iff g lay child).mp heq, habl⟩
    have hablc : layerABL g child = true := (edgeOKb_ABL g lay child hedge).2
    have hok2 : ChainPairsOK g (chain ++ [child]) :=
      chainPairsOK_append g chain lay child hok hlast hedge
    have hlast2 : (chain ++ [child]).getLast? = some child := by
      simp [List.getLast?_concat]
    obtain ⟨r1, r2, post, hpost, hal2, hsub⟩ := ih c2 al2 h hlast2 hablc hok2
    refine ⟨r1, r2, child :: post, ?_, ?_, ?_⟩
    · rw [hpost]; simp
    · simpa using hal2
    · intro x hx
      rcases List.mem_cons.mp hx with hx | hx
      · subst hx; exact hmem
      · exact List.mem_of_mem_erase (hsub x hx)
  | case4 al lay chain child heq hmem =>
    intro c2 al2 h _ _ _
    rw [walkFwd, heq] at h
    simp only [hmem, dif_neg] at h
    exact absurd h (by simp)

/-- What the backward walk guarantees, symmetrically: the extended chain
keeps the pairwise edge property, starts at a layer with no further fusable
backward step, and is the input chain with prepended elements removed from
the unvisited set. -/
theorem walkBwd_spec (g : HLG) (al : List String) (lay : String)
    (chain : List String) :
    ∀ c2 al2, walkBwd g al lay chain = .ok (c2, al2) →
      chain.head? = some lay → layerABL g lay = true → ChainPairsOK g chain →
      ChainPairsOK g c2 ∧
      (∃ hd, c2.head? = some hd ∧ layerABL g hd = true ∧
        bwdStep g hd = .ok none) ∧
      (∃ pre, c2 = pre ++ chain ∧
        al2 = pre.reverse.foldl (fun l x => l.erase x) al ∧ ∀ x ∈ pre, x ∈ al) := by
  induction al, lay, chain using walkBwd.induct g with
  | case1 al lay chain e heq =>
    intro c2 al2 h _ _ _
    rw [walkBwd, heq] at h
    exact absurd h (by simp)
  | case2 al lay chain heq =>
    intro c2 al2 h hhead habl hok
    rw [walkBwd, heq] at h
    simp only [Except.ok.injEq, Prod.mk.injEq] at h
    obtain ⟨hc, ha⟩ := h
    subst hc; subst ha
    exact ⟨hok, ⟨lay, hhead, habl, heq⟩, [], by simp⟩
  | case3 al lay chain p heq hmem ih =>
    intro c2 al2 h hhead habl hok
    rw [walkBwd, heq] at h
    simp only [hmem, dif_pos] at h
    have hedge : edgeOKb g p lay = true :=
      (edgeOKb_iff_bwd g p lay).mpr ⟨(bwdStep_some_iff g p lay).mp heq, habl⟩
    have hablp : layerABL g p = true := (edgeOKb_ABL g p lay hedge).1
    have hok2 : ChainPairsOK g (p :: chain) :=
      chainPairsOK_cons g p chain lay hok hhead hedge
    have hhead2 : (p :: chain).head? = some p := by simp
    obtain ⟨r1, r2, pre, hpre, hal2, hsub⟩ := ih c2 al2 h hhead2 hablp hok2
    refine ⟨r1, r2, pre ++ [p], ?_, ?_, ?_⟩
    · rw [hpre]; simp
    · rw [List.reverse_append]; simpa using hal2
    · intro x hx
      rcases List.mem_append.mp hx with hx | hx
      · exact List.mem_of_mem_erase (hsub x hx)
      · simp at hx; subst hx; exact hmem
  | case4 al lay chain p heq hmem =>
    intro c2 al2 h _ _ _
    rw [walkBwd, heq] at h
    simp only [hmem, dif_neg] at h
    exact absurd h (by simp)

theorem layerABL_of_pyGet (g : HLG) (lay : String) (ml : Layer)
    (heq : pyGet g.layers lay = .ok ml) (habl : ml.isABL = true) :
    layerABL g lay = true := by
  unfold layerABL
  rw [(pyGet_ok _ _ _).mp heq]
  exact habl

theorem chainLoop_eq_err (g : HLG) (lay : String) (rest : List String)
    (chains : List (List String)) (lys : List (String × Layer)) (e : PyErr)
    (heq : pyGet g.layers lay = .error e) :
    chainLoop g (lay :: rest) chains lys = .error e := by
  rw [chainLoop]
  simp only [heq]

theorem chainLoop_eq_nonABL (g : HLG) (lay : String) (rest : List String)
    (chains : List (List String)) (lys : List (String × Layer)) (ml : Layer)
    (heq : pyGet g.layers lay = .ok ml) (hnabl : ¬ ml.isABL = true) :
    chainLoop g (lay :: rest) chains lys =
      chainLoop g rest chains (dictSet lys lay ml) := by
  rw [chainLoop]
  simp only [heq]
  rw [if_neg hnabl]

theorem chainLoop_eq_fwdErr (g : HLG) (lay : String) (rest : List String)
    (chains : List (List String)) (lys : List (String × Layer)) (ml : Layer)
    (e : PyErr) (heq : pyGet g.layers lay = .ok ml) (habl : ml.isABL = true)
    (hwf : walkFwd g rest lay [lay] = .error e) :
    chainLoop g (lay :: rest) chains lys = .error e := by
  rw [chainLoop]
  simp only [heq, habl, if_true]
  split
  · next e2 heq1 => rw [hwf] at heq1; cases heq1; rfl
  · next c1 a1 heq1 => rw [hwf] at heq1; cases heq1

theorem chainLoop_eq_bwdErr (g : HLG) (lay : String) (rest : List String)
    (chains : List (List String)) (lys : List (String × Layer)) (ml : Layer)
    (chain1 al1 : List String) (e : PyErr)
    (heq : pyGet g.layers lay = .ok ml) (habl : ml.isABL = true)
    (hwf : walkFwd g rest lay [lay] = .ok (chain1, al1))
    (hwb : walkBwd g al1 lay chain1 = .error e) :
    chainLoop g (lay :: rest) chains lys = .error e := by
  rw [chainLoop]
  simp only [heq, habl, if_true]
  split
  · next e2 heq1 => rw [hwf] at heq1; cases heq1
  · next c1 a1 heq1 =>
    rw [hwf] at heq1
    cases heq1
    split
    · next e2 heq2 => rw [hwb] at heq2; cases heq2; rfl
    · next c2 a2 heq2 => rw [hwb] at heq2; cases heq2

theorem chainLoop_eq_chain (g : HLG) (lay : String) (rest : List String)
    (chains : List (List String)) (lys : List (String × Layer)) (ml : Layer)
    (chain1 al1 chain2 al2 : List String) (tail : String) (tailLay : Layer)
    (heq : pyGet g.layers lay = .ok ml) (habl : ml.isABL = true)
    (hwf : walkFwd g rest lay [lay] = .ok (chain1, al1))
    (hwb : walkBwd g al1 lay chain1 = .ok (chain2, al2))
    (hlen : chain2.length > 1) (hlast : chain2.getLast? = some tail)
    (htl : pyGet g.layers tail = .ok tailLay) :
    chainLoop g (lay :: rest) chains lys =
      chainLoop g al2 (chains ++ [chain2]) (dictSet lys tail tailLay) := by
  rw [chainLoop]
  simp only [heq, habl, if_true]
  split
  · next e2 heq1 => rw [hwf] at heq1; cases heq1
  · next c1 a1 heq1 =>
    rw [hwf] at heq1
    cases heq1
    split
    · next e2 heq2 => rw [hwb] at heq2; cases heq2
    · next c2 a2 heq2 =>
      rw [hwb] at heq2
      cases heq2
      rw [if_pos hlen]
      simp only [hlast, htl]

theorem chainLoop_eq_single (g : HLG) (lay : String) (rest : List String)
    (chains : List (List String)) (lys : List (String × Layer)) (ml : Layer)
    (chain1 al1 chain2 al2 : List String)
    (heq : pyGet g.layers lay = .ok ml) (habl : ml.isABL = true)
    (hwf : walkFwd g rest lay [lay] = .ok (chain1, al1))
    (hwb : walkBwd g al1 lay chain1 = .ok (chain2, al2))
    (hlen : ¬ chain2.length > 1) :
    chainLoop g (lay :: rest) chains lys =
      chainLoop g al2 chains (dictSet lys lay ml) := by
  rw [chainLoop]
  simp only [heq, habl, if_true]
  split
  · next e2 heq1 => rw [hwf] at heq1; cases heq1
  · next c1 a1 heq1 =>
    rw [hwf] at heq1
    cases heq1
    split
    · next e2 heq2 => rw [hwb] at heq2; cases heq2
    · next c2 a2 heq2 =>
      rw [hwb] at heq2
      cases heq2
      rw [if_neg hlen]

/-- The branch of the discovery loop in which the last chain member's layer
lookup fails. -/
theorem chainLoop_eq_tailErr (g : HLG) (lay : String) (rest : List String)
    (chains : List (List String)) (lys : List (String × Layer)) (ml : Layer)
    (chain1 al1 chain2 al2 : List String) (tail : String) (e : PyErr)
    (heq : pyGet g.layers lay = .ok ml) (habl : ml.isABL = true)
    (hwf : walkFwd g rest lay [lay] = .ok (chain1, al1))
    (hwb : walkBwd g al1 lay chain1 = .ok (chain2, al2))
    (hlen : chain2.length > 1) (hlast : chain2.getLast? = some tail)
    (htl : pyGet g.layers tail = .error e) :
    chainLoop g (lay :: rest) chains lys = .error e := by
  rw [chainLoop]
  simp only [heq, habl, if_true]
  split
  · next e2 heq1 => rw [hwf] at heq1; cases heq1
  · next c1 a1 heq1 =>
    rw [hwf] at heq1
    cases heq1
    split
    · next e2 heq2 => rw [hwb] at heq2; cases heq2
    · next c2 a2 heq2 =>
      rw [hwb] at heq2
      cases heq2
      rw [if_pos hlen]
      simp only [hlast, htl]

/-- Every chain recorded by the discovery loop satisfies the pairwise
fusable-edge property on consecutive members. -/
theorem chainLoop_chains_ok (g : HLG) (al : List String)
    (chains : List (List String)) (lys : List (String × Layer)) :
    ∀ out, chainLoop g al chains lys = .ok out →
      (∀ c ∈ chains, ChainPairsOK g c) → ∀ c ∈ out.1, ChainPairsOK g c := by
  induction al, chains, lys using chainLoop.induct g with
  | case1 chains lys =>
    intro out h hacc
    rw [chainLoop] at h
    simp only [Except.ok.injEq] at h
    subst h
    exact hacc
  | case2 chains lys lay rest e heq =>
    intro out h hacc
    rw [chainLoop_eq_err g lay rest chains lys e heq] at h
    exact absurd h (by simp)
  | case3 chains lys lay rest ml heq habl e hwf =>
    intro out h hacc
    rw [chainLoop_eq_fwdErr g lay rest chains lys ml e heq habl hwf] at h
    exact absurd h (by simp)
  | case4 chains lys lay rest ml heq habl chain1 al1 hwf e hwb =>
    intro out h hacc
    rw [chainLoop_eq_bwdErr g lay rest chains lys ml chain1 al1 e heq habl hwf hwb] at h
    exact absurd h (by simp)
  | case5 chains lys lay rest ml heq habl chain1 al1 hwf chain2 al2 hwb hlen hlast =>
    intro out h hacc
    have hne : chain2 ≠ [] := by
      intro hc
      rw [hc] at hlen
      simp at hlen
    rw [← List.getLast?_isSome, hlast] at hne
    simp at hne
  | case6 chains lys lay rest ml heq habl chain1 al1 hwf chain2 al2 hwb hlen tail hlast e htl =>
    intro out h hacc
    rw [chainLoop_eq_tailErr g lay rest chains lys ml chain1 al1 chain2 al2 tail e
      heq habl hwf hwb hlen hlast htl] at h
    exact absurd h (by simp)
  | case7 chains lys lay rest ml heq habl chain1 al1 hwf chain2 al2 hwb hlen tail hlast ml2 htl ih =>
    intro out h hacc
    rw [chainLoop_eq_chain g lay rest chains lys ml chain1 al1 chain2 al2 tail ml2
      heq habl hwf hwb hlen hlast htl] at h
    have habll : layerABL g lay = true := layerABL_of_pyGet g lay ml heq habl
    obtain ⟨hok1, -, post, hpost, -, -⟩ :=
      walkFwd_spec g rest lay [lay] chain1 al1 hwf (by simp) habll trivial
    have hhead1 : chain1.head? = some lay := by rw [hpost]; rfl
    obtain ⟨hok2, -, -⟩ :=
      walkBwd_spec g al1 lay chain1 chain2 al2 hwb hhead1 habll hok1
    refine ih out h ?_
    intro c hc
    rcases List.mem_append.mp hc with hc | hc
    · exact hacc c hc
    · simp at hc
      subst hc
      exact hok2
  | case8 chains lys lay rest ml heq habl chain1 al1 hwf chain2 al2 hwb hlen ih =>
    intro out h hacc
    rw [chainLoop_eq_single g lay rest chains lys ml chain1 al1 chain2 al2
      heq habl hwf hwb hlen] at h
    exact ih out h hacc
  | case9 chains lys lay rest ml heq hnabl ih =>
    intro out h hacc
    rw [chainLoop_eq_nonABL g lay rest chains lys ml heq hnabl] at h
    exact ih out h hacc

theorem lookup_mem {α : Type} (k : String) (v : α) :
    ∀ (m : List (String × α)), m.lookup k = some v → (k, v) ∈ m := by
  intro m
  induction m with
  | nil => intro h; simp [List.lookup] at h
  | cons p rest ih =>
    intro h
    obtain ⟨k2, v2⟩ := p
    rw [List.lookup] at h
    cases hkk : (k == k2) with
    | true =>
      rw [hkk] at h
      simp only [Option.some.injEq] at h
      subst h
      have hk : k = k2 := by simpa using hkk
      subst hk
      exact List.mem_cons_self _ _
    | false =>
      rw [hkk] at h
      exact List.mem_cons_of_mem _ (ih h)

theorem mem_lookup_of_nodup {α : Type} (k : String) (v : α) :
    ∀ (m : List (String × α)), (m.map Prod.fst).Nodup → (k, v) ∈ m →
      m.lookup k = some v := by
  intro m
  induction m with
  | nil => intro _ h; simp at h
  | cons p rest ih =>
    intro hnd hm
    obtain ⟨k2, v2⟩ := p
    rw [List.lookup]
    rcases List.mem_cons.mp hm with hme | hmr
    · cases hme
      simp
    · have hnd2 := hnd
      rw [List.map_cons, List.nodup_cons] at hnd2
      have hkmem : k ∈ rest.map Prod.fst := List.mem_map.mpr ⟨(k, v), hmr, rfl⟩
      have hk2 : k ≠ k2 := by
        intro hkeq
        rw [hkeq] at hkmem
        exact hnd2.1 hkmem
      have hb : (k == k2) = false := by simp [hk2]
      rw [hb]
      exact ih hnd2.2 hmr

theorem mem_dependentsOf (g : HLG) (a b : String) :
    b ∈ dependentsOf g a ↔ ∃ ds, (b, ds) ∈ g.dependencies ∧ a ∈ ds := by
  unfold dependentsOf
  rw [List.mem_filterMap]
  constructor
  · rintro ⟨p, hp, hif⟩
    by_cases h : a ∈ p.2
    · rw [if_pos h] at hif
      simp only [Option.some.injEq] at hif
      subst hif
      exact ⟨p.2, hp, h⟩
    · rw [if_neg h] at hif
      cases hif
  · rintro ⟨ds, hmem, ha⟩
    exact ⟨(b, ds), hmem, by simp [ha]⟩

/-- A topological ranking witnessing acyclicity of the dependency
relation: every dependency of a layer ranks strictly below it. -/
def RankOk (g : HLG) (r : String → Nat) : Prop :=
  ∀ p ∈ g.dependencies, ∀ a ∈ p.2, r a < r p.1

theorem rank_lt_of_edge (g : HLG) (r : String → Nat) (a b : String)
    (hr : RankOk g r) (he : edgeOKb g a b = true) : r a < r b := by
  unfold edgeOKb at he
  simp only [Bool.and_eq_true, beq_iff_eq] at he
  have hlk : g.dependencies.lookup b = some [a] := he.1.1.1.2
  have hmem : (b, [a]) ∈ g.dependencies := lookup_mem b [a] _ hlk
  exact hr (b, [a]) hmem a (by simp)

/-- Along a chain with the pairwise edge property, the head ranks strictly
below every later member. -/
theorem chain_rank_head (g : HLG) (r : String → Nat) (hr : RankOk g r) :
    ∀ (c : List String) (b : String), ChainPairsOK g (b :: c) →
      ∀ a ∈ c, r b < r a := by
  intro c
  induction c with
  | nil => intro b _ a ha; simp at ha
  | cons x rest ih =>
    intro b hok a ha
    have hbx : r b < r x := rank_lt_of_edge g r b x hr hok.1
    rcases List.mem_cons.mp ha with ha | ha
    · subst ha; exact hbx
    · exact hbx.trans (ih x hok.2 a ha)

/-- Every member of a chain is its head or has a chain predecessor with a
fusable edge into it. -/
theorem chain_mem_pred (g : HLG) :
    ∀ (c : List String), ChainPairsOK g c → ∀ b ∈ c,
      c.head? = some b ∨ ∃ p ∈ c, edgeOKb g p b = true := by
  intro c
  induction c with
  | nil => intro _ b hb; simp at hb
  | cons x rest ih =>
    intro hok b hb
    rcases List.mem_cons.mp hb with hb | hb
    · subst hb; left; rfl
    · right
      rcases ih (chainPairsOK_tail g x rest hok) b hb with hh | ⟨p, hp, he⟩
      · cases rest with
        | nil => simp at hb
        | cons y rest2 =>
          simp only [List.head?_cons, Option.some.injEq] at hh
          subst hh
          exact ⟨x, List.mem_cons_self _ _, hok.1⟩
      · exact ⟨p, List.mem_cons_of_mem _ hp, he⟩

/-- Inside a chain with the pairwise edge property, a dependency edge
between two members forces the one-to-one shape: the upstream member's
dependents are exactly the downstream member. -/
theorem chain_no_fanout (g : HLG) (r : String → Nat) (hr : RankOk g r)
    (hnd : (g.dependencies.map Prod.fst).Nodup) :
    ∀ (c : List String), ChainPairsOK g c → ∀ a ∈ c, ∀ b ∈ c,
      b ∈ dependentsOf g a → dependentsOf g a = [b] := by
  intro c hok a ha b hb hdep
  obtain ⟨ds, hdmem, hads⟩ := (mem_dependentsOf g a b).mp hdep
  rcases chain_mem_pred g c hok b hb with hh | ⟨p, hp, he⟩
  · -- b is the head of the chain: impossible, a ranks above b yet below it
    exfalso
    have hab : r a < r b := hr (b, ds) hdmem a hads
    cases c with
    | nil => simp at hb
    | cons x rest =>
      simp only [List.head?_cons, Option.some.injEq] at hh
      subst hh
      rcases List.mem_cons.mp ha with ha | ha
      · subst ha; exact lt_irrefl _ hab
      · exact lt_irrefl _ (hab.trans (chain_rank_head g r hr rest x hok a ha))
  · -- b has the chain predecessor p, and b's only dependency is p, so a = p
    have hlk : g.dependencies.lookup b = some [p] := by
      unfold edgeOKb at he
      simp only [Bool.and_eq_true, beq_iff_eq] at he
      exact he.1.1.1.2
    have hds : ds = [p] := by
      have := mem_lookup_of_nodup b ds g.dependencies hnd hdmem
      rw [hlk] at this
      simpa using this.symm
    have hap : a = p := by
      rw [hds] at hads
      simpa using hads
    subst hap
    unfold edgeOKb at he
    simp only [Bool.and_eq_true, beq_iff_eq] at he
    exact he.1.1.1.1

/-- C3: in `rewrite_layer_chains`, every consecutive pair of every recorded
chain satisfies the one-to-one fusable-edge guard - the upstream layer has
exactly one dependent, whose only dependency is that layer, both layers are
AwkwardBlockwiseLayers and both have equal partition count - and no chain
contains a layer together with one of its dependents unless that dependent
is the layer's only one, so a fan-out layer never shares a chain with any of
its dependents. -/
theorem chain_formation_guard (g : HLG) (r : String → Nat)
    (chains : List (List String)) (lys : List (String × Layer))
    (h : chainLoop g (g.layers.map Prod.fst) [] [] = .ok (chains, lys))
    (hr : RankOk g r) (hnd : (g.dependencies.map Prod.fst).Nodup) :
    (∀ c ∈ chains, ∀ p ∈ c.zip c.tail, edgeOKb g p.1 p.2 = true) ∧
    (∀ c ∈ chains, ∀ a ∈ c, ∀ b ∈ c, b ∈ dependentsOf g a →
      dependentsOf g a = [b]) := by
  have hok := chainLoop_chains_ok g (g.layers.map Prod.fst) [] []
    (chains, lys) h (by simp)
  constructor
  · intro c hc
    exact (chainPairsOK_iff_zip g c).mp (hok c hc)
  · intro c hc a ha b hb hdep
    exact chain_no_fanout g r hr hnd c (hok c hc) a ha b hb hdep

theorem chainLoop_eq_nil (g : HLG) (chains : List (List String))
    (lys : List (String × Layer)) :
    chainLoop g [] chains lys = .ok (chains, lys) := by
  simp [chainLoop]

/-- A first blockwise layer reading one partitioned io slot. -/
def bwLayerA : Layer :=
  { baseLayer with
    isABL := true
    pyLen := 3
    numblocks := [("arg", some 3)]
    indices := [("arg", some [".0"])]
    dsk := [("A", ⟨FnV.named "f", Args.cons (Arg.ref 0) Args.nil⟩)] }

/-- A second blockwise layer whose single slot refers to the first. -/
def bwLayerB : Layer :=
  { baseLayer with
    isABL := true
    pyLen := 3
    numblocks := [("A", some 3)]
    indices := [("A", some [".0"])]
    dsk := [("B", ⟨FnV.named "h", Args.cons (Arg.ref 0) Args.nil⟩)] }

/-- A two-layer linear graph, A then B. -/
def gChain : HLG :=
  ⟨[("A", bwLayerA), ("B", bwLayerB)], [("A", []), ("B", ["A"])]⟩

/-- The rank function witnessing that `gChain` is acyclic. -/
def rankAB : String → Nat := fun n => if n = "B" then 1 else 0

theorem walkFwd_gChain : walkFwd gChain ["B"] "A" ["A"] = .ok (["A", "B"], []) := by
  simp [walkFwd, fwdStep, dependentsOf, pyGet, gChain, bwLayerA, bwLayerB,
    baseLayer, List.lookup]

theorem walkBwd_gChain : walkBwd gChain [] "A" ["A", "B"] = .ok (["A", "B"], []) := by
  rw [walkBwd]
  simp only [show bwdStep gChain "A" = .ok none from by decide]

theorem chainLoop_gChain :
    chainLoop gChain ["A", "B"] [] [] = .ok ([["A", "B"]], [("B", bwLayerB)]) := by
  rw [chainLoop_eq_chain gChain "A" ["B"] [] [] bwLayerA ["A", "B"] [] ["A", "B"]
    [] "B" bwLayerB (by decide) (by decide) walkFwd_gChain walkBwd_gChain
    (by decide) (by decide) (by decide)]
  simp [chainLoop_eq_nil, dictSet]

/-- Witness for C3: on the concrete two-layer linear graph the loop records
exactly the chain A-B, and the theorem yields the fusable-edge guard for its
one consecutive pair. -/
theorem chain_formation_guard_witness :
    chainLoop gChain (gChain.layers.map Prod.fst) [] [] =
      .ok ([["A", "B"]], [("B", bwLayerB)]) ∧
    edgeOKb gChain "A" "B" = true := by
  have hmap : gChain.layers.map Prod.fst = ["A", "B"] := by decide
  have hcl : chainLoop gChain (gChain.layers.map Prod.fst) [] [] =
      .ok ([["A", "B"]], [("B", bwLayerB)]) := by
    rw [hmap]
    exact chainLoop_gChain
  refine ⟨hcl, ?_⟩
  exact (chain_formation_guard gChain rankAB [["A", "B"]] [("B", bwLayerB)] hcl
    (by unfold RankOk; decide) (by decide)).1 ["A", "B"] (by simp) ("A", "B")
    (by decide)

/-! ## Bookkeeping toolkit for the unvisited set and the output mappings -/

theorem dictSet_lookup_self {α : Type} (k : String) (v : α) :
    ∀ (m : List (String × α)), (dictSet m k v).lookup k = some v := by
  intro m
  induction m with
  | nil => simp [dictSet, List.lookup]
  | cons p rest ih =>
    rw [dictSet]
    split
    · next heq => rw [List.lookup]; simp
    · next hne =>
      rw [List.lookup]
      have : (k == p.1) = false := by
        simp only [beq_eq_false_iff_ne, ne_eq]
        intro hc
        exact hne hc.symm
      rw [this]
      exact ih

theorem dictSet_lookup_other {α : Type} (k k2 : String) (v : α) (hne : k2 ≠ k) :
    ∀ (m : List (String × α)), (dictSet m k v).lookup k2 = m.lookup k2 := by
  intro m
  induction m with
  | nil =>
    simp only [dictSet, List.lookup]
    have : (k2 == k) = false := by simpa using hne
    rw [this]
  | cons p rest ih =>
    obtain ⟨k1, v1⟩ := p
    rw [dictSet]
    split
    · next heq =>
      rw [List.lookup, List.lookup]
      have h1 : (k2 == k) = false := by simpa using hne
      have h2 : (k2 == k1) = false := by rw [heq]; exact h1
      rw [h1, h2]
    · next hnep =>
      rw [List.lookup, List.lookup]
      cases hkk : (k2 == k1) with
      | true => rfl
      | false => exact ih

theorem foldl_erase_subset (x : String) :
    ∀ (post al : List String), x ∈ post.foldl (fun l y => l.erase y) al → x ∈ al := by
  intro post
  induction post with
  | nil => intro al h; exact h
  | cons y rest ih =>
    intro al h
    rw [List.foldl_cons] at h
    exact List.mem_of_mem_erase (ih (al.erase y) h)

theorem foldl_erase_mem (x : String) :
    ∀ (post al : List String), x ∈ al → x ∉ post →
      x ∈ post.foldl (fun l y => l.erase y) al := by
  intro post
  induction post with
  | nil => intro al h _; exact h
  | cons y rest ih =>
    intro al hx hnp
    rw [List.foldl_cons]
    have hxy : x ≠ y := fun hc => hnp (hc ▸ List.mem_cons_self _ _)
    exact ih (al.erase y) ((List.mem_erase_of_ne hxy).mpr hx)
      (fun hc => hnp (List.mem_cons_of_mem _ hc))

theorem foldl_erase_nodup :
    ∀ (post al : List String), al.Nodup →
      (post.foldl (fun l y => l.erase y) al).Nodup := by
  intro post
  induction post with
  | nil => intro al h; exact h
  | cons y rest ih =>
    intro al h
    rw [List.foldl_cons]
    exact ih (al.erase y) (h.erase y)

theorem foldl_erase_not_mem (x : String) :
    ∀ (post al : List String), al.Nodup → x ∈ post →
      x ∉ post.foldl (fun l y => l.erase y) al := by
  intro post
  induction post with
  | nil => intro al _ h; simp at h
  | cons y rest ih =>
    intro al hnd hx
    rw [List.foldl_cons]
    rcases List.mem_cons.mp hx with hx | hx
    · subst hx
      intro hc
      exact hnd.not_mem_erase (foldl_erase_subset x rest (al.erase x) hc)
    · exact ih (al.erase y) (hnd.erase y) hx

theorem nodup_dropLast_ne_last (c : List String) (t : String) (hnd : c.Nodup)
    (hlast : c.getLast? = some t) : ∀ m ∈ c.dropLast, m ≠ t := by
  intro m hm hc
  subst hc
  have hne : c ≠ [] := by
    intro h
    rw [h] at hlast
    simp at hlast
  have hsplit : c.dropLast ++ [c.getLast hne] = c := List.dropLast_append_getLast hne
  have hlast2 : c.getLast hne = m := by
    have h2 := List.getLast?_eq_getLast c hne
    rw [hlast] at h2
    exact Option.some_inj.mp h2.symm
  rw [← hsplit] at hnd
  have := List.disjoint_of_nodup_append hnd
  exact this hm (by rw [hlast2]; exact List.mem_singleton_self m)

/-- Distinctness bookkeeping of the forward walk: with a duplicate-free
unvisited set disjoint from the chain, the extended chain stays
duplicate-free. -/
theorem walkFwd_nodup (g : HLG) (al : List String) (lay : String)
    (chain : List String) :
    ∀ c2 al2, walkFwd g al lay chain = .ok (c2, al2) →
      al.Nodup → chain.Nodup → (∀ x ∈ chain, x ∉ al) →
      c2.Nodup ∧ ∀ x ∈ c2, x ∈ chain ∨ x ∈ al := by
  induction al, lay, chain using walkFwd.induct g with
  | case1 al lay chain e heq =>
    intro c2 al2 h _ _ _
    rw [walkFwd, heq] at h
    exact absurd h (by simp)
  | case2 al lay chain heq =>
    intro c2 al2 h hal hch hdis
    rw [walkFwd, heq] at h
    simp only [Except.ok.injEq, Prod.mk.injEq] at h
    obtain ⟨hc, ha⟩ := h
    subst hc; subst ha
    exact ⟨hch, fun x hx => Or.inl hx⟩
  | case3 al lay chain child heq hmem ih =>
    intro c2 al2 h hal hch hdis
    rw [walkFwd, heq] at h
    simp only [hmem, dif_pos] at h
    have hch2 : (chain ++ [child]).Nodup := by
      rw [List.nodup_append]
      exact ⟨hch, List.nodup_singleton _, by
        intro x hx hxc
        simp only [List.mem_singleton] at hxc
        subst hxc
        exact hdis x hx hmem⟩
    have hdis2 : ∀ x ∈ chain ++ [child], x ∉ al.erase child := by
      intro x hx
      rcases List.mem_append.mp hx with hx | hx
      · intro hc; exact hdis x hx (List.mem_of_mem_erase hc)
      · simp only [List.mem_singleton] at hx
        subst hx
        exact hal.not_mem_erase
    obtain ⟨hn, hmem2⟩ := ih c2 al2 h (hal.erase child) hch2 hdis2
    refine ⟨hn, fun x hx => ?_⟩
    rcases hmem2 x hx with hx2 | hx2
    · rcases List.mem_append.mp hx2 with hx2 | hx2
      · exact Or.inl hx2
      · simp only [List.mem_singleton] at hx2
        subst hx2
        exact Or.inr hmem
    · exact Or.inr (List.mem_of_mem_erase hx2)
  | case4 al lay chain child heq hmem =>
    intro c2 al2 h _ _ _
    rw [walkFwd, heq] at h
    simp only [hmem, dif_neg] at h
    exact absurd h (by simp)

/-- Distinctness bookkeeping of the backward walk. -/
theorem walkBwd_nodup (g : HLG) (al : List String) (lay : String)
    (chain : List String) :
    ∀ c2 al2, walkBwd g al lay chain = .ok (c2, al2) →
      al.Nodup → chain.Nodup → (∀ x ∈ chain, x ∉ al) →
      c2.Nodup ∧ ∀ x ∈ c2, x ∈ chain ∨ x ∈ al := by
  induction al, lay, chain using walkBwd.induct g with
  | case1 al lay chain e heq =>
    intro c2 al2 h _ _ _
    rw [walkBwd, heq] at h
    exact absurd h (by simp)
  | case2 al lay chain heq =>
    intro c2 al2 h hal hch hdis
    rw [walkBwd, heq] at h
    simp only [Except.ok.injEq, Prod.mk.injEq] at h
    obtain ⟨hc, ha⟩ := h
    subst hc; subst ha
    exact ⟨hch, fun x hx => Or.inl hx⟩
  | case3 al lay chain p heq hmem ih =>
    intro c2 al2 h hal hch hdis
    rw [walkBwd, heq] at h
    simp only [hmem, dif_pos] at h
    have hch2 : (p :: chain).Nodup := by
      rw [List.nodup_cons]
      exact ⟨fun hc => hdis p hc hmem, hch⟩
    have hdis2 : ∀ x ∈ p :: chain, x ∉ al.erase p := by
      intro x hx
      rcases List.mem_cons.mp hx with hx | hx
      · subst hx
        exact hal.not_mem_erase
      · intro hc; exact hdis x hx (List.mem_of_mem_erase hc)
    obtain ⟨hn, hmem2⟩ := ih c2 al2 h (hal.erase p) hch2 hdis2
    refine ⟨hn, fun x hx => ?_⟩
    rcases hmem2 x hx with hx2 | hx2
    · rcases List.mem_cons.mp hx2 with hx2 | hx2
      · subst hx2
        exact Or.inr hmem
      · exact Or.inl hx2
    · exact Or.inr (List.mem_of_mem_erase hx2)
  | case4 al lay chain p heq hmem =>
    intro c2 al2 h _ _ _
    rw [walkBwd, heq] at h
    simp only [hmem, dif_neg] at h
    exact absurd h (by simp)

/-- The structural content of the forward walk alone: the result chain is
the input chain plus appended elements taken from the unvisited set, which
shrinks by exactly those elements. -/
theorem walkFwd_struct (g : HLG) (al : List String) (lay : String)
    (chain : List String) :
    ∀ c2 al2, walkFwd g al lay chain = .ok (c2, al2) →
      ∃ post, c2 = chain ++ post ∧
        al2 = post.foldl (fun l x => l.erase x) al ∧ ∀ x ∈ post, x ∈ al := by
  induction al, lay, chain using walkFwd.induct g with
  | case1 al lay chain e heq =>
    intro c2 al2 h
    rw [walkFwd, heq] at h
    exact absurd h (by simp)
  | case2 al lay chain heq =>
    intro c2 al2 h
    rw [walkFwd, heq] at h
    simp only [Except.ok.injEq, Prod.mk.injEq] at h
    obtain ⟨hc, ha⟩ := h
    subst hc; subst ha
    exact ⟨[], by simp⟩
  | case3 al lay chain child heq hmem ih =>
    intro c2 al2 h
    rw [walkFwd, heq] at h
    simp only [hmem, dif_pos] at h
    obtain ⟨post, hpost, hal2, hsub⟩ := ih c2 al2 h
    refine ⟨child :: post, ?_, ?_, ?_⟩
    · rw [hpost]; simp
    · simpa using hal2
    · intro x hx
      rcases List.mem_cons.mp hx with hx | hx
      · subst hx; exact hmem
      · exact List.mem_of_mem_erase (hsub x hx)
  | case4 al lay chain child heq hmem =>
    intro c2 al2 h
    rw [walkFwd, heq] at h
    simp only [hmem, dif_neg] at h
    exact absurd h (by simp)

/-- The structural content of the backward walk alone. -/
theorem walkBwd_struct (g : HLG) (al : List String) (lay : String)
    (chain : List String) :
    ∀ c2 al2, walkBwd g al lay chain = .ok (c2, al2) →
      ∃ pre, c2 = pre ++ chain ∧
        al2 = pre.reverse.foldl (fun l x => l.erase x) al ∧ ∀ x ∈ pre, x ∈ al := by
  induction al, lay, chain using walkBwd.induct g with
  | case1 al lay chain e heq =>
    intro c2 al2 h
    rw [walkBwd, heq] at h
    exact absurd h (by simp)
  | case2 al lay chain heq =>
    intro c2 al2 h
    rw [walkBwd, heq] at h
    simp only [Except.ok.injEq, Prod.mk.injEq] at h
    obtain ⟨hc, ha⟩ := h
    subst hc; subst ha
    exact ⟨[], by simp⟩
  | case3 al lay chain p heq hmem ih =>
    intro c2 al2 h
    rw [walkBwd, heq] at h
    simp only [hmem, dif_pos] at h
    obtain ⟨pre, hpre, hal2, hsub⟩ := ih c2 al2 h
    refine ⟨pre ++ [p], ?_, ?_, ?_⟩
    · rw [hpre]; simp
    · rw [List.reverse_append]; simpa using hal2
    · intro x hx
      rcases List.mem_append.mp hx with hx | hx
      · exact List.mem_of_mem_erase (hsub x hx)
      · simp at hx; subst hx; exact hmem
  | case4 al lay chain p heq hmem =>
    intro c2 al2 h
    rw [walkBwd, heq] at h
    simp only [hmem, dif_neg] at h
    exact absurd h (by simp)

/-- The combined structural facts of one pop-and-walk step: the discovered
chain decomposes as `pre ++ lay :: post`, is duplicate-free, lives inside
the popped name and the unvisited set, and is disjoint from the remaining
unvisited set, which keeps exactly the non-chain names. -/
theorem chain_step_structure (g : HLG) (lay : String) (rest : List String)
    (chain1 al1 chain2 al2 : List String)
    (hwf : walkFwd g rest lay [lay] = .ok (chain1, al1))
    (hwb : walkBwd g al1 lay chain1 = .ok (chain2, al2))
    (hnd : (lay :: rest).Nodup) :
    ∃ pre post, chain1 = lay :: post ∧ chain2 = pre ++ lay :: post ∧
      chain2.Nodup ∧ al2.Nodup ∧
      (∀ x ∈ chain2, x ∈ lay :: rest) ∧
      (∀ x ∈ al2, x ∈ rest) ∧
      (∀ x ∈ chain2, x ∉ al2) ∧
      (∀ x ∈ rest, x ∉ chain2 → x ∈ al2) := by
  have hndr : rest.Nodup := hnd.of_cons
  have hlnr : lay ∉ rest := (List.nodup_cons.mp hnd).1
  obtain ⟨post, hpost, hal1, hpostsub⟩ := walkFwd_struct g rest lay [lay] chain1 al1 hwf
  obtain ⟨pre, hpre, hal2, hpresub⟩ := walkBwd_struct g al1 lay chain1 chain2 al2 hwb
  have hal1nd : al1.Nodup := by rw [hal1]; exact foldl_erase_nodup post rest hndr
  have hal2nd : al2.Nodup := by
    rw [hal2]; exact foldl_erase_nodup pre.reverse al1 hal1nd
  have hal1sub : ∀ x ∈ al1, x ∈ rest := by
    intro x hx; rw [hal1] at hx; exact foldl_erase_subset x post rest hx
  have hal2sub1 : ∀ x ∈ al2, x ∈ al1 := by
    intro x hx; rw [hal2] at hx; exact foldl_erase_subset x pre.reverse al1 hx
  have hal2sub : ∀ x ∈ al2, x ∈ rest := fun x hx => hal1sub x (hal2sub1 x hx)
  have hch1nd : chain1.Nodup ∧ ∀ x ∈ chain1, x ∈ [lay] ∨ x ∈ rest :=
    walkFwd_nodup g rest lay [lay] chain1 al1 hwf hndr (by simp) (by simpa using hlnr)
  have hch1notal1 : ∀ x ∈ chain1, x ∉ al1 := by
    intro x hx
    rw [hpost] at hx
    rcases List.mem_cons.mp hx with hx | hx
    · subst hx
      intro hc
      exact hlnr (hal1sub _ hc)
    · rw [hal1]
      exact foldl_erase_not_mem x post rest hndr hx
  have hch2 : chain2.Nodup ∧ ∀ x ∈ chain2, x ∈ chain1 ∨ x ∈ al1 :=
    walkBwd_nodup g al1 lay chain1 chain2 al2 hwb hal1nd hch1nd.1 hch1notal1
  refine ⟨pre, post, hpost, by rw [hpre, hpost]; rfl, hch2.1, hal2nd, ?_, hal2sub, ?_, ?_⟩
  · intro x hx
    rcases hch2.2 x hx with hx2 | hx2
    · rcases hch1nd.2 x hx2 with hx3 | hx3
      · simp at hx3; subst hx3; exact List.mem_cons_self _ _
      · exact List.mem_cons_of_mem _ hx3
    · exact List.mem_cons_of_mem _ (hal1sub x hx2)
  · intro x hx
    rcases hch2.2 x hx with hx2 | hx2
    · intro hc
      exact hch1notal1 x hx2 (hal2sub1 x hc)
    · -- x came from al1 as a backward-walk element, so x is in pre
      have hxpre : x ∈ pre := by
        rw [hpre] at hx
        rcases List.mem_append.mp hx with hx3 | hx3
        · exact hx3
        · exact absurd hx3 (fun hc => hch1notal1 x hc hx2)
      rw [hal2]
      exact foldl_erase_not_mem x pre.reverse al1 hal1nd (List.mem_reverse.mpr hxpre)
  · intro x hx hnc
    have hx1 : x ∈ al1 := by
      rw [hal1]
      refine foldl_erase_mem x post rest hx ?_
      intro hc
      exact hnc (by rw [hpre, hpost]; exact List.mem_append_right _ (List.mem_cons_of_mem _ hc))
    rw [hal2]
    refine foldl_erase_mem x pre.reverse al1 hx1 ?_
    intro hc
    exact hnc (by rw [hpre]; exact List.mem_append_left _ (List.mem_reverse.mp hc))

theorem mem_of_getLast? {α : Type} :
    ∀ (l : List α) (a : α), l.getLast? = some a → a ∈ l := by
  intro l
  induction l with
  | nil => intro a h; simp at h
  | cons x rest ih =>
    intro a h
    cases rest with
    | nil =>
      simp only [List.getLast?_singleton, Option.some.injEq] at h
      subst h
      exact List.mem_singleton_self _
    | cons y rest2 =>
      rw [List.getLast?_cons_cons] at h
      exact List.mem_cons_of_mem _ (ih a h)

/-- The master bookkeeping of the chain-discovery loop, relative to one
call: the loop appends duplicate-free, pairwise-disjoint chains drawn from
the unvisited set; keys outside the unvisited set keep their mapping;
non-tail chain members are never bound; every unvisited non-chain name
passes through bound to its original layer; every chain tail is bound to
its original layer value (the shallow copy of line 328). -/
theorem chainLoop_master (g : HLG) (al : List String)
    (chains : List (List String)) (lys : List (String × Layer)) :
    ∀ chains2 lys2, chainLoop g al chains lys = .ok (chains2, lys2) →
      al.Nodup → (∀ k ∈ al, lys.lookup k = none) →
      ∃ nc, chains2 = chains ++ nc ∧
        nc.join.Nodup ∧
        (∀ x ∈ nc.join, x ∈ al) ∧
        (∀ c ∈ nc, c ≠ []) ∧
        (∀ c ∈ nc, 1 < c.length) ∧
        (∀ k, k ∉ al → lys2.lookup k = lys.lookup k) ∧
        (∀ c ∈ nc, ∀ m ∈ c.dropLast, lys2.lookup m = none) ∧
        (∀ k ∈ al, k ∉ nc.join → lys2.lookup k = g.layers.lookup k) ∧
        (∀ c ∈ nc, ∀ t, c.getLast? = some t →
          lys2.lookup t = g.layers.lookup t) := by
  induction al, chains, lys using chainLoop.induct g with
  | case1 chains lys =>
    intro chains2 lys2 h hnd hnone
    rw [chainLoop] at h
    simp only [Except.ok.injEq, Prod.mk.injEq] at h
    obtain ⟨hc, hl⟩ := h
    subst hc; subst hl
    exact ⟨[], by simp, by simp, by simp, by simp, by simp, fun k _ => rfl,
      by simp, by simp, by simp⟩
  | case2 chains lys lay rest e heq =>
    intro chains2 lys2 h hnd hnone
    rw [chainLoop_eq_err g lay rest chains lys e heq] at h
    exact absurd h (by simp)
  | case3 chains lys lay rest ml heq habl e hwf =>
    intro chains2 lys2 h hnd hnone
    rw [chainLoop_eq_fwdErr g lay rest chains lys ml e heq habl hwf] at h
    exact absurd h (by simp)
  | case4 chains lys lay rest ml heq habl chain1 al1 hwf e hwb =>
    intro chains2 lys2 h hnd hnone
    rw [chainLoop_eq_bwdErr g lay rest chains lys ml chain1 al1 e heq habl hwf hwb] at h
    exact absurd h (by simp)
  | case5 chains lys lay rest ml heq habl chain1 al1 hwf chain2 al2 hwb hlen hlast =>
    intro chains2 lys2 h hnd hnone
    have hne : chain2 ≠ [] := by
      intro hc
      rw [hc] at hlen
      simp at hlen
    rw [← List.getLast?_isSome, hlast] at hne
    simp at hne
  | case6 chains lys lay rest ml heq habl chain1 al1 hwf chain2 al2 hwb hlen tail hlast e htl =>
    intro chains2 lys2 h hnd hnone
    rw [chainLoop_eq_tailErr g lay rest chains lys ml chain1 al1 chain2 al2 tail e
      heq habl hwf hwb hlen hlast htl] at h
    exact absurd h (by simp)
  | case7 chains lys lay rest ml heq habl chain1 al1 hwf chain2 al2 hwb hlen tail hlast ml2 htl ih =>
    intro chains2 lys2 h hnd hnone
    rw [chainLoop_eq_chain g lay rest chains lys ml chain1 al1 chain2 al2 tail ml2
      heq habl hwf hwb hlen hlast htl] at h
    obtain ⟨pre, post, hpost, hch2eq, hch2nd, hal2nd, hch2sub, hal2sub, hdisj, hkeep⟩ :=
      chain_step_structure g lay rest chain1 al1 chain2 al2 hwf hwb hnd
    have htail_mem : tail ∈ chain2 := mem_of_getLast? chain2 tail hlast
    have hlaymem : lay ∈ chain2 := by
      rw [hch2eq]
      exact List.mem_append_right _ (List.mem_cons_self _ _)
    have hentry : ∀ k ∈ al2, (dictSet lys tail ml2).lookup k = none := by
      intro k hk
      have hkt : k ≠ tail := fun hc => hdisj tail htail_mem (hc ▸ hk)
      rw [dictSet_lookup_other tail k ml2 hkt]
      exact hnone k (List.mem_cons_of_mem _ (hal2sub k hk))
    obtain ⟨nc', hchains, hjnd, hjsub, hnemp, hlen2, hkeep5, hmids, hpass, htails⟩ :=
      ih chains2 lys2 h hal2nd hentry
    have hjoin : (chain2 :: nc').join = chain2 ++ nc'.join := rfl
    refine ⟨chain2 :: nc', ?_, ?_, ?_, ?_, ?_, ?_, ?_, ?_, ?_⟩
    · rw [hchains]; simp
    · rw [hjoin, List.nodup_append]
      refine ⟨hch2nd, hjnd, ?_⟩
      intro x hx hx2
      exact hdisj x hx (hjsub x hx2)
    · intro x hx
      rw [hjoin] at hx
      rcases List.mem_append.mp hx with hx | hx
      · exact hch2sub x hx
      · exact List.mem_cons_of_mem _ (hal2sub x (hjsub x hx))
    · intro c hc
      rcases List.mem_cons.mp hc with hc | hc
      · subst hc
        rw [hch2eq]
        simp
      · exact hnemp c hc
    · intro c hc
      rcases List.mem_cons.mp hc with hc | hc
      · subst hc
        exact hlen
      · exact hlen2 c hc
    · intro k hk
      have hk2 : k ∉ al2 := fun hc => hk (List.mem_cons_of_mem _ (hal2sub k hc))
      have hkt : k ≠ tail := fun hc => hk (hc ▸ hch2sub tail htail_mem)
      rw [hkeep5 k hk2, dictSet_lookup_other tail k ml2 hkt]
    · intro c hc m hm
      rcases List.mem_cons.mp hc with hc | hc
      · subst hc
        have hmch : m ∈ c := List.mem_of_mem_dropLast hm
        have hmal2 : m ∉ al2 := hdisj m hmch
        rw [hkeep5 m hmal2, dictSet_lookup_other tail m ml2
          (nodup_dropLast_ne_last c tail hch2nd hlast m hm)]
        exact hnone m (hch2sub m hmch)
      · exact hmids c hc m hm
    · intro k hk hkj
      rw [hjoin] at hkj
      have hknc2 : k ∉ chain2 := fun hc => hkj (List.mem_append_left _ hc)
      by_cases hkal2 : k ∈ al2
      · exact hpass k hkal2 (fun hc => hkj (List.mem_append_right _ hc))
      · rcases List.mem_cons.mp hk with hk1 | hk1
        · subst hk1
          exact absurd hlaymem hknc2
        · exact absurd (hkeep k hk1 hknc2) hkal2
    · intro c hc t ht
      rcases List.mem_cons.mp hc with hc | hc
      · subst hc
        rw [hlast] at ht
        have htt : tail = t := Option.some_inj.mp ht
        subst htt
        rw [hkeep5 tail (hdisj tail htail_mem), dictSet_lookup_self]
        exact ((pyGet_ok _ _ _).mp htl).symm
      · exact htails c hc t ht
  | case8 chains lys lay rest ml heq habl chain1 al1 hwf chain2 al2 hwb hlen ih =>
    intro chains2 lys2 h hnd hnone
    rw [chainLoop_eq_single g lay rest chains lys ml chain1 al1 chain2 al2
      heq habl hwf hwb hlen] at h
    obtain ⟨pre, post, hpost, hch2eq, hch2nd, hal2nd, hch2sub, hal2sub, hdisj, hkeep⟩ :=
      chain_step_structure g lay rest chain1 al1 chain2 al2 hwf hwb hnd
    have hlnr : lay ∉ rest := (List.nodup_cons.mp hnd).1
    have hch2single : chain2 = [lay] := by
      have hlen2 : chain2.length = pre.length + (post.length + 1) := by
        rw [hch2eq]
        simp [List.length_append]
      have hple : pre.length = 0 ∧ post.length = 0 := by
        simp only [gt_iff_lt, not_lt] at hlen
        omega
      have hpre0 : pre = [] := List.length_eq_zero.mp hple.1
      have hpost0 : post = [] := List.length_eq_zero.mp hple.2
      rw [hch2eq, hpre0, hpost0]
      rfl
    have hentry : ∀ k ∈ al2, (dictSet lys lay ml).lookup k = none := by
      intro k hk
      have hkl : k ≠ lay := fun hc => hlnr (hc ▸ hal2sub k hk)
      rw [dictSet_lookup_other lay k ml hkl]
      exact hnone k (List.mem_cons_of_mem _ (hal2sub k hk))
    obtain ⟨nc', hchains, hjnd, hjsub, hnemp, hlen2, hkeep5, hmids, hpass, htails⟩ :=
      ih chains2 lys2 h hal2nd hentry
    have hlnal2 : lay ∉ al2 := fun hc => hlnr (hal2sub lay hc)
    refine ⟨nc', hchains, hjnd, ?_, hnemp, hlen2, ?_, hmids, ?_, htails⟩
    · intro x hx
      exact List.mem_cons_of_mem _ (hal2sub x (hjsub x hx))
    · intro k hk
      have hk2 : k ∉ al2 := fun hc => hk (List.mem_cons_of_mem _ (hal2sub k hc))
      have hkl : k ≠ lay := fun hc => hk (hc ▸ List.mem_cons_self _ _)
      rw [hkeep5 k hk2, dictSet_lookup_other lay k ml hkl]
    · intro k hk hkj
      rcases List.mem_cons.mp hk with hk1 | hk1
      · subst hk1
        rw [hkeep5 k hlnal2, dictSet_lookup_self]
        exact ((pyGet_ok _ _ _).mp heq).symm
      · have hkch : k ∉ chain2 := by
          rw [hch2single]
          intro hc
          simp only [List.mem_singleton] at hc
          subst hc
          exact hlnr hk1
        have hkal2 : k ∈ al2 := hkeep k hk1 hkch
        exact hpass k hkal2 hkj
  | case9 chains lys lay rest ml heq hnabl ih =>
    intro chains2 lys2 h hnd hnone
    rw [chainLoop_eq_nonABL g lay rest chains lys ml heq hnabl] at h
    have hndr : rest.Nodup := hnd.of_cons
    have hlnr : lay ∉ rest := (List.nodup_cons.mp hnd).1
    have hentry : ∀ k ∈ rest, (dictSet lys lay ml).lookup k = none := by
      intro k hk
      have hkl : k ≠ lay := fun hc => hlnr (hc ▸ hk)
      rw [dictSet_lookup_other lay k ml hkl]
      exact hnone k (List.mem_cons_of_mem _ hk)
    obtain ⟨nc', hchains, hjnd, hjsub, hnemp, hlen2, hkeep5, hmids, hpass, htails⟩ :=
      ih chains2 lys2 h hndr hentry
    refine ⟨nc', hchains, hjnd, ?_, hnemp, hlen2, ?_, hmids, ?_, htails⟩
    · intro x hx
      exact List.mem_cons_of_mem _ (hjsub x hx)
    · intro k hk
      have hk2 : k ∉ rest := fun hc => hk (List.mem_cons_of_mem _ hc)
      have hkl : k ≠ lay := fun hc => hk (hc ▸ List.mem_cons_self _ _)
      rw [hkeep5 k hk2, dictSet_lookup_other lay k ml hkl]
    · intro k hk hkj
      rcases List.mem_cons.mp hk with hk1 | hk1
      · subst hk1
        rw [hkeep5 k hlnr, dictSet_lookup_self]
        exact ((pyGet_ok _ _ _).mp heq).symm
      · exact hpass k hk1 hkj

theorem filter_ne_lookup_none (k : String) {α : Type} :
    ∀ (m : List (String × α)), (m.filter (fun p => p.1 ≠ k)).lookup k = none := by
  intro m
  induction m with
  | nil => simp [List.lookup]
  | cons p rest ih =>
    obtain ⟨k1, v1⟩ := p
    rw [List.filter_cons]
    by_cases hk : k1 = k
    · subst hk
      simp only [ne_eq, not_true_eq_false, decide_False]
      exact ih
    · have hd : (decide ¬ (k1, v1).1 = k) = true := by simpa using hk
      rw [hd]
      simp only [List.lookup]
      have : (k == k1) = false := by
        simp only [beq_eq_false_iff_ne, ne_eq]
        exact fun hc => hk hc.symm
      rw [this]
      exact ih

theorem filter_ne_lookup_other (k k2 : String) {α : Type} (hne : k2 ≠ k) :
    ∀ (m : List (String × α)),
      (m.filter (fun p => p.1 ≠ k)).lookup k2 = m.lookup k2 := by
  intro m
  induction m with
  | nil => simp
  | cons p rest ih =>
    obtain ⟨k1, v1⟩ := p
    rw [List.filter_cons]
    by_cases hk : k1 = k
    · subst hk
      simp only [ne_eq, not_true_eq_false, decide_False]
      rw [List.lookup]
      have : (k2 == k1) = false := by simpa using hne
      rw [this]
      exact ih
    · have hd : (decide ¬ (k1, v1).1 = k) = true := by simpa using hk
      rw [hd]
      simp only [List.lookup]
      cases hkk : (k2 == k1) with
      | true => rfl
      | false => exact ih

theorem dictPop_ok {α : Type} (m m2 : List (String × α)) (k : String)
    (h : dictPop m k = .ok m2) :
    m2 = m.filter (fun p => p.1 ≠ k) := by
  unfold dictPop at h
  split at h
  · simp only [Except.ok.injEq] at h
    exact h.symm
  · exact absurd h (by simp)

theorem popDeps_spec :
    ∀ (ks : List String) (d d2 : List (String × List String)),
      popDeps d ks = .ok d2 →
      (∀ k ∈ ks, d2.lookup k = none) ∧
      (∀ k, k ∉ ks → d2.lookup k = d.lookup k) := by
  intro ks
  induction ks with
  | nil =>
    intro d d2 h
    rw [popDeps] at h
    simp only [Except.ok.injEq] at h
    subst h
    exact ⟨by simp, fun k _ => rfl⟩
  | cons k0 krest ih =>
    intro d d2 h
    rw [popDeps] at h
    split at h
    · exact absurd h (by simp)
    · next dd hdp =>
      have hdd := dictPop_ok d dd k0 hdp
      obtain ⟨h1, h2⟩ := ih dd d2 h
      constructor
      · intro k hk
        rcases List.mem_cons.mp hk with hk | hk
        · subst hk
          by_cases hk2 : k ∈ krest
          · exact h1 k hk2
          · rw [h2 k hk2, hdd]
            exact filter_ne_lookup_none k d
        · exact h1 k hk
      · intro k hk
        have hk0 : k ≠ k0 := fun hc => hk (hc ▸ List.mem_cons_self _ _)
        have hkr : k ∉ krest := fun hc => hk (List.mem_cons_of_mem _ hc)
        rw [h2 k hkr, hdd]
        exact filter_ne_lookup_other k0 k hk0 d

/-- What one chain rewrite does to the fusion state: all keys outside the
chain keep both mappings; the fused layer sits at the chain's last member,
sharing the Blockwise class and length of the phase-1 copy it mutates; the
dependency entry of the last member becomes the head's; every non-last
member's dependency entry is removed and its layer entry untouched; the
effects grow only by this chain's in-place writes. -/
theorem fuseChain_spec (g : HLG) (st st' : FuseState) (c : List String)
    (h : fuseChain g st c = .ok st') (hnd : c.Nodup) :
    ∀ t, c.getLast? = some t →
      (∀ k, k ∉ c → st'.lys.lookup k = st.lys.lookup k ∧
        st'.deps.lookup k = st.deps.lookup k) ∧
      (∃ h0 rest2, c = h0 :: rest2 ∧
        st'.deps.lookup t = st.deps.lookup h0 ∧ (st'.deps.lookup t).isSome) ∧
      (∀ m ∈ c.dropLast, st'.deps.lookup m = none) ∧
      (∀ m ∈ c.dropLast, st'.lys.lookup m = st.lys.lookup m) ∧
      (∃ v0 v, st.lys.lookup t = some v0 ∧ st'.lys.lookup t = some v ∧
        v.isABL = v0.isABL ∧ v.pyLen = v0.pyLen) ∧
      (∃ w, st'.effects = st.effects ++ w) := by
  intro t ht
  cases c with
  | nil => simp at ht
  | cons c0 members =>
    rw [fuseChain] at h
    split at h
    · exact absurd h (by simp)
    · next layer0 hlay0 =>
      split at h
      · exact absurd h (by simp)
      · next outlayer hout =>
        split at h
        · exact absurd h (by simp)
        · next nb hnb =>
          split at h
          · exact absurd h (by simp)
          · next d0 hd0 =>
            split at h
            · exact absurd h (by simp)
            · next deps2 hpop =>
              split at h
              · exact absurd h (by simp)
              · next acc hacc =>
                simp only [Except.ok.injEq] at h
                subst h
                have houtkey : (c0 :: members).getLast (by simp) = t := by
                  have := List.getLast?_eq_getLast (c0 :: members) (by simp)
                  rw [ht] at this
                  exact (Option.some_inj.mp this).symm
                subst houtkey
                have htmem : ∀ u, (c0 :: members).getLast (by simp) = u →
                    u ∈ c0 :: members := by
                  intro u hu
                  exact hu ▸ List.getLast_mem _
                have htnd : ∀ m ∈ (c0 :: members).dropLast,
                    m ≠ (c0 :: members).getLast (by simp) :=
                  nodup_dropLast_ne_last _ _ hnd ht
                obtain ⟨hp1, hp2⟩ := popDeps_spec (c0 :: members).dropLast
                  (dictSet st.deps ((c0 :: members).getLast (by simp)) d0)
                  deps2 hpop
                have htdl : (c0 :: members).getLast (by simp) ∉
                    (c0 :: members).dropLast := fun hc => htnd _ hc rfl
                refine ⟨?_, ⟨c0, members, rfl, ?_, ?_⟩, ?_, ?_, ?_, ?_⟩
                · intro k hk
                  have hkt : k ≠ (c0 :: members).getLast (by simp) :=
                    fun hc => hk (hc ▸ List.getLast_mem _)
                  constructor
                  · simp only
                    rw [dictSet_lookup_other _ k _ hkt]
                  · simp only
                    have hkdl : k ∉ (c0 :: members).dropLast := fun hc =>
                      hk (List.mem_of_mem_dropLast hc)
                    rw [hp2 k hkdl, dictSet_lookup_other _ k d0 hkt]
                · simp only
                  rw [hp2 _ htdl, dictSet_lookup_self, (pyGet_ok _ _ _).mp hd0]
                · simp only
                  rw [hp2 _ htdl, dictSet_lookup_self]
                  rfl
                · intro m hm
                  simp only
                  exact hp1 m hm
                · intro m hm
                  simp only
                  rw [dictSet_lookup_other _ m _ (htnd m hm)]
                · exact ⟨outlayer, _, (pyGet_ok _ _ _).mp hout,
                    dictSet_lookup_self _ _ _, rfl, rfl⟩
                · simp only
                  split
                  · exact ⟨[], by simp⟩
                  · exact ⟨[(c0, acc.written)], rfl⟩

/-- Folding the chain rewrite over pairwise-disjoint chains: keys outside
every chain keep both mappings, each chain's rewrite facts survive the later
chains, and the effects only grow. -/
theorem fuseAll_spec (g : HLG) :
    ∀ (cs : List (List String)) (st st' : FuseState),
      fuseAll g st cs = .ok st' →
      cs.join.Nodup →
      (∀ k, k ∉ cs.join → st'.lys.lookup k = st.lys.lookup k ∧
        st'.deps.lookup k = st.deps.lookup k) ∧
      (∀ c ∈ cs, ∀ t, c.getLast? = some t →
        (∃ h0 rest2, c = h0 :: rest2 ∧ st'.deps.lookup t = st.deps.lookup h0) ∧
        (∀ m ∈ c.dropLast, st'.deps.lookup m = none) ∧
        (∀ m ∈ c.dropLast, st'.lys.lookup m = st.lys.lookup m) ∧
        (∃ v0 v, st.lys.lookup t = some v0 ∧ st'.lys.lookup t = some v ∧
          v.isABL = v0.isABL ∧ v.pyLen = v0.pyLen)) ∧
      (∃ w, st'.effects = st.effects ++ w) := by
  intro cs
  induction cs with
  | nil =>
    intro st st' h hnd
    rw [fuseAll] at h
    simp only [Except.ok.injEq] at h
    subst h
    exact ⟨fun k _ => ⟨rfl, rfl⟩, by simp, [], by simp⟩
  | cons c rest ih =>
    intro st st' h hnd
    rw [fuseAll] at h
    split at h
    · exact absurd h (by simp)
    · next st1 hfc =>
      have hjoin : (c :: rest).join = c ++ rest.join := rfl
      rw [hjoin, List.nodup_append] at hnd
      obtain ⟨hcnd, hrnd, hdisj⟩ := hnd
      obtain ⟨hframe1, hchain1, heff1⟩ := ih st1 st' h hrnd
      have hcne : c ≠ [] := by
        intro hc
        subst hc
        rw [fuseChain] at hfc
        exact absurd hfc (by simp)
      obtain ⟨t0, ht0⟩ : ∃ t0, c.getLast? = some t0 := by
        cases hgl : c.getLast? with
        | none => exact absurd (List.getLast?_eq_none_iff.mp hgl) hcne
        | some t0 => exact ⟨t0, rfl⟩
      have hspec := fuseChain_spec g st st1 c hfc hcnd
      refine ⟨?_, ?_, ?_⟩
      · intro k hk
        rw [hjoin] at hk
        have hkc : k ∉ c := fun hc => hk (List.mem_append_left _ hc)
        have hkr : k ∉ rest.join := fun hc => hk (List.mem_append_right _ hc)
        obtain ⟨h1, h2⟩ := hframe1 k hkr
        obtain ⟨h3, h4⟩ := (hspec t0 ht0).1 k hkc
        exact ⟨h1.trans h3, h2.trans h4⟩
      · intro c2 hc2 t ht
        rcases List.mem_cons.mp hc2 with hc2 | hc2
        · subst hc2
          obtain ⟨hframe0, ⟨h0, rest2, hcons, hdept, hdsome⟩, hmids, hmidl, hv, heffc⟩ :=
            hspec t ht
          have htc : t ∈ c2 := mem_of_getLast? c2 t ht
          have htr : t ∉ rest.join := fun hc => hdisj htc hc
          refine ⟨⟨h0, rest2, hcons, ?_⟩, ?_, ?_, ?_⟩
          · rw [(hframe1 t htr).2, hdept]
          · intro m hm
            have hmr : m ∉ rest.join := fun hc =>
              hdisj (List.mem_of_mem_dropLast hm) hc
            rw [(hframe1 m hmr).2]
            exact hmids m hm
          · intro m hm
            have hmr : m ∉ rest.join := fun hc =>
              hdisj (List.mem_of_mem_dropLast hm) hc
            rw [(hframe1 m hmr).1]
            exact hmidl m hm
          · obtain ⟨v0, v, hv0, hv1, hv2, hv3⟩ := hv
            exact ⟨v0, v, hv0, ((hframe1 t htr).1).trans hv1, hv2, hv3⟩
        · obtain ⟨⟨h0, rest2, hcons, hdept⟩, hmids, hmidl, hv⟩ := hchain1 c2 hc2 t ht
          have hsub : ∀ x ∈ c2, x ∈ rest.join := by
            intro x hx
            exact List.mem_join.mpr ⟨c2, hc2, hx⟩
          have hh0c : h0 ∉ c := by
            intro hc
            exact hdisj hc (hsub h0 (by rw [hcons]; exact List.mem_cons_self _ _))
          refine ⟨⟨h0, rest2, hcons, ?_⟩, ?_, ?_, ?_⟩
          · rw [hdept, ((hspec t0 ht0).1 h0 hh0c).2]
          · exact hmids
          · intro m hm
            have hmc : m ∉ c := fun hc =>
              hdisj hc (hsub m (List.mem_of_mem_dropLast hm))
            rw [hmidl m hm, ((hspec t0 ht0).1 m hmc).1]
          · obtain ⟨v0, v, hv0, hv1, hv2, hv3⟩ := hv
            have htc : t ∉ c := fun hc =>
              hdisj hc (hsub t (mem_of_getLast? c2 t ht))
            exact ⟨v0, v, (((hspec t0 ht0).1 t htc).1).symm.trans hv0,
              hv1, hv2, hv3⟩
      · obtain ⟨w1, hw1⟩ := (hspec t0 ht0).2.2.2.2.2
        obtain ⟨w2, hw2⟩ := heff1
        exact ⟨w1 ++ w2, by rw [hw2, hw1, List.append_assoc]⟩

theorem lookup_none_of_not_mem {α : Type} (k : String) :
    ∀ (m : List (String × α)), k ∉ m.map Prod.fst → m.lookup k = none := by
  intro m
  induction m with
  | nil => intro _; rfl
  | cons p rest ih =>
    intro hk
    obtain ⟨k1, v1⟩ := p
    rw [List.lookup]
    have hk1 : (k == k1) = false := by
      simp only [beq_eq_false_iff_ne, ne_eq]
      intro hc
      exact hk (by rw [hc]; exact List.mem_map.mpr ⟨(k1, v1), List.mem_cons_self _ _, rfl⟩)
    rw [hk1]
    exact ih (fun hc => hk (List.mem_cons_of_mem _ hc))

/-- C5: for every chain `[c0, ..., cN]` discovered and fused by
`rewrite_layer_chains` on a graph with unique layer names, the returned
graph contains exactly one layer for the chain, keyed by cN's name (all of
c0..cN-1 are absent); that layer's entry in the dependency map equals c0's
original dependencies; the dependency entries of c0..cN-1 are removed; and
every layer not belonging to any discovered chain appears in the output
unchanged under its original name. -/
theorem rewrite_chains_graph_shape (g : HLG)
    (chains : List (List String)) (lys : List (String × Layer))
    (g2 : HLG) (eff : List (String × List (String × String)))
    (hcl : chainLoop g (g.layers.map Prod.fst) [] [] = .ok (chains, lys))
    (hrw : rewriteLayerChains g = .ok (g2, eff))
    (hnd : (g.layers.map Prod.fst).Nodup) :
    (∀ c ∈ chains, ∀ t, c.getLast? = some t →
      (∃ v, g2.layers.lookup t = some v) ∧
      (∃ h0 rest2, c = h0 :: rest2 ∧
        g2.dependencies.lookup t = g.dependencies.lookup h0) ∧
      (∀ m ∈ c.dropLast, g2.layers.lookup m = none ∧
        g2.dependencies.lookup m = none)) ∧
    (∀ k, k ∉ chains.join → g2.layers.lookup k = g.layers.lookup k) := by
  rw [rewriteLayerChains, hcl] at hrw
  simp only at hrw
  split at hrw
  · exact absurd hrw (by simp)
  · next st' hfa =>
    simp only [Except.ok.injEq, Prod.mk.injEq] at hrw
    obtain ⟨hg2, heff⟩ := hrw
    subst hg2
    obtain ⟨nc, hchains, hjnd, hjsub, hnemp, hlen, hkeep, hmids, hpass, htails⟩ :=
      chainLoop_master g (g.layers.map Prod.fst) [] [] chains lys hcl hnd
        (by intro k _; rfl)
    rw [List.nil_append] at hchains
    subst hchains
    obtain ⟨hframe, hchain, heffw⟩ :=
      fuseAll_spec g chains ⟨lys, g.dependencies, []⟩ st' hfa hjnd
    constructor
    · intro c hc t ht
      obtain ⟨⟨h0, rest2, hcons, hdept⟩, hmdeps, hmlys, v0, v, hv0, hv1, -, -⟩ :=
        hchain c hc t ht
      refine ⟨⟨v, hv1⟩, ⟨h0, rest2, hcons, hdept⟩, ?_⟩
      intro m hm
      constructor
      · rw [show ({ layers := st'.lys, dependencies := st'.deps } : HLG).layers = st'.lys from rfl,
          hmlys m hm]
        exact hmids c hc m hm
      · exact hmdeps m hm
    · intro k hk
      have h1 : st'.lys.lookup k = lys.lookup k := (hframe k hk).1
      by_cases hkal : k ∈ g.layers.map Prod.fst
      · rw [show ({ layers := st'.lys, dependencies := st'.deps } : HLG).layers = st'.lys from rfl, h1]
        exact hpass k hkal hk
      · rw [show ({ layers := st'.lys, dependencies := st'.deps } : HLG).layers = st'.lys from rfl,
          h1, hkeep k hkal, lookup_none_of_not_mem k g.layers hkal]
        rfl

/-- The fused layer that `rewrite_layer_chains` builds for the chain A-B of
`gChain`. -/
def fusedB : Layer :=
  { bwLayerB with
    ioDeps := []
    numblocks := [("arg", some 3)]
    dsk := [("A", ⟨FnV.named "f", Args.cons (Arg.ref 0) Args.nil⟩),
            ("B", ⟨FnV.named "h", Args.cons (Arg.str "A") Args.nil⟩)]
    hasDims := false
    indices := [("arg", some [".0"])]
    outputIndices := [".0"]
    inputsAttr := some []
    cachedDict := false }

theorem rewriteLayerChains_gChain :
    rewriteLayerChains gChain = .ok (⟨[("B", fusedB)], [("B", [])]⟩, []) := by
  rw [rewriteLayerChains]
  rw [show gChain.layers.map Prod.fst = ["A", "B"] from rfl]
  rw [chainLoop_gChain]
  decide

/-- Witness for C5 on the concrete two-layer chain graph: the fused layer
sits at B, B's dependency entry equals A's original one, and A is removed
from both maps. -/
theorem rewrite_chains_graph_shape_witness :
    (∃ v, (⟨[("B", fusedB)], [("B", [])]⟩ : HLG).layers.lookup "B" = some v) ∧
    (⟨[("B", fusedB)], [("B", [])]⟩ : HLG).dependencies.lookup "B" =
      gChain.dependencies.lookup "A" ∧
    (⟨[("B", fusedB)], [("B", [])]⟩ : HLG).layers.lookup "A" = none ∧
    (⟨[("B", fusedB)], [("B", [])]⟩ : HLG).dependencies.lookup "A" = none := by
  have hcl : chainLoop gChain (gChain.layers.map Prod.fst) [] [] =
      .ok ([["A", "B"]], [("B", bwLayerB)]) := by
    rw [show gChain.layers.map Prod.fst = ["A", "B"] from rfl]
    exact chainLoop_gChain
  have h := rewrite_chains_graph_shape gChain [["A", "B"]] [("B", bwLayerB)]
    ⟨[("B", fusedB)], [("B", [])]⟩ [] hcl rewriteLayerChains_gChain (by decide)
  have h3 := h.1 ["A", "B"] (List.mem_singleton_self _) "B" (by decide)
  obtain ⟨hv, ⟨h0, rest2, hcons, hdep⟩, hmids⟩ := h3
  have hh0 : h0 = "A" := by
    have := congrArg (fun l => l.head?) hcons
    simpa using this.symm
  subst hh0
  have hmid := hmids "A" (by decide)
  exact ⟨hv, hdep, hmid.1, hmid.2⟩

/-! ## Totality of the chain rewrite on well-formed graphs (C9) -/

mutual

/-- Every `__dask_blockwise__N` reference token in the argument is bounded
by `k`, the length of the owning layer's `indices` list - the well-formedness
invariant a real Blockwise layer's task template satisfies by construction. -/
def argRefsBounded (k : Nat) : Arg → Bool
  | Arg.ref n => decide (n < k)
  | Arg.listArg xs => argsRefsBounded k xs
  | Arg.tupleArg xs => argsRefsBounded k xs
  | _ => true

/-- `argRefsBounded` over an argument sequence. -/
def argsRefsBounded (k : Nat) : Args → Bool
  | .nil => true
  | .cons a rest => argRefsBounded k a && argsRefsBounded k rest

end

/-- A well-formed high level graph, as `rewrite_layer_chains` expects it
from dask: unique layer names, a dependency entry for exactly the layer
names with known dependencies, and every Blockwise layer carrying the
invariants its constructor guarantees - a one-entry task template keyed by
the layer's own name, at least one concrete `numblocks` value, and
reference tokens bounded by the `indices` list. -/
def WfHLG (g : HLG) : Prop :=
  (g.layers.map Prod.fst).Nodup ∧
  (g.dependencies.map Prod.fst).Nodup ∧
  (∀ n ∈ g.dependencies.map Prod.fst, n ∈ g.layers.map Prod.fst) ∧
  (∀ n ∈ g.layers.map Prod.fst, n ∈ g.dependencies.map Prod.fst) ∧
  (∀ p ∈ g.dependencies, ∀ a ∈ p.2, a ∈ g.layers.map Prod.fst) ∧
  (∀ p ∈ g.layers, p.2.isABL = true →
    p.2.dsk.map Prod.fst = [p.1] ∧
    p.2.numblocks.filterMap Prod.snd ≠ [] ∧
    ∀ q ∈ p.2.dsk, argsRefsBounded p.2.indices.length q.2.args = true)

theorem lookup_isSome_of_mem_keys {α : Type} (k : String) :
    ∀ (m : List (String × α)), k ∈ m.map Prod.fst → (m.lookup k).isSome := by
  intro m
  induction m with
  | nil => intro h; simp at h
  | cons p rest ih =>
    intro hk
    obtain ⟨k1, v1⟩ := p
    rw [List.lookup]
    by_cases hkk : k = k1
    · subst hkk; simp
    · have hb : (k == k1) = false := by simp [hkk]
      rw [hb]
      refine ih ?_
      simp only [List.map_cons, List.mem_cons] at hk
      rcases hk with h | h
      · exact absurd h hkk
      · exact h

theorem mem_keys_of_lookup_isSome {α : Type} (k : String)
    (m : List (String × α)) (h : (m.lookup k).isSome) : k ∈ m.map Prod.fst := by
  obtain ⟨v, hv⟩ := Option.isSome_iff_exists.mp h
  exact List.mem_map.mpr ⟨(k, v), lookup_mem k v m hv, rfl⟩

theorem layerABL_isSome (g : HLG) (a : String) (h : layerABL g a = true) :
    (g.layers.lookup a).isSome := by
  unfold layerABL at h
  cases hl : g.layers.lookup a with
  | none => rw [hl] at h; simp at h
  | some l => simp

/-- `getLast?` looks only at a nonempty right half of an append. -/
theorem lastOf_append {α : Type} :
    ∀ (l1 l2 : List α), l2 ≠ [] → (l1 ++ l2).getLast? = l2.getLast? := by
  intro l1
  induction l1 with
  | nil => intro l2 _; rfl
  | cons a t ih =>
    intro l2 hne
    rw [List.cons_append]
    cases h2 : t ++ l2 with
    | nil =>
      exact absurd (List.append_eq_nil.mp h2).2 hne
    | cons b tl =>
      rw [List.getLast?_cons_cons, ← h2]
      exact ih l2 hne

theorem mem_of_head? {α : Type} (l : List α) (a : α) (h : l.head? = some a) :
    a ∈ l := by
  cases l with
  | nil => simp at h
  | cons x t =>
    simp only [List.head?_cons, Option.some.injEq] at h
    subst h
    exact List.mem_cons_self _ _

/-- The forward-step guard never raises when the current layer exists and
every dependency key names a layer: all its lookups hit present keys. -/
theorem fwdStep_total (g : HLG) (lay : String)
    (hlk : (g.layers.lookup lay).isSome)
    (hdepkeys : ∀ n ∈ g.dependencies.map Prod.fst, (g.layers.lookup n).isSome) :
    ∃ o, fwdStep g lay = .ok o := by
  cases hres : fwdStep g lay with
  | ok o => exact ⟨o, rfl⟩
  | error e =>
    exfalso
    rw [fwdStep] at hres
    split at hres
    case h_2 => simp at hres
    case h_1 child heq =>
      have hchildkey : child ∈ g.dependencies.map Prod.fst := by
        have hcd : child ∈ dependentsOf g lay := by
          rw [heq]; exact List.mem_singleton_self _
        obtain ⟨ds, hds, -⟩ := (mem_dependentsOf g lay child).mp hcd
        exact List.mem_map.mpr ⟨(child, ds), hds, rfl⟩
      have hcdep : (g.dependencies.lookup child).isSome :=
        lookup_isSome_of_mem_keys child _ hchildkey
      split at hres
      case h_1 e2 heq2 =>
        obtain ⟨ds, hds⟩ := Option.isSome_iff_exists.mp hcdep
        rw [(pyGet_ok _ _ _).mpr hds] at heq2
        simp at heq2
      case h_2 ds hds =>
        split at hres
        case isFalse => simp at hres
        case isTrue hdsl =>
          split at hres
          case h_1 e2 heq3 =>
            obtain ⟨cl, hcl⟩ := Option.isSome_iff_exists.mp (hdepkeys child hchildkey)
            rw [(pyGet_ok _ _ _).mpr hcl] at heq3
            simp at heq3
          case h_2 cl hcl =>
            split at hres
            case isFalse => simp at hres
            case isTrue habl =>
              split at hres
              case h_1 e2 heq4 =>
                obtain ⟨ll, hll⟩ := Option.isSome_iff_exists.mp hlk
                rw [(pyGet_ok _ _ _).mpr hll] at heq4
                simp at heq4
              case h_2 ll hll =>
                split at hres <;> simp at hres

/-- The backward-step guard never raises when the current layer has a
dependency entry and every dependency value names a layer. -/
theorem bwdStep_total (g : HLG) (lay : String)
    (hdeplay : (g.dependencies.lookup lay).isSome)
    (hdepvals : ∀ p ∈ g.dependencies, ∀ a ∈ p.2, (g.layers.lookup a).isSome)
    (hlk : (g.layers.lookup lay).isSome) :
    ∃ o, bwdStep g lay = .ok o := by
  cases hres : bwdStep g lay with
  | ok o => exact ⟨o, rfl⟩
  | error e =>
    exfalso
    rw [bwdStep] at hres
    split at hres
    case h_1 e2 heq =>
      obtain ⟨ps, hps⟩ := Option.isSome_iff_exists.mp hdeplay
      rw [(pyGet_ok _ _ _).mpr hps] at heq
      simp at heq
    case h_2 parents hpar =>
      split at hres
      case h_2 => simp at hres
      case h_1 p =>
        split at hres
        case isFalse => simp at hres
        case isTrue hdep =>
          have hpm : (lay, [p]) ∈ g.dependencies :=
            lookup_mem lay [p] _ ((pyGet_ok _ _ _).mp hpar)
          split at hres
          case h_1 e2 heq2 =>
            obtain ⟨pl, hpl⟩ :=
              Option.isSome_iff_exists.mp (hdepvals (lay, [p]) hpm p (by simp))
            rw [(pyGet_ok _ _ _).mpr hpl] at heq2
            simp at heq2
          case h_2 pl hpl =>
            split at hres
            case isFalse => simp at hres
            case isTrue habl =>
              split at hres
              case h_1 e2 heq3 =>
                obtain ⟨ll, hll⟩ := Option.isSome_iff_exists.mp hlk
                rw [(pyGet_ok _ _ _).mpr hll] at heq3
                simp at heq3
              case h_2 ll hll =>
                split at hres <;> simp at hres

/-- The forward walk never raises on a well-formed graph: the invariant is
that every name already consumed in earlier loop iterations (neither
unvisited nor on the current chain) has all its fusable neighbours consumed
too, so the unique dependent discovered by the step guard is still
unvisited and `set.remove` succeeds. -/
theorem walkFwd_total (g : HLG) (r : String → Nat) (hr : RankOk g r)
    (hdepkeys : ∀ n ∈ g.dependencies.map Prod.fst, (g.layers.lookup n).isSome) :
    ∀ (al : List String) (lay : String) (chain : List String),
      al.Nodup →
      (g.layers.lookup lay).isSome →
      (∀ x, x ∉ al → x ∉ chain → ∀ y,
        (edgeOKb g x y = true ∨ edgeOKb g y x = true) → y ∉ al ∧ y ∉ chain) →
      chain.getLast? = some lay →
      layerABL g lay = true →
      (∀ m ∈ chain, r m ≤ r lay) →
      (∀ m ∈ chain, m ∉ al) →
      ∃ out, walkFwd g al lay chain = .ok out := by
  intro al lay chain
  induction al, lay, chain using walkFwd.induct g with
  | case1 al lay chain e heq =>
    intro hnd hlk hclosed hlast habl hrank hdisj
    exfalso
    obtain ⟨o, ho⟩ := fwdStep_total g lay hlk hdepkeys
    rw [ho] at heq
    simp at heq
  | case2 al lay chain heq =>
    intro _ _ _ _ _ _ _
    exact ⟨(chain, al), by rw [walkFwd, heq]⟩
  | case3 al lay chain child heq hmem ih =>
    intro hnd hlk hclosed hlast habl hrank hdisj
    have hedge : edgeOKb g lay child = true :=
      (edgeOKb_iff_fwd g lay child).mpr ⟨(fwdStep_some_iff g lay child).mp heq, habl⟩
    have hablc : layerABL g child = true := (edgeOKb_ABL g lay child hedge).2
    have hlkc : (g.layers.lookup child).isSome := layerABL_isSome g child hablc
    have hrlt : r lay < r child := rank_lt_of_edge g r lay child hr hedge
    have hchnotch : child ∉ chain := fun hc =>
      absurd hrlt (not_lt.mpr (hrank child hc))
    have hclosed2 : ∀ x, x ∉ al.erase child → x ∉ chain ++ [child] → ∀ y,
        (edgeOKb g x y = true ∨ edgeOKb g y x = true) →
        y ∉ al.erase child ∧ y ∉ chain ++ [child] := by
      intro x hxal hxch y hed
      have hxc : x ≠ child := by
        intro hc
        exact hxch (hc ▸ List.mem_append_right _ (List.mem_singleton_self _))
      have hxchain : x ∉ chain := fun hc => hxch (List.mem_append_left _ hc)
      have hxal0 : x ∉ al := fun hc =>
        hxal ((List.mem_erase_of_ne hxc).mpr hc)
      obtain ⟨hy1, hy2⟩ := hclosed x hxal0 hxchain y hed
      refine ⟨fun hc => hy1 (List.mem_of_mem_erase hc), ?_⟩
      intro hc
      rcases List.mem_append.mp hc with hc | hc
      · exact hy2 hc
      · simp only [List.mem_singleton] at hc
        subst hc
        exact hy1 hmem
    have hlast2 : (chain ++ [child]).getLast? = some child := by
      simp [List.getLast?_concat]
    have hrank2 : ∀ m ∈ chain ++ [child], r m ≤ r child := by
      intro m hm
      rcases List.mem_append.mp hm with hm | hm
      · exact (hrank m hm).trans (le_of_lt hrlt)
      · simp only [List.mem_singleton] at hm
        subst hm
        exact le_refl _
    have hdisj2 : ∀ m ∈ chain ++ [child], m ∉ al.erase child := by
      intro m hm
      rcases List.mem_append.mp hm with hm | hm
      · exact fun hc => hdisj m hm (List.mem_of_mem_erase hc)
      · simp only [List.mem_singleton] at hm
        subst hm
        exact hnd.not_mem_erase
    obtain ⟨out, hout⟩ := ih (hnd.erase child) hlkc hclosed2 hlast2 hablc hrank2 hdisj2
    refine ⟨out, ?_⟩
    rw [walkFwd, heq]
    simp only [hmem, dif_pos]
    exact hout
  | case4 al lay chain child heq hmem =>
    intro hnd hlk hclosed hlast habl hrank hdisj
    exfalso
    have hedge : edgeOKb g lay child = true :=
      (edgeOKb_iff_fwd g lay child).mpr ⟨(fwdStep_some_iff g lay child).mp heq, habl⟩
    have hrlt : r lay < r child := rank_lt_of_edge g r lay child hr hedge
    have hchnotch : child ∉ chain := fun hc =>
      absurd hrlt (not_lt.mpr (hrank child hc))
    exact (hclosed child hmem hchnotch lay (Or.inr hedge)).2
      (mem_of_getLast? chain lay hlast)

/-- The backward walk never raises on a well-formed graph, symmetrically. -/
theorem walkBwd_total (g : HLG) (r : String → Nat) (hr : RankOk g r)
    (hdepvals : ∀ p ∈ g.dependencies, ∀ a ∈ p.2, (g.layers.lookup a).isSome)
    (hnamedeps : ∀ n, (g.layers.lookup n).isSome → (g.dependencies.lookup n).isSome) :
    ∀ (al : List String) (lay : String) (chain : List String),
      al.Nodup →
      (g.layers.lookup lay).isSome →
      (∀ x, x ∉ al → x ∉ chain → ∀ y,
        (edgeOKb g x y = true ∨ edgeOKb g y x = true) → y ∉ al ∧ y ∉ chain) →
      chain.head? = some lay →
      layerABL g lay = true →
      (∀ m ∈ chain, r lay ≤ r m) →
      (∀ m ∈ chain, m ∉ al) →
      ∃ out, walkBwd g al lay chain = .ok out := by
  intro al lay chain
  induction al, lay, chain using walkBwd.induct g with
  | case1 al lay chain e heq =>
    intro hnd hlk hclosed hhead habl hrank hdisj
    exfalso
    obtain ⟨o, ho⟩ := bwdStep_total g lay (hnamedeps lay hlk) hdepvals hlk
    rw [ho] at heq
    simp at heq
  | case2 al lay chain heq =>
    intro _ _ _ _ _ _ _
    exact ⟨(chain, al), by rw [walkBwd, heq]⟩
  | case3 al lay chain p heq hmem ih =>
    intro hnd hlk hclosed hhead habl hrank hdisj
    have hedge : edgeOKb g p lay = true :=
      (edgeOKb_iff_bwd g p lay).mpr ⟨(bwdStep_some_iff g p lay).mp heq, habl⟩
    have hablp : layerABL g p = true := (edgeOKb_ABL g p lay hedge).1
    have hlkp : (g.layers.lookup p).isSome := layerABL_isSome g p hablp
    have hrlt : r p < r lay := rank_lt_of_edge g r p lay hr hedge
    have hpnotch : p ∉ chain := fun hc =>
      absurd hrlt (not_lt.mpr (hrank p hc))
    have hclosed2 : ∀ x, x ∉ al.erase p → x ∉ p :: chain → ∀ y,
        (edgeOKb g x y = true ∨ edgeOKb g y x = true) →
        y ∉ al.erase p ∧ y ∉ p :: chain := by
      intro x hxal hxch y hed
      have hxp : x ≠ p := fun hc => hxch (hc ▸ List.mem_cons_self _ _)
      have hxchain : x ∉ chain := fun hc => hxch (List.mem_cons_of_mem _ hc)
      have hxal0 : x ∉ al := fun hc =>
        hxal ((List.mem_erase_of_ne hxp).mpr hc)
      obtain ⟨hy1, hy2⟩ := hclosed x hxal0 hxchain y hed
      refine ⟨fun hc => hy1 (List.mem_of_mem_erase hc), ?_⟩
      intro hc
      rcases List.mem_cons.mp hc with hc | hc
      · subst hc
        exact hy1 hmem
      · exact hy2 hc
    have hhead2 : (p :: chain).head? = some p := rfl
    have hrank2 : ∀ m ∈ p :: chain, r p ≤ r m := by
      intro m hm
      rcases List.mem_cons.mp hm with hm | hm
      · subst hm; exact le_refl _
      · exact (le_of_lt hrlt).trans (hrank m hm)
    have hdisj2 : ∀ m ∈ p :: chain, m ∉ al.erase p := by
      intro m hm
      rcases List.mem_cons.mp hm with hm | hm
      · subst hm
        exact hnd.not_mem_erase
      · exact fun hc => hdisj m hm (List.mem_of_mem_erase hc)
    obtain ⟨out, hout⟩ := ih (hnd.erase p) hlkp hclosed2 hhead2 hablp hrank2 hdisj2
    refine ⟨out, ?_⟩
    rw [walkBwd, heq]
    simp only [hmem, dif_pos]
    exact hout
  | case4 al lay chain p heq hmem =>
    intro hnd hlk hclosed hhead habl hrank hdisj
    exfalso
    have hedge : edgeOKb g p lay = true :=
      (edgeOKb_iff_bwd g p lay).mpr ⟨(bwdStep_some_iff g p lay).mp heq, habl⟩
    have hrlt : r p < r lay := rank_lt_of_edge g r p lay hr hedge
    have hpnotch : p ∉ chain := fun hc =>
      absurd hrlt (not_lt.mpr (hrank p hc))
    exact (hclosed p hmem hpnotch lay (Or.inl hedge)).2
      (mem_of_head? chain lay hhead)

/-- Every member of a chain is its last element or has a chain successor
with a fusable edge out of it. -/
theorem chain_mem_succ (g : HLG) :
    ∀ (c : List String), ChainPairsOK g c → ∀ b ∈ c,
      c.getLast? = some b ∨ ∃ nxt ∈ c, edgeOKb g b nxt = true := by
  intro c
  induction c with
  | nil => intro _ b hb; simp at hb
  | cons a rest ih =>
    intro hok b hb
    cases rest with
    | nil =>
      left
      simp only [List.mem_singleton] at hb
      subst hb
      rfl
    | cons a2 rest2 =>
      rcases List.mem_cons.mp hb with hb | hb
      · subst hb
        right
        exact ⟨a2, List.mem_cons_of_mem _ (List.mem_cons_self _ _), hok.1⟩
      · rcases ih hok.2 b hb with h | ⟨nxt, hn, he⟩
        · left
          rw [List.getLast?_cons_cons]
          exact h
        · right
          exact ⟨nxt, List.mem_cons_of_mem _ hn, he⟩

/-- A layer's unique fusable dependent is unique. -/
theorem edge_unique_fwd (g : HLG) (a b b2 : String)
    (h1 : edgeOKb g a b = true) (h2 : edgeOKb g a b2 = true) : b = b2 := by
  unfold edgeOKb at h1 h2
  simp only [Bool.and_eq_true, beq_iff_eq] at h1 h2
  have := h1.1.1.1.1.symm.trans h2.1.1.1.1
  simpa using this

/-- A layer's unique fusable dependency is unique. -/
theorem edge_unique_bwd (g : HLG) (a a2 b : String)
    (h1 : edgeOKb g a b = true) (h2 : edgeOKb g a2 b = true) : a = a2 := by
  unfold edgeOKb at h1 h2
  simp only [Bool.and_eq_true, beq_iff_eq] at h1 h2
  have := h1.1.1.1.2.symm.trans h2.1.1.1.2
  simpa using this

/-- After one pop-and-walk step of the discovery loop, the consumed set is
again closed under fusable edges: a chain member's neighbours are either on
the chain (its unique chain predecessor/successor) or stopped the walk. -/
theorem loop_closed_step (g : HLG) (lay : String) (rest : List String)
    (chain1 al1 chain2 al2 : List String)
    (hwf : walkFwd g rest lay [lay] = .ok (chain1, al1))
    (hwb : walkBwd g al1 lay chain1 = .ok (chain2, al2))
    (hnd : (lay :: rest).Nodup)
    (habl : layerABL g lay = true)
    (hLC : ∀ x, x ∉ lay :: rest →
      ∀ y, (edgeOKb g x y = true ∨ edgeOKb g y x = true) → y ∉ lay :: rest) :
    ∀ x, x ∉ al2 → ∀ y,
      (edgeOKb g x y = true ∨ edgeOKb g y x = true) → y ∉ al2 := by
  obtain ⟨hok1, ⟨last1, hlast1, hablL, hstopF⟩, post, hpost, hal1e, hpostsub⟩ :=
    walkFwd_spec g rest lay [lay] chain1 al1 hwf (by simp) habl trivial
  have hhead1 : chain1.head? = some lay := by rw [hpost]; rfl
  obtain ⟨hok2, ⟨hd, hhead2, hablH, hstopB⟩, pre, hpre, hal2e, hpresub⟩ :=
    walkBwd_spec g al1 lay chain1 chain2 al2 hwb hhead1 habl hok1
  obtain ⟨pre', post', hpost', hch2eq, hch2nd, hal2nd, hch2sub, hal2sub, hdisj, hkeep⟩ :=
    chain_step_structure g lay rest chain1 al1 chain2 al2 hwf hwb hnd
  have hch1ne : chain1 ≠ [] := by rw [hpost]; simp
  have hlast2 : chain2.getLast? = some last1 := by
    rw [hpre, lastOf_append _ _ hch1ne]
    exact hlast1
  intro x hx y hedge
  by_cases hxin : x ∈ lay :: rest
  · -- x belongs to the chain just walked
    have hxch : x ∈ chain2 := by
      rcases List.mem_cons.mp hxin with h1 | h1
      · subst h1
        rw [hch2eq]
        exact List.mem_append_right _ (List.mem_cons_self _ _)
      · by_contra hc
        exact hx (hkeep x h1 hc)
    have hych : y ∈ chain2 := by
      rcases hedge with he | he
      · rcases chain_mem_succ g chain2 hok2 x hxch with hxl | ⟨nxt, hn, hne⟩
        · exfalso
          have hxlast : x = last1 := by
            rw [hxl] at hlast2
            exact Option.some_inj.mp hlast2
          have hstep : fwdStep g x = .ok (some y) :=
            (fwdStep_some_iff g x y).mpr ((edgeOKb_iff_fwd g x y).mp he).1
          rw [hxlast, hstopF] at hstep
          simp at hstep
        · rw [edge_unique_fwd g x y nxt he hne]
          exact hn
      · rcases chain_mem_pred g chain2 hok2 x hxch with hxh | ⟨p, hp, hpe⟩
        · exfalso
          have hxhd : x = hd := by
            rw [hxh] at hhead2
            exact Option.some_inj.mp hhead2
          have hstep : bwdStep g x = .ok (some y) :=
            (bwdStep_some_iff g y x).mpr ((edgeOKb_iff_bwd g y x).mp he).1
          rw [hxhd, hstopB] at hstep
          simp at hstep
        · rw [edge_unique_bwd g y p x he hpe]
          exact hp
    exact hdisj y hych
  · -- x was consumed in an earlier iteration
    have hy := hLC x hxin y hedge
    intro hyal2
    exact hy (List.mem_cons_of_mem _ (hal2sub y hyal2))

/-- The chain-discovery loop never raises on a well-formed graph: every
`dsk.layers[...]` lookup hits a present name, and both walks' `set.remove`
calls succeed because the consumed set stays closed under fusable edges. -/
theorem chainLoop_total (g : HLG) (r : String → Nat) (hr : RankOk g r)
    (hdepkeys : ∀ n ∈ g.dependencies.map Prod.fst, (g.layers.lookup n).isSome)
    (hdepvals : ∀ p ∈ g.dependencies, ∀ a ∈ p.2, (g.layers.lookup a).isSome)
    (hnamedeps : ∀ n, (g.layers.lookup n).isSome → (g.dependencies.lookup n).isSome) :
    ∀ (al : List String) (chains : List (List String)) (lys : List (String × Layer)),
      al.Nodup →
      (∀ x ∈ al, (g.layers.lookup x).isSome) →
      (∀ x, x ∉ al → ∀ y,
        (edgeOKb g x y = true ∨ edgeOKb g y x = true) → y ∉ al) →
      ∃ out, chainLoop g al chains lys = .ok out := by
  intro al chains lys
  induction al, chains, lys using chainLoop.induct g with
  | case1 chains lys =>
    intro _ _ _
    exact ⟨(chains, lys), by rw [chainLoop]⟩
  | case2 chains lys lay rest e heq =>
    intro hnd hmem hLC
    exfalso
    obtain ⟨ml, hml⟩ := Option.isSome_iff_exists.mp (hmem lay (List.mem_cons_self _ _))
    rw [(pyGet_ok _ _ _).mpr hml] at heq
    simp at heq
  | case3 chains lys lay rest ml heq habl e hwf =>
    intro hnd hmem hLC
    exfalso
    have habll : layerABL g lay = true := layerABL_of_pyGet g lay ml heq habl
    have hclosed : ∀ x, x ∉ rest → x ∉ ([lay] : List String) → ∀ y,
        (edgeOKb g x y = true ∨ edgeOKb g y x = true) →
        y ∉ rest ∧ y ∉ ([lay] : List String) := by
      intro x hxr hxl y hed
      have hxin : x ∉ lay :: rest := by
        intro hc
        rcases List.mem_cons.mp hc with hc | hc
        · exact hxl (hc ▸ List.mem_singleton_self _)
        · exact hxr hc
      have hy := hLC x hxin y hed
      constructor
      · exact fun hc => hy (List.mem_cons_of_mem _ hc)
      · intro hc
        simp only [List.mem_singleton] at hc
        exact hy (hc ▸ List.mem_cons_self _ _)
    obtain ⟨out, hout⟩ := walkFwd_total g r hr hdepkeys rest lay [lay]
      hnd.of_cons (Option.isSome_iff_exists.mpr ⟨ml, (pyGet_ok _ _ _).mp heq⟩)
      hclosed rfl habll
      (by intro m hm; simp only [List.mem_singleton] at hm; subst hm; exact le_refl _)
      (by intro m hm; simp only [List.mem_singleton] at hm; subst hm
          exact (List.nodup_cons.mp hnd).1)
    rw [hout] at hwf
    simp at hwf
  | case4 chains lys lay rest ml heq habl chain1 al1 hwf e hwb =>
    intro hnd hmem hLC
    exfalso
    have habll : layerABL g lay = true := layerABL_of_pyGet g lay ml heq habl
    have hndr : rest.Nodup := hnd.of_cons
    have hlnr : lay ∉ rest := (List.nodup_cons.mp hnd).1
    obtain ⟨hok1, ⟨last1, hlast1, hablL, hstopF⟩, post, hpost, hal1e, hpostsub⟩ :=
      walkFwd_spec g rest lay [lay] chain1 al1 hwf (by simp) habll trivial
    have hok1c : ChainPairsOK g (lay :: post) := by
      rw [hpost] at hok1
      exact hok1
    have hal1nd : al1.Nodup := by
      rw [hal1e]
      exact foldl_erase_nodup post rest hndr
    have hclosed : ∀ x, x ∉ al1 → x ∉ chain1 → ∀ y,
        (edgeOKb g x y = true ∨ edgeOKb g y x = true) →
        y ∉ al1 ∧ y ∉ chain1 := by
      intro x hxal hxch y hed
      have hxin : x ∉ lay :: rest := by
        intro hc
        rcases List.mem_cons.mp hc with hc | hc
        · exact hxch (by rw [hpost, hc]; exact List.mem_cons_self _ _)
        · refine hxal ?_
          rw [hal1e]
          refine foldl_erase_mem x post rest hc ?_
          intro hcp
          exact hxch (by rw [hpost]; exact List.mem_cons_of_mem _ hcp)
      have hy := hLC x hxin y hed
      constructor
      · intro hc
        rw [hal1e] at hc
        exact hy (List.mem_cons_of_mem _ (foldl_erase_subset y post rest hc))
      · intro hc
        rw [hpost] at hc
        rcases List.mem_cons.mp hc with hc | hc
        · exact hy (hc ▸ List.mem_cons_self _ _)
        · exact hy (List.mem_cons_of_mem _ (hpostsub y hc))
    have hhead1 : chain1.head? = some lay := by rw [hpost]; rfl
    have hrank1 : ∀ m ∈ chain1, r lay ≤ r m := by
      intro m hm
      rw [hpost] at hm
      rcases List.mem_cons.mp hm with hm | hm
      · subst hm; exact le_refl _
      · exact le_of_lt (chain_rank_head g r hr post lay hok1c m hm)
    have hdisj1 : ∀ m ∈ chain1, m ∉ al1 := by
      intro m hm
      rw [hpost] at hm
      rcases List.mem_cons.mp hm with hm | hm
      · subst hm
        intro hc
        rw [hal1e] at hc
        exact hlnr (foldl_erase_subset m post rest hc)
      · rw [hal1e]
        exact foldl_erase_not_mem m post rest hndr hm
    obtain ⟨out, hout⟩ := walkBwd_total g r hr hdepvals hnamedeps al1 lay chain1
      hal1nd (Option.isSome_iff_exists.mpr ⟨ml, (pyGet_ok _ _ _).mp heq⟩)
      hclosed hhead1 habll hrank1 hdisj1
    rw [hout] at hwb
    simp at hwb
  | case5 chains lys lay rest ml heq habl chain1 al1 hwf chain2 al2 hwb hlen hlast =>
    intro _ _ _
    have hne : chain2 ≠ [] := by
      intro hc
      rw [hc] at hlen
      simp at hlen
    rw [← List.getLast?_isSome, hlast] at hne
    simp at hne
  | case6 chains lys lay rest ml heq habl chain1 al1 hwf chain2 al2 hwb hlen tail hlast e htl =>
    intro hnd hmem hLC
    exfalso
    obtain ⟨pre, post, hpost, hch2eq, hch2nd, hal2nd, hch2sub, hal2sub, hdisj, hkeep⟩ :=
      chain_step_structure g lay rest chain1 al1 chain2 al2 hwf hwb hnd
    have htmem : tail ∈ lay :: rest := hch2sub tail (mem_of_getLast? chain2 tail hlast)
    obtain ⟨tl, htll⟩ := Option.isSome_iff_exists.mp (hmem tail htmem)
    rw [(pyGet_ok _ _ _).mpr htll] at htl
    simp at htl
  | case7 chains lys lay rest ml heq habl chain1 al1 hwf chain2 al2 hwb hlen tail hlast ml2 htl ih =>
    intro hnd hmem hLC
    have habll : layerABL g lay = true := layerABL_of_pyGet g lay ml heq habl
    obtain ⟨pre, post, hpost, hch2eq, hch2nd, hal2nd, hch2sub, hal2sub, hdisj, hkeep⟩ :=
      chain_step_structure g lay rest chain1 al1 chain2 al2 hwf hwb hnd
    have hmem2 : ∀ x ∈ al2, (g.layers.lookup x).isSome := fun x hx =>
      hmem x (List.mem_cons_of_mem _ (hal2sub x hx))
    have hLC2 := loop_closed_step g lay rest chain1 al1 chain2 al2 hwf hwb hnd habll hLC
    obtain ⟨out, hout⟩ := ih hal2nd hmem2 hLC2
    exact ⟨out, by
      rw [chainLoop_eq_chain g lay rest chains lys ml chain1 al1 chain2 al2 tail ml2
        heq habl hwf hwb hlen hlast htl]
      exact hout⟩
  | case8 chains lys lay rest ml heq habl chain1 al1 hwf chain2 al2 hwb hlen ih =>
    intro hnd hmem hLC
    have habll : layerABL g lay = true := layerABL_of_pyGet g lay ml heq habl
    obtain ⟨pre, post, hpost, hch2eq, hch2nd, hal2nd, hch2sub, hal2sub, hdisj, hkeep⟩ :=
      chain_step_structure g lay rest chain1 al1 chain2 al2 hwf hwb hnd
    have hmem2 : ∀ x ∈ al2, (g.layers.lookup x).isSome := fun x hx =>
      hmem x (List.mem_cons_of_mem _ (hal2sub x hx))
    have hLC2 := loop_closed_step g lay rest chain1 al1 chain2 al2 hwf hwb hnd habll hLC
    obtain ⟨out, hout⟩ := ih hal2nd hmem2 hLC2
    exact ⟨out, by
      rw [chainLoop_eq_single g lay rest chains lys ml chain1 al1 chain2 al2
        heq habl hwf hwb hlen]
      exact hout⟩
  | case9 chains lys lay rest ml heq hnabl ih =>
    intro hnd hmem hLC
    have hLC2 : ∀ x, x ∉ rest → ∀ y,
        (edgeOKb g x y = true ∨ edgeOKb g y x = true) → y ∉ rest := by
      intro x hxr y hed
      by_cases hxl : x = lay
      · subst hxl
        intro _
        have habl2 : layerABL g x = true := by
          rcases hed with he | he
          · exact (edgeOKb_ABL g x y he).1
          · exact (edgeOKb_ABL g y x he).2
        have habl3 : ml.isABL = true := by
          unfold layerABL at habl2
          rw [(pyGet_ok _ _ _).mp heq] at habl2
          simpa using habl2
        exact hnabl habl3
      · have hxin : x ∉ lay :: rest := by
          intro hc
          rcases List.mem_cons.mp hc with hc | hc
          · exact hxl hc
          · exact hxr hc
        exact fun hc => hLC x hxin y hed (List.mem_cons_of_mem _ hc)
    obtain ⟨out, hout⟩ := ih hnd.of_cons
      (fun x hx => hmem x (List.mem_cons_of_mem _ hx)) hLC2
    exact ⟨out, by
      rw [chainLoop_eq_nonABL g lay rest chains lys ml heq hnabl]
      exact hout⟩

mutual

/-- `_recursive_replace` never raises on a single argument whose reference
tokens are bounded by the owning layer's `indices` length: the only failure
path is an out-of-range list index at line 377. -/
theorem replaceArg_total (lind : IndexList) (parent : String) :
    ∀ (a : Arg) (ind : IndexList), argRefsBounded lind.length a = true →
      ∃ out, replaceArg lind parent a ind = .ok out
  | Arg.ref n, ind, hb => by
    have hn : n < lind.length := by
      rw [argRefsBounded] at hb
      exact of_decide_eq_true hb
    rw [replaceArg]
    split
    case h_1 heq =>
      exfalso
      rw [List.getElem?_eq_getElem hn] at heq
      simp at heq
    case h_2 nm ax heq =>
      split
      case h_1 => exact ⟨_, rfl⟩
      case h_2 =>
        split
        · exact ⟨_, rfl⟩
        · exact ⟨_, rfl⟩
  | Arg.str s, ind, _ => ⟨(Arg.str s, ind), rfl⟩
  | Arg.listArg xs, ind, hb => by
    rw [argRefsBounded] at hb
    obtain ⟨⟨ys, ind2⟩, hys⟩ := replaceArgs_total lind parent xs ind hb
    refine ⟨(Arg.listArg ys, ind2), ?_⟩
    rw [replaceArg]
    simp only [hys]
  | Arg.tupleArg xs, ind, hb => by
    rw [argRefsBounded] at hb
    obtain ⟨⟨ys, ind2⟩, hys⟩ := replaceArgs_total lind parent xs ind hb
    refine ⟨(Arg.tupleArg ys, ind2), ?_⟩
    rw [replaceArg]
    simp only [hys]
  | Arg.dictArg kvs, ind, _ => ⟨(Arg.dictArg kvs, ind), rfl⟩
  | Arg.func f, ind, _ => ⟨(Arg.func f, ind), rfl⟩
  | Arg.intArg i, ind, _ => ⟨(Arg.intArg i, ind), rfl⟩
  | Arg.noneArg, ind, _ => ⟨(Arg.noneArg, ind), rfl⟩

/-- `_recursive_replace` never raises on a bounded argument sequence. -/
theorem replaceArgs_total (lind : IndexList) (parent : String) :
    ∀ (xs : Args) (ind : IndexList), argsRefsBounded lind.length xs = true →
      ∃ out, replaceArgs lind parent xs ind = .ok out
  | .nil, ind, _ => ⟨(Args.nil, ind), rfl⟩
  | .cons a rest, ind, hb => by
    rw [argsRefsBounded, Bool.and_eq_true] at hb
    obtain ⟨⟨a2, ind2⟩, ha⟩ := replaceArg_total lind parent a ind hb.1
    obtain ⟨⟨rest2, ind3⟩, hrest⟩ := replaceArgs_total lind parent rest ind2 hb.2
    refine ⟨(Args.cons a2 rest2, ind3), ?_⟩
    rw [replaceArgs]
    simp only [ha, hrest]

end

theorem map_fst_singleton {α : Type} (k : String) :
    ∀ (m : List (String × α)), m.map Prod.fst = [k] → ∃ v, m = [(k, v)] := by
  intro m
  cases m with
  | nil => intro h; simp at h
  | cons p rest =>
    intro h
    simp only [List.map_cons, List.cons.injEq] at h
    obtain ⟨h1, h2⟩ := h
    have hre : rest = [] := by
      cases rest with
      | nil => rfl
      | cons q t => simp at h2
    subst hre
    obtain ⟨k1, v⟩ := p
    cases h1
    exact ⟨v, rfl⟩

/-- In a chain of length at least two, every member is Blockwise: it is an
endpoint of some fusable edge of the chain. -/
theorem chain_member_ABL (g : HLG) :
    ∀ (c : List String), ChainPairsOK g c → 1 < c.length →
      ∀ m ∈ c, layerABL g m = true := by
  intro c
  induction c with
  | nil => intro _ h; simp at h
  | cons a rest ih =>
    intro hok hlen m hm
    cases rest with
    | nil => simp at hlen
    | cons b rest2 =>
      rcases List.mem_cons.mp hm with hm | hm
      · subst hm
        exact (edgeOKb_ABL g m b hok.1).1
      · cases rest2 with
        | nil =>
          simp only [List.mem_singleton] at hm
          subst hm
          exact (edgeOKb_ABL g a m hok.1).2
        | cons cc rest3 =>
          exact ih hok.2 (by simp) m hm

/-- The per-member fusion fold never raises when every member is a
Blockwise layer with its one-entry task template and bounded references. -/
theorem fuseMembers_total (g : HLG)
    (hwfl : ∀ name layer, g.layers.lookup name = some layer → layer.isABL = true →
      layer.dsk.map Prod.fst = [name] ∧
      ∀ q ∈ layer.dsk, argsRefsBounded layer.indices.length q.2.args = true) :
    ∀ (members : List String) (parent : String) (acc : FuseAcc),
      (∀ m ∈ members, layerABL g m = true) →
      ∃ out, fuseMembers g parent members acc = .ok out := by
  intro members
  induction members with
  | nil =>
    intro parent acc _
    exact ⟨acc, by rw [fuseMembers]⟩
  | cons member rest ih =>
    intro parent acc hABL
    have hablm : layerABL g member = true := hABL member (List.mem_cons_self _ _)
    obtain ⟨layer, hlk, hlabl⟩ : ∃ l, g.layers.lookup member = some l ∧
        l.isABL = true := by
      unfold layerABL at hablm
      cases h : g.layers.lookup member with
      | none => rw [h] at hablm; simp at hablm
      | some l =>
        rw [h] at hablm
        exact ⟨l, rfl, hablm⟩
    obtain ⟨hdsk, hbnd⟩ := hwfl member layer hlk hlabl
    obtain ⟨task, hdske⟩ := map_fst_singleton member layer.dsk hdsk
    have htask : layer.dsk.lookup member = some task := by
      rw [hdske]
      simp [List.lookup]
    have hb : argsRefsBounded layer.indices.length task.args = true :=
      hbnd (member, task) (by rw [hdske]; exact List.mem_singleton_self _)
    obtain ⟨⟨args2, ind2⟩, hra⟩ := replaceArgs_total layer.indices parent task.args
      acc.indices hb
    obtain ⟨out, hout⟩ := ih member
      ⟨dictSet acc.subgraph member ⟨task.fn, args2⟩, ind2,
       layer.ioDeps.foldl (fun d p => dictSet d p.1 p.2) acc.ioDeps,
       acc.written ++ layer.ioDeps⟩
      (fun m hm => hABL m (List.mem_cons_of_mem _ hm))
    refine ⟨out, ?_⟩
    rw [fuseMembers]
    simp only [(pyGet_ok _ _ _).mpr hlk, (pyGet_ok _ _ _).mpr htask, hra]
    exact hout

/-- Line 344 never raises when the popped keys are distinct and present. -/
theorem popDeps_total :
    ∀ (ks : List String) (d : List (String × List String)),
      ks.Nodup → (∀ k ∈ ks, (d.lookup k).isSome) →
      ∃ out, popDeps d ks = .ok out := by
  intro ks
  induction ks with
  | nil =>
    intro d _ _
    exact ⟨d, by rw [popDeps]⟩
  | cons k krest ih =>
    intro d hnd hks
    obtain ⟨v, hv⟩ := Option.isSome_iff_exists.mp (hks k (List.mem_cons_self _ _))
    have hpop : dictPop d k = .ok (d.filter (fun p => p.1 ≠ k)) := by
      unfold dictPop
      rw [hv]
    have hrest : ∀ k2 ∈ krest, ((d.filter (fun p => p.1 ≠ k)).lookup k2).isSome := by
      intro k2 hk2
      have hne : k2 ≠ k := fun hc => (List.nodup_cons.mp hnd).1 (hc ▸ hk2)
      rw [filter_ne_lookup_other k k2 hne]
      exact hks k2 (List.mem_cons_of_mem _ hk2)
    obtain ⟨out, hout⟩ := ih _ (List.nodup_cons.mp hnd).2 hrest
    refine ⟨out, ?_⟩
    rw [popDeps]
    simp only [hpop]
    exact hout

/-- One chain rewrite (lines 335-369) never raises: every lookup hits a
present key and `_recursive_replace` stays in range, given the Blockwise
well-formedness facts and a dependency entry for every member. -/
theorem fuseChain_total (g : HLG) (st : FuseState) (c : List String)
    (hwfl : ∀ name layer, g.layers.lookup name = some layer → layer.isABL = true →
      layer.dsk.map Prod.fst = [name] ∧
      layer.numblocks.filterMap Prod.snd ≠ [] ∧
      ∀ q ∈ layer.dsk, argsRefsBounded layer.indices.length q.2.args = true)
    (hnd : c.Nodup) (hlen : 1 < c.length) (hok : ChainPairsOK g c)
    (hdeps : ∀ m ∈ c, (st.deps.lookup m).isSome)
    (hlys : ∀ tt, c.getLast? = some tt → (st.lys.lookup tt).isSome) :
    ∃ st2, fuseChain g st c = .ok st2 := by
  cases c with
  | nil => simp at hlen
  | cons c0 members =>
    have hABL : ∀ m ∈ c0 :: members, layerABL g m = true :=
      chain_member_ABL g (c0 :: members) hok hlen
    have hablc0 : layerABL g c0 = true := hABL c0 (List.mem_cons_self _ _)
    obtain ⟨layer0, hlk0, habl0⟩ : ∃ l, g.layers.lookup c0 = some l ∧
        l.isABL = true := by
      unfold layerABL at hablc0
      cases h : g.layers.lookup c0 with
      | none => rw [h] at hablc0; simp at hablc0
      | some l =>
        rw [h] at hablc0
        exact ⟨l, rfl, hablc0⟩
    have hgl : (c0 :: members).getLast? =
        some ((c0 :: members).getLast (by simp)) :=
      List.getLast?_eq_getLast _ (by simp)
    obtain ⟨outlayer, hout⟩ := Option.isSome_iff_exists.mp (hlys _ hgl)
    obtain ⟨nb, hnb⟩ : ∃ nb, (layer0.numblocks.filterMap Prod.snd).head? =
        some nb := by
      have hne := (hwfl c0 layer0 hlk0 habl0).2.1
      cases hh : (layer0.numblocks.filterMap Prod.snd).head? with
      | none => exact absurd (List.head?_eq_none_iff.mp hh) hne
      | some nb => exact ⟨nb, rfl⟩
    obtain ⟨d0, hd0⟩ := Option.isSome_iff_exists.mp
      (hdeps c0 (List.mem_cons_self _ _))
    have hdl : ∀ k ∈ (c0 :: members).dropLast,
        ((dictSet st.deps ((c0 :: members).getLast (by simp)) d0).lookup k).isSome := by
      intro k hk
      have hkt : k ≠ (c0 :: members).getLast (by simp) :=
        nodup_dropLast_ne_last (c0 :: members) _ hnd hgl k hk
      rw [dictSet_lookup_other _ k d0 hkt]
      exact hdeps k (List.mem_of_mem_dropLast hk)
    obtain ⟨deps2, hpop⟩ := popDeps_total (c0 :: members).dropLast
      (dictSet st.deps ((c0 :: members).getLast (by simp)) d0)
      (hnd.sublist (List.dropLast_sublist _)) hdl
    obtain ⟨acc, hacc⟩ := fuseMembers_total g
      (fun name layer hl ha => ⟨(hwfl name layer hl ha).1, (hwfl name layer hl ha).2.2⟩)
      members c0 ⟨layer0.dsk, layer0.indices, layer0.ioDeps, []⟩
      (fun m hm => hABL m (List.mem_cons_of_mem _ hm))
    cases hres : fuseChain g st (c0 :: members) with
    | ok st2 => exact ⟨st2, rfl⟩
    | error e =>
      exfalso
      rw [fuseChain] at hres
      simp only [(pyGet_ok _ _ _).mpr hlk0, (pyGet_ok _ _ _).mpr hout, hnb,
        (pyGet_ok _ _ _).mpr hd0, hpop, hacc] at hres
      simp at hres

/-- The loop over all discovered chains never raises, the chains being
pairwise disjoint so each rewrite's present-key preconditions survive. -/
theorem fuseAll_total (g : HLG)
    (hwfl : ∀ name layer, g.layers.lookup name = some layer → layer.isABL = true →
      layer.dsk.map Prod.fst = [name] ∧
      layer.numblocks.filterMap Prod.snd ≠ [] ∧
      ∀ q ∈ layer.dsk, argsRefsBounded layer.indices.length q.2.args = true) :
    ∀ (cs : List (List String)) (st : FuseState),
      cs.join.Nodup →
      (∀ c ∈ cs, 1 < c.length) →
      (∀ c ∈ cs, ChainPairsOK g c) →
      (∀ c ∈ cs, ∀ m ∈ c, (st.deps.lookup m).isSome) →
      (∀ c ∈ cs, ∀ tt, c.getLast? = some tt → (st.lys.lookup tt).isSome) →
      ∃ st2, fuseAll g st cs = .ok st2 := by
  intro cs
  induction cs with
  | nil =>
    intro st _ _ _ _ _
    exact ⟨st, by rw [fuseAll]⟩
  | cons c rest ih =>
    intro st hjnd hlen hok hdeps hlys
    have hjoin : (c :: rest).join = c ++ rest.join := rfl
    rw [hjoin, List.nodup_append] at hjnd
    obtain ⟨hcnd, hrnd, hdisj⟩ := hjnd
    obtain ⟨st1, hfc⟩ := fuseChain_total g st c hwfl hcnd
      (hlen c (List.mem_cons_self _ _)) (hok c (List.mem_cons_self _ _))
      (hdeps c (List.mem_cons_self _ _)) (hlys c (List.mem_cons_self _ _))
    have hframe := fuseChain_spec g st st1 c hfc hcnd
    have hlc : 1 < c.length := hlen c (List.mem_cons_self _ _)
    have hcne : c ≠ [] := by
      intro hc
      rw [hc] at hlc
      simp at hlc
    obtain ⟨t0, ht0⟩ : ∃ t0, c.getLast? = some t0 := by
      cases hgl : c.getLast? with
      | none => exact absurd (List.getLast?_eq_none_iff.mp hgl) hcne
      | some t0 => exact ⟨t0, rfl⟩
    have hkeep := (hframe t0 ht0).1
    have hdeps2 : ∀ c2 ∈ rest, ∀ m ∈ c2, (st1.deps.lookup m).isSome := by
      intro c2 hc2 m hm
      have hmj : m ∈ rest.join := List.mem_join.mpr ⟨c2, hc2, hm⟩
      have hmc : m ∉ c := fun hc => hdisj hc hmj
      rw [(hkeep m hmc).2]
      exact hdeps c2 (List.mem_cons_of_mem _ hc2) m hm
    have hlys2 : ∀ c2 ∈ rest, ∀ tt, c2.getLast? = some tt →
        (st1.lys.lookup tt).isSome := by
      intro c2 hc2 tt htt
      have hmj : tt ∈ rest.join := List.mem_join.mpr ⟨c2, hc2, mem_of_getLast? c2 tt htt⟩
      have hmc : tt ∉ c := fun hc => hdisj hc hmj
      rw [(hkeep tt hmc).1]
      exact hlys c2 (List.mem_cons_of_mem _ hc2) tt htt
    obtain ⟨st2, hout⟩ := ih st1 hrnd
      (fun c2 hc2 => hlen c2 (List.mem_cons_of_mem _ hc2))
      (fun c2 hc2 => hok c2 (List.mem_cons_of_mem _ hc2))
      hdeps2 hlys2
    refine ⟨st2, ?_⟩
    rw [fuseAll]
    simp only [hfc]
    exact hout

/-- C9: on every well-formed input graph - unique layer names, dependency
entries matching the layer-name set, every Blockwise layer carrying its
constructor's invariants (a one-entry task template keyed by its own name, a
concrete `numblocks` value, reference tokens in range of `indices`) - whose
dependency relation is acyclic (witnessed by a rank function),
`rewrite_layer_chains` never raises an exception: structural mismatches only
exclude layers from chain formation, and the rewrite of every identified
chain succeeds. -/
theorem rewrite_layer_chains_total (g : HLG) (r : String → Nat)
    (hr : RankOk g r) (hwf : WfHLG g) :
    ∃ out, rewriteLayerChains g = .ok out := by
  obtain ⟨hnd, hndd, hkd, hkl, hdv, hablw⟩ := hwf
  have hdepkeys : ∀ n ∈ g.dependencies.map Prod.fst, (g.layers.lookup n).isSome :=
    fun n hn => lookup_isSome_of_mem_keys n _ (hkd n hn)
  have hdepvals : ∀ p ∈ g.dependencies, ∀ a ∈ p.2, (g.layers.lookup a).isSome :=
    fun p hp a ha => lookup_isSome_of_mem_keys a _ (hdv p hp a ha)
  have hnamedeps : ∀ n, (g.layers.lookup n).isSome →
      (g.dependencies.lookup n).isSome :=
    fun n hn => lookup_isSome_of_mem_keys n _
      (hkl n (mem_keys_of_lookup_isSome n _ hn))
  have hwfl : ∀ name layer, g.layers.lookup name = some layer →
      layer.isABL = true →
      layer.dsk.map Prod.fst = [name] ∧
      layer.numblocks.filterMap Prod.snd ≠ [] ∧
      ∀ q ∈ layer.dsk, argsRefsBounded layer.indices.length q.2.args = true := by
    intro name layer hl ha
    exact hablw (name, layer) (lookup_mem name layer _ hl) ha
  obtain ⟨out1, hcl⟩ := chainLoop_total g r hr hdepkeys hdepvals hnamedeps
    (g.layers.map Prod.fst) [] [] hnd
    (fun x hx => lookup_isSome_of_mem_keys x _ hx)
    (by
      intro x hx y hed
      exfalso
      apply hx
      rcases hed with he | he
      · exact mem_keys_of_lookup_isSome x _
          (layerABL_isSome g x (edgeOKb_ABL g x y he).1)
      · exact mem_keys_of_lookup_isSome x _
          (layerABL_isSome g x (edgeOKb_ABL g y x he).2))
  obtain ⟨chains, lys⟩ := out1
  obtain ⟨nc, hchains, hjnd, hjsub, hnemp, hlenc, hkeepl, hmids, hpass, htails⟩ :=
    chainLoop_master g (g.layers.map Prod.fst) [] [] chains lys hcl hnd
      (by intro k _; rfl)
  rw [List.nil_append] at hchains
  subst hchains
  have hchok : ∀ c ∈ chains, ChainPairsOK g c :=
    chainLoop_chains_ok g (g.layers.map Prod.fst) [] [] (chains, lys) hcl
      (by intro c hc; simp at hc)
  obtain ⟨st2, hfa⟩ := fuseAll_total g hwfl chains ⟨lys, g.dependencies, []⟩
    hjnd hlenc hchok
    (by
      intro c hc m hm
      exact lookup_isSome_of_mem_keys m _
        (hkl m (hjsub m (List.mem_join.mpr ⟨c, hc, hm⟩))))
    (by
      intro c hc tt htt
      have hmemt : tt ∈ g.layers.map Prod.fst :=
        hjsub tt (List.mem_join.mpr ⟨c, hc, mem_of_getLast? c tt htt⟩)
      have hteq : lys.lookup tt = g.layers.lookup tt := htails c hc tt htt
      rw [show (FuseState.mk lys g.dependencies []).lys = lys from rfl, hteq]
      exact lookup_isSome_of_mem_keys tt _ hmemt)
  exact ⟨(⟨st2.lys, st2.deps⟩, st2.effects), by
    rw [rewriteLayerChains, hcl]
    simp only [hfa]⟩

/-- Witness for C9: the concrete two-layer linear graph is well-formed and
acyclic, and the rewrite returns successfully on it. -/
theorem rewrite_layer_chains_total_witness :
    RankOk gChain rankAB ∧ WfHLG gChain ∧
      ∃ out, rewriteLayerChains gChain = .ok out := by
  have h1 : RankOk gChain rankAB := by unfold RankOk; decide
  have h2 : WfHLG gChain := by unfold WfHLG; decide
  exact ⟨h1, h2, rewrite_layer_chains_total gChain rankAB h1 h2⟩

/-! ## In-place effects of the two passes (C2) -/

/-- A second chain member carrying an io dependency, so fusing writes it
into the chain head's `io_deps` dict through the line-350 alias. -/
def c2LayerB : Layer := { bwLayerB with ioDeps := [("io-b", "blob")] }

/-- The two-layer chain graph whose second member has an io dependency. -/
def gC2 : HLG :=
  ⟨[("A", bwLayerA), ("B", c2LayerB)], [("A", []), ("B", ["A"])]⟩

/-- A pass-through layer carrying a `_cached_dict` attribute. -/
def cacheLayer : Layer := { baseLayer with cachedDict := true }

/-- A projectable graph with a pass-through cached-dict layer. -/
def gCache : HLG :=
  ⟨[("a", projLayer), ("c", cacheLayer)], [("a", []), ("c", [])]⟩

/-- The fused layer for the chain A-B of `gC2`: the merged `io_deps`
appears on it (and, in place, on A's layer object). -/
def c2FusedB : Layer := { fusedB with ioDeps := [("io-b", "blob")] }

theorem walkFwd_gC2 : walkFwd gC2 ["B"] "A" ["A"] = .ok (["A", "B"], []) := by
  simp [walkFwd, fwdStep, dependentsOf, pyGet, gC2, bwLayerA, c2LayerB, bwLayerB,
    baseLayer, List.lookup]

theorem walkBwd_gC2 : walkBwd gC2 [] "A" ["A", "B"] = .ok (["A", "B"], []) := by
  rw [walkBwd]
  simp only [show bwdStep gC2 "A" = .ok none from by decide]

theorem chainLoop_gC2 :
    chainLoop gC2 ["A", "B"] [] [] = .ok ([["A", "B"]], [("B", c2LayerB)]) := by
  rw [chainLoop_eq_chain gC2 "A" ["B"] [] [] bwLayerA ["A", "B"] [] ["A", "B"]
    [] "B" c2LayerB (by decide) (by decide) walkFwd_gC2 walkBwd_gC2
    (by decide) (by decide) (by decide)]
  simp [chainLoop_eq_nil, dictSet]

theorem rewriteLayerChains_gC2 :
    rewriteLayerChains gC2 =
      .ok (⟨[("B", c2FusedB)], [("B", [])]⟩, [("A", [("io-b", "blob")])]) := by
  rw [rewriteLayerChains]
  rw [show gC2.layers.map Prod.fst = ["A", "B"] from rfl]
  rw [chainLoop_gC2]
  decide

/-- C2 counterexample: fusing the chain A-B of `gC2` merges B's `io_deps`
into the chain head A's `io_deps` dict in place (the effects channel is
nonempty), and `optimize_columns` on `gCache` pops the `_cached_dict`
attribute of the pass-through layer c on the original layer object - so
neither pass is side-effect-free on its input layers. -/
theorem layer_mutation_counterexample :
    rewriteLayerChains gC2 =
      .ok (⟨[("B", c2FusedB)], [("B", [])]⟩, [("A", [("io-b", "blob")])]) ∧
    ([("A", [("io-b", "blob")])] :
      List (String × List (String × String))) ≠ [] ∧
    optimizeColumns cbTriv "warn" gCache = .ok ⟨gCache, [], [], ["c"]⟩ ∧
    (["c"] : List String) ≠ [] := by
  refine ⟨rewriteLayerChains_gC2, by decide, ?_, by decide⟩
  decide

/-- When every layer's `io_deps` is empty, the per-member fold writes
nothing through the alias. -/
theorem fuseMembers_written (g : HLG)
    (hio : ∀ p ∈ g.layers, p.2.ioDeps = []) :
    ∀ (members : List String) (parent : String) (acc out : FuseAcc),
      fuseMembers g parent members acc = .ok out → out.written = acc.written := by
  intro members
  induction members with
  | nil =>
    intro parent acc out h
    rw [fuseMembers] at h
    simp only [Except.ok.injEq] at h
    subst h
    rfl
  | cons member rest ih =>
    intro parent acc out h
    rw [fuseMembers] at h
    split at h
    · simp at h
    · rename_i layer hlay
      split at h
      · simp at h
      · rename_i task htask
        split at h
        · simp at h
        · rename_i args2 ind2 hargs
          have hlio : layer.ioDeps = [] :=
            hio (member, layer) (lookup_mem member layer _ ((pyGet_ok _ _ _).mp hlay))
          have hrec := ih member _ out h
          rw [hrec]
          simp [hlio]

/-- One chain rewrite leaves the effects channel unchanged when every
layer's `io_deps` is empty. -/
theorem fuseChain_effects (g : HLG)
    (hio : ∀ p ∈ g.layers, p.2.ioDeps = []) (st st' : FuseState)
    (c : List String) (h : fuseChain g st c = .ok st') :
    st'.effects = st.effects := by
  cases c with
  | nil => rw [fuseChain] at h; simp at h
  | cons c0 members =>
    rw [fuseChain] at h
    split at h
    · simp at h
    · rename_i layer0 hlay0
      split at h
      · simp at h
      · rename_i outlayer hout
        split at h
        · simp at h
        · rename_i nb hnb
          split at h
          · simp at h
          · rename_i d0 hd0
            split at h
            · simp at h
            · rename_i deps2 hpop
              split at h
              · simp at h
              · rename_i acc hacc
                simp only [Except.ok.injEq] at h
                subst h
                have hw : acc.written = ([] : List (String × String)) := by
                  have hrec := fuseMembers_written g hio members c0
                    ⟨layer0.dsk, layer0.indices, layer0.ioDeps, []⟩ acc hacc
                  rw [hrec]
                simp only [hw]
                simp

theorem fuseAll_effects (g : HLG)
    (hio : ∀ p ∈ g.layers, p.2.ioDeps = []) :
    ∀ (cs : List (List String)) (st st' : FuseState),
      fuseAll g st cs = .ok st' → st'.effects = st.effects := by
  intro cs
  induction cs with
  | nil =>
    intro st st' h
    rw [fuseAll] at h
    simp only [Except.ok.injEq] at h
    subst h
    rfl
  | cons c rest ih =>
    intro st st' h
    rw [fuseAll] at h
    split at h
    · simp at h
    · rename_i st1 hfc
      rw [ih st1 st' h, fuseChain_effects g hio st st1 c hfc]

/-- No pass-through layer carries a cached task dictionary, so lines
153-154 pop nothing that exists. -/
theorem ocPassthroughPopNames_nil (g : HLG)
    (hcd : ∀ p ∈ g.layers, p.2.cachedDict = false) :
    ocPassthroughPopNames g = [] := by
  unfold ocPassthroughPopNames
  rw [List.filterMap_eq_nil]
  intro p hp
  rw [if_neg]
  intro hcond
  have hlast := hcond.2.2.2.2
  rw [hcd p hp] at hlast
  simp at hlast

/-- C2 (amended): the only in-place mutations the two passes perform on
input layer objects are (a) `rewrite_layer_chains` writing later chain
members' `io_deps` into the chain head's `io_deps` dict through the alias of
line 350, and (b) `optimize_columns` popping `_cached_dict` from layers that
enter the tracer graph by reference (lines 153-154).  Hence on every graph
whose layers carry no `io_deps` and no cached task dictionary, both passes
are free of in-place effects: the chain rewrite's effects channel is empty,
and no cached dictionary is popped, for every collaborator set and every
configuration. -/
theorem optimize_passes_frame (g : HLG) (cb : Collab) (onFail : String)
    (hio : ∀ p ∈ g.layers, p.2.ioDeps = [])
    (hcd : ∀ p ∈ g.layers, p.2.cachedDict = false) :
    (∀ g2 eff, rewriteLayerChains g = .ok (g2, eff) → eff = []) ∧
    (∀ res, optimizeColumns cb onFail g = .ok res → res.cachePops = []) := by
  constructor
  · intro g2 eff h
    rw [rewriteLayerChains] at h
    split at h
    · simp at h
    · rename_i chains lys hcl
      split at h
      · simp at h
      · rename_i st hfa
        simp only [Except.ok.injEq, Prod.mk.injEq] at h
        obtain ⟨h1, h2⟩ := h
        rw [← h2]
        exact fuseAll_effects g hio chains ⟨lys, g.dependencies, []⟩ st hfa
  · intro res h
    have hpn := ocPassthroughPopNames_nil g hcd
    unfold optimizeColumns at h
    split at h
    · split at h
      · simp at h
      · rename_i pl1 states hmf
        split at h
        · simp at h
        · rename_i pl2 hmo
          split at h
          · simp at h
          · rename_i pl3 hta
            split at h
            · rename_i u heval
              split at h
              · simp at h
              · rename_i projected hproj
                simp only [Except.ok.injEq] at h
                subst h
                exact hpn
            · rename_i err heval
              split at h
              · simp only [Except.ok.injEq] at h
                subst h
                exact hpn
              · split at h
                · simp only [Except.ok.injEq] at h
                  subst h
                  exact hpn
                · split at h
                  · simp at h
                  · simp at h
    · simp only [Except.ok.injEq] at h
      subst h
      rfl

/-- Witness for the amended C2 on the concrete chain graph `gChain`, whose
layers have empty `io_deps` and no cached dictionaries: the rewrite's
effects channel is empty and no cache pop occurs. -/
theorem optimize_passes_frame_witness :
    (∀ g2 eff, rewriteLayerChains gChain = .ok (g2, eff) → eff = []) ∧
    (∀ res, optimizeColumns cbTriv "warn" gChain = .ok res →
      res.cachePops = []) :=
  optimize_passes_frame gChain cbTriv "warn" (by decide) (by decide)

/-! ## Idempotence of the chain rewrite (C8) -/

/-- Maximality of the discovered chains: every recorded chain's last member
has no fusable forward step and its head no fusable backward step, and every
popped name that joins no chain - if Blockwise - stopped both walks
immediately. -/
theorem chainLoop_maximal (g : HLG) (al : List String)
    (chains : List (List String)) (lys : List (String × Layer)) :
    ∀ chains2 lys2, chainLoop g al chains lys = .ok (chains2, lys2) →
      al.Nodup →
      ∃ nc, chains2 = chains ++ nc ∧
        (∀ c ∈ nc,
          (∀ t, c.getLast? = some t → fwdStep g t = .ok none) ∧
          (∀ h, c.head? = some h → bwdStep g h = .ok none)) ∧
        (∀ n ∈ al, n ∉ nc.join → layerABL g n = true →
          fwdStep g n = .ok none ∧ bwdStep g n = .ok none) := by
  induction al, chains, lys using chainLoop.induct g with
  | case1 chains lys =>
    intro chains2 lys2 h hnd
    rw [chainLoop] at h
    simp only [Except.ok.injEq, Prod.mk.injEq] at h
    obtain ⟨hc, hl⟩ := h
    subst hc; subst hl
    exact ⟨[], by simp, by simp, by simp⟩
  | case2 chains lys lay rest e heq =>
    intro chains2 lys2 h hnd
    rw [chainLoop_eq_err g lay rest chains lys e heq] at h
    exact absurd h (by simp)
  | case3 chains lys lay rest ml heq habl e hwf =>
    intro chains2 lys2 h hnd
    rw [chainLoop_eq_fwdErr g lay rest chains lys ml e heq habl hwf] at h
    exact absurd h (by simp)
  | case4 chains lys lay rest ml heq habl chain1 al1 hwf e hwb =>
    intro chains2 lys2 h hnd
    rw [chainLoop_eq_bwdErr g lay rest chains lys ml chain1 al1 e heq habl hwf hwb] at h
    exact absurd h (by simp)
  | case5 chains lys lay rest ml heq habl chain1 al1 hwf chain2 al2 hwb hlen hlast =>
    intro chains2 lys2 h hnd
    have hne : chain2 ≠ [] := by
      intro hc
      rw [hc] at hlen
      simp at hlen
    rw [← List.getLast?_isSome, hlast] at hne
    simp at hne
  | case6 chains lys lay rest ml heq habl chain1 al1 hwf chain2 al2 hwb hlen tail hlast e htl =>
    intro chains2 lys2 h hnd
    rw [chainLoop_eq_tailErr g lay rest chains lys ml chain1 al1 chain2 al2 tail e
      heq habl hwf hwb hlen hlast htl] at h
    exact absurd h (by simp)
  | case7 chains lys lay rest ml heq habl chain1 al1 hwf chain2 al2 hwb hlen tail hlast ml2 htl ih =>
    intro chains2 lys2 h hnd
    rw [chainLoop_eq_chain g lay rest chains lys ml chain1 al1 chain2 al2 tail ml2
      heq habl hwf hwb hlen hlast htl] at h
    have habll : layerABL g lay = true := layerABL_of_pyGet g lay ml heq habl
    obtain ⟨hok1, ⟨last1, hlast1, hablL, hstopF⟩, post, hpost, hal1e, hpostsub⟩ :=
      walkFwd_spec g rest lay [lay] chain1 al1 hwf (by simp) habll trivial
    have hhead1 : chain1.head? = some lay := by rw [hpost]; rfl
    obtain ⟨hok2, ⟨hd, hhead2, hablH, hstopB⟩, pre, hpre, hal2e, hpresub⟩ :=
      walkBwd_spec g al1 lay chain1 chain2 al2 hwb hhead1 habll hok1
    obtain ⟨pre', post', hpost', hch2eq, hch2nd, hal2nd, hch2sub, hal2sub, hdisj, hkeep⟩ :=
      chain_step_structure g lay rest chain1 al1 chain2 al2 hwf hwb hnd
    have hch1ne : chain1 ≠ [] := by rw [hpost]; simp
    have hlast2 : chain2.getLast? = some last1 := by
      rw [hpre, lastOf_append _ _ hch1ne]
      exact hlast1
    obtain ⟨nc', hchains, hstops, hsingle⟩ := ih chains2 lys2 h hal2nd
    refine ⟨chain2 :: nc', by rw [hchains]; simp, ?_, ?_⟩
    · intro c hc
      rcases List.mem_cons.mp hc with hc | hc
      · subst hc
        constructor
        · intro t ht
          rw [hlast2] at ht
          rw [← Option.some_inj.mp ht]
          exact hstopF
        · intro h0 hh0
          rw [hhead2] at hh0
          rw [← Option.some_inj.mp hh0]
          exact hstopB
      · exact hstops c hc
    · intro n hn hnj habln
      have hjoin : (chain2 :: nc').join = chain2 ++ nc'.join := rfl
      rw [hjoin] at hnj
      have hnc2 : n ∉ chain2 := fun hc => hnj (List.mem_append_left _ hc)
      have hnn : n ∈ rest := by
        rcases List.mem_cons.mp hn with hn1 | hn1
        · exfalso
          apply hnc2
          rw [hn1, hch2eq]
          exact List.mem_append_right _ (List.mem_cons_self _ _)
        · exact hn1
      have hnal2 : n ∈ al2 := hkeep n hnn hnc2
      exact hsingle n hnal2 (fun hc => hnj (List.mem_append_right _ hc)) habln
  | case8 chains lys lay rest ml heq habl chain1 al1 hwf chain2 al2 hwb hlen ih =>
    intro chains2 lys2 h hnd
    rw [chainLoop_eq_single g lay rest chains lys ml chain1 al1 chain2 al2
      heq habl hwf hwb hlen] at h
    have habll : layerABL g lay = true := layerABL_of_pyGet g lay ml heq habl
    obtain ⟨hok1, ⟨last1, hlast1, hablL, hstopF⟩, post, hpost, hal1e, hpostsub⟩ :=
      walkFwd_spec g rest lay [lay] chain1 al1 hwf (by simp) habll trivial
    have hhead1 : chain1.head? = some lay := by rw [hpost]; rfl
    obtain ⟨hok2, ⟨hd, hhead2, hablH, hstopB⟩, pre, hpre, hal2e, hpresub⟩ :=
      walkBwd_spec g al1 lay chain1 chain2 al2 hwb hhead1 habll hok1
    obtain ⟨pre', post', hpost', hch2eq, hch2nd, hal2nd, hch2sub, hal2sub, hdisj, hkeep⟩ :=
      chain_step_structure g lay rest chain1 al1 chain2 al2 hwf hwb hnd
    have hch1ne : chain1 ≠ [] := by rw [hpost]; simp
    have hlast2 : chain2.getLast? = some last1 := by
      rw [hpre, lastOf_append _ _ hch1ne]
      exact hlast1
    have hlnr : lay ∉ rest := (List.nodup_cons.mp hnd).1
    have hch2single : chain2 = [lay] := by
      have hlen2 : chain2.length = pre'.length + (post'.length + 1) := by
        rw [hch2eq]
        simp [List.length_append]
      have hple : pre'.length = 0 ∧ post'.length = 0 := by
        simp only [gt_iff_lt, not_lt] at hlen
        omega
      have hpre0 : pre' = [] := List.length_eq_zero.mp hple.1
      have hpost0 : post' = [] := List.length_eq_zero.mp hple.2
      rw [hch2eq, hpre0, hpost0]
      rfl
    have hstopFlay : fwdStep g lay = .ok none := by
      have : last1 = lay := by
        rw [hch2single] at hlast2
        exact (Option.some_inj.mp hlast2).symm
      rw [← this]
      exact hstopF
    have hstopBlay : bwdStep g lay = .ok none := by
      have : hd = lay := by
        rw [hch2single] at hhead2
        simp only [List.head?_cons, Option.some.injEq] at hhead2
        exact hhead2.symm
      rw [← this]
      exact hstopB
    obtain ⟨nc', hchains, hstops, hsingle⟩ := ih chains2 lys2 h hal2nd
    refine ⟨nc', hchains, hstops, ?_⟩
    intro n hn hnj habln
    rcases List.mem_cons.mp hn with hn1 | hn1
    · subst hn1
      exact ⟨hstopFlay, hstopBlay⟩
    · have hnlay : n ≠ lay := fun hc => hlnr (hc ▸ hn1)
      have hnc2 : n ∉ chain2 := by
        rw [hch2single]
        intro hc
        simp only [List.mem_singleton] at hc
        exact hnlay hc
      exact hsingle n (hkeep n hn1 hnc2) hnj habln
  | case9 chains lys lay rest ml heq hnabl ih =>
    intro chains2 lys2 h hnd
    rw [chainLoop_eq_nonABL g lay rest chains lys ml heq hnabl] at h
    obtain ⟨nc', hchains, hstops, hsingle⟩ := ih chains2 lys2 h hnd.of_cons
    refine ⟨nc', hchains, hstops, ?_⟩
    intro n hn hnj habln
    rcases List.mem_cons.mp hn with hn1 | hn1
    · exfalso
      subst hn1
      have hf : ml.isABL = true := by
        unfold layerABL at habln
        rw [(pyGet_ok _ _ _).mp heq] at habln
        simpa using habln
      exact hnabl hf
    · exact hsingle n hn1 hnj habln

theorem mem_filterMap_keys (X : String) :
    ∀ (l : List (String × List String)) (b : String),
      b ∈ l.filterMap (fun p => if X ∈ p.2 then some p.1 else none) →
      b ∈ l.map Prod.fst := by
  intro l b hb
  obtain ⟨p, hp, hf⟩ := List.mem_filterMap.mp hb
  by_cases hx : X ∈ p.2
  · rw [if_pos hx] at hf
    simp only [Option.some.injEq] at hf
    subst hf
    exact List.mem_map.mpr ⟨p, hp, rfl⟩
  · rw [if_neg hx] at hf
    simp at hf

theorem filterMap_if_nodup (X : String) :
    ∀ (l : List (String × List String)), (l.map Prod.fst).Nodup →
      (l.filterMap (fun p => if X ∈ p.2 then some p.1 else none)).Nodup := by
  intro l
  induction l with
  | nil => intro _; simp
  | cons p rest ih =>
    intro hnd
    rw [List.map_cons, List.nodup_cons] at hnd
    rw [List.filterMap_cons]
    by_cases hx : X ∈ p.2
    · simp only [if_pos hx]
      rw [List.nodup_cons]
      exact ⟨fun hc => hnd.1 (mem_filterMap_keys X rest p.1 hc), ih hnd.2⟩
    · simp only [if_neg hx]
      exact ih hnd.2

/-- With unique dependency keys, a layer's dependent list is
duplicate-free. -/
theorem dependentsOf_nodup (g : HLG)
    (hnd : (g.dependencies.map Prod.fst).Nodup) (X : String) :
    (dependentsOf g X).Nodup := by
  unfold dependentsOf
  exact filterMap_if_nodup X g.dependencies hnd

theorem eq_singleton_of_all_eq {α : Type} (l : List α) (a : α)
    (hnd : l.Nodup) (hall : ∀ b ∈ l, b = a) (hmem : a ∈ l) : l = [a] := by
  cases l with
  | nil => simp at hmem
  | cons x rest =>
    have hx : x = a := hall x (List.mem_cons_self _ _)
    subst hx
    cases rest with
    | nil => rfl
    | cons y rest2 =>
      exfalso
      have hy : y = x := (hall y (by simp)).trans (hall x (by simp)).symm
      subst hy
      exact (List.nodup_cons.mp hnd).1 (List.mem_cons_self _ _)

theorem mem_dropLast_or_last {α : Type} (c : List α) (t m : α)
    (hlast : c.getLast? = some t) (hm : m ∈ c) : m = t ∨ m ∈ c.dropLast := by
  have hne : c ≠ [] := by
    intro hc
    rw [hc] at hlast
    simp at hlast
  have hsplit : c.dropLast ++ [c.getLast hne] = c := List.dropLast_append_getLast hne
  have hlt : c.getLast hne = t := by
    have h2 := List.getLast?_eq_getLast c hne
    rw [hlast] at h2
    exact (Option.some_inj.mp h2).symm
  rw [← hsplit] at hm
  rcases List.mem_append.mp hm with h | h
  · right; exact h
  · left
    simp only [List.mem_singleton] at h
    rw [h, hlt]

theorem edge_pyLen (g : HLG) (a b : String) (he : edgeOKb g a b = true) :
    ∀ la lb, g.layers.lookup a = some la → g.layers.lookup b = some lb →
      la.pyLen = lb.pyLen := by
  intro la lb hla hlb
  unfold edgeOKb at he
  rw [hla, hlb] at he
  simp only [Bool.and_eq_true, beq_iff_eq] at he
  exact he.2

/-- Along a chain with the pairwise edge property, head and last member
have equal length. -/
theorem chain_pyLen (g : HLG) :
    ∀ (c : List String), ChainPairsOK g c →
      ∀ h t lh lt, c.head? = some h → c.getLast? = some t →
        g.layers.lookup h = some lh → g.layers.lookup t = some lt →
        lh.pyLen = lt.pyLen := by
  intro c
  induction c with
  | nil => intro _ h t lh lt hh; simp at hh
  | cons a rest ih =>
    intro hok h t lh lt hh ht hlh hlt
    simp only [List.head?_cons, Option.some.injEq] at hh
    subst hh
    cases rest with
    | nil =>
      have htt : a = t := by
        simp only [List.getLast?_singleton, Option.some.injEq] at ht
        exact ht
      subst htt
      rw [hlh] at hlt
      rw [Option.some_inj.mp hlt]
    | cons b rest2 =>
      have hedge := hok.1
      have hablb := (edgeOKb_ABL g a b hedge).2
      obtain ⟨lb, hlb⟩ := Option.isSome_iff_exists.mp (layerABL_isSome g b hablb)
      have h1 : lh.pyLen = lb.pyLen := edge_pyLen g a b hedge lh lb hlh hlb
      have ht2 : (b :: rest2).getLast? = some t := by
        rw [List.getLast?_cons_cons] at ht
        exact ht
      exact h1.trans (ih hok.2 b t lb lt rfl ht2 hlb hlt)

/-- A non-final chain member has a fusable edge into some later member. -/
theorem dropLast_succ_edge (g : HLG) (c : List String) (hok : ChainPairsOK g c)
    (hnd : c.Nodup) (m : String) (hm : m ∈ c.dropLast) :
    ∃ nxt ∈ c, edgeOKb g m nxt = true := by
  have hmc : m ∈ c := List.mem_of_mem_dropLast hm
  have hne : c ≠ [] := by
    intro hc
    rw [hc] at hm
    simp at hm
  rcases chain_mem_succ g c hok m hmc with hl | hsucc
  · exfalso
    exact nodup_dropLast_ne_last c m hnd hl m hm rfl
  · exact hsucc

/-- The complete lookup table for the output of `rewrite_layer_chains`:
chain tails hold the fused layer (same Blockwise class and length as the
original tail layer) under the head's original dependency entry; all other
chain members vanish from both maps; everything else is untouched. -/
theorem rewrite_lookup_table (g : HLG) (g2 : HLG)
    (eff : List (String × List (String × String)))
    (chains : List (List String)) (lys : List (String × Layer))
    (hcl : chainLoop g (g.layers.map Prod.fst) [] [] = .ok (chains, lys))
    (hrw : rewriteLayerChains g = .ok (g2, eff))
    (hnd : (g.layers.map Prod.fst).Nodup) :
    (∀ c ∈ chains, ∀ t, c.getLast? = some t →
      (∃ v0 v, g.layers.lookup t = some v0 ∧ g2.layers.lookup t = some v ∧
        v.isABL = v0.isABL ∧ v.pyLen = v0.pyLen) ∧
      (∃ h0 rest2, c = h0 :: rest2 ∧
        g2.dependencies.lookup t = g.dependencies.lookup h0)) ∧
    (∀ c ∈ chains, ∀ m ∈ c.dropLast,
      g2.layers.lookup m = none ∧ g2.dependencies.lookup m = none) ∧
    (∀ k, k ∉ chains.join →
      g2.layers.lookup k = g.layers.lookup k ∧
      g2.dependencies.lookup k = g.dependencies.lookup k) := by
  rw [rewriteLayerChains, hcl] at hrw
  simp only at hrw
  split at hrw
  · exact absurd hrw (by simp)
  · rename_i st' hfa
    simp only [Except.ok.injEq, Prod.mk.injEq] at hrw
    obtain ⟨hg2, heff⟩ := hrw
    subst hg2
    obtain ⟨nc, hchains, hjnd, hjsub, hnemp, hlenc, hkeepl, hmids, hpass, htails⟩ :=
      chainLoop_master g (g.layers.map Prod.fst) [] [] chains lys hcl hnd
        (by intro k _; rfl)
    rw [List.nil_append] at hchains
    subst hchains
    obtain ⟨hframe, hchain, heffw⟩ :=
      fuseAll_spec g chains ⟨lys, g.dependencies, []⟩ st' hfa hjnd
    refine ⟨?_, ?_, ?_⟩
    · intro c hc t ht
      obtain ⟨⟨h0, rest2, hcons, hdept⟩, hmdeps, hmlys, v0, v, hv0, hv1, hvabl, hvlen⟩ :=
        hchain c hc t ht
      have hlysv : lys.lookup t = g.layers.lookup t := htails c hc t ht
      refine ⟨⟨v0, v, ?_, hv1, hvabl, hvlen⟩, h0, rest2, hcons, hdept⟩
      rw [← hlysv]
      exact hv0
    · intro c hc m hm
      obtain ⟨⟨h0, rest2, hcons, hdept⟩, hmdeps, hmlys, -⟩ :=
        hchain c hc (c.getLast (by
          intro hcc
          rw [hcc] at hm
          simp at hm))
          (List.getLast?_eq_getLast _ _)
      constructor
      · rw [show ({ layers := st'.lys, dependencies := st'.deps } : HLG).layers =
            st'.lys from rfl, hmlys m hm]
        exact hmids c hc m hm
      · exact hmdeps m hm
    · intro k hk
      obtain ⟨h1, h2⟩ := hframe k hk
      constructor
      · by_cases hkal : k ∈ g.layers.map Prod.fst
        · rw [show ({ layers := st'.lys, dependencies := st'.deps } : HLG).layers =
              st'.lys from rfl, h1]
          exact hpass k hkal hk
        · rw [show ({ layers := st'.lys, dependencies := st'.deps } : HLG).layers =
              st'.lys from rfl, h1, hkeepl k hkal,
            lookup_none_of_not_mem k g.layers hkal]
          rfl
      · exact h2

theorem join_nodup_mem_unique {α : Type} :
    ∀ (cs : List (List α)), cs.join.Nodup →
      ∀ c1 ∈ cs, ∀ c2 ∈ cs, ∀ x, x ∈ c1 → x ∈ c2 → c1 = c2 := by
  intro cs
  induction cs with
  | nil => intro _ c1 h; simp at h
  | cons c rest ih =>
    intro hnd c1 hc1 c2 hc2 x hx1 hx2
    have hjoin : (c :: rest).join = c ++ rest.join := rfl
    rw [hjoin, List.nodup_append] at hnd
    obtain ⟨hcnd, hrnd, hdisj⟩ := hnd
    rcases List.mem_cons.mp hc1 with h1 | h1
    · rcases List.mem_cons.mp hc2 with h2 | h2
      · rw [h1, h2]
      · exfalso
        subst h1
        exact hdisj hx1 (List.mem_join.mpr ⟨c2, h2, hx2⟩)
    · rcases List.mem_cons.mp hc2 with h2 | h2
      · exfalso
        subst h2
        exact hdisj hx2 (List.mem_join.mpr ⟨c1, h1, hx1⟩)
      · exact ih hrnd c1 h1 c2 h2 x hx1 hx2

/-- The graph produced by `rewrite_layer_chains` admits no fusable edge:
every surviving layer is either a chain tail, whose forward walk already
stopped, or a pass-through layer that stopped both walks, and the rewrite
moves dependency entries so that a fusable edge in the output would induce
one in the input continuing a supposedly maximal chain. -/
theorem g2_no_fusable_edge (g : HLG) (r : String → Nat) (hr : RankOk g r)
    (hwf : WfHLG g) (g2 : HLG) (eff : List (String × List (String × String)))
    (hrw : rewriteLayerChains g = .ok (g2, eff)) :
    ∀ X Y, ¬ edgeOKb g2 X Y = true := by
  obtain ⟨hnd, hndd, hkd, hkl, hdv, hablw⟩ := hwf
  have hrw2 := hrw
  rw [rewriteLayerChains] at hrw2
  split at hrw2
  · simp at hrw2
  · rename_i chains lys hcl
    clear hrw2
    obtain ⟨nc, hchains0, hjnd, hjsub, hnemp, hlenc, hkeepl, hmids0, hpass, htails⟩ :=
      chainLoop_master g (g.layers.map Prod.fst) [] [] chains lys hcl hnd
        (by intro k _; rfl)
    rw [List.nil_append] at hchains0
    subst hchains0
    have hchok : ∀ c ∈ chains, ChainPairsOK g c :=
      chainLoop_chains_ok g (g.layers.map Prod.fst) [] [] (chains, lys) hcl
        (by intro c hc; simp at hc)
    obtain ⟨nc2, hchains2, hstops, hsingle⟩ :=
      chainLoop_maximal g (g.layers.map Prod.fst) [] [] chains lys hcl hnd
    rw [List.nil_append] at hchains2
    subst hchains2
    obtain ⟨htable1, htable2, htable3⟩ :=
      rewrite_lookup_table g g2 eff chains lys hcl hrw hnd
    have hclass : ∀ k, (g2.layers.lookup k).isSome →
        (k ∈ g.layers.map Prod.fst ∧ k ∉ chains.join) ∨
        (∃ c ∈ chains, c.getLast? = some k) := by
      intro k hk
      by_cases hkj : k ∈ chains.join
      · right
        obtain ⟨c, hc, hkc⟩ := List.mem_join.mp hkj
        have hcne : c ≠ [] := hnemp c hc
        obtain ⟨t, ht⟩ : ∃ t, c.getLast? = some t :=
          ⟨c.getLast hcne, List.getLast?_eq_getLast _ _⟩
        rcases mem_dropLast_or_last c t k ht hkc with hkt | hkd2
        · exact ⟨c, hc, by rw [hkt]; exact ht⟩
        · exfalso
          rw [(htable2 c hc k hkd2).1] at hk
          simp at hk
      · left
        refine ⟨?_, hkj⟩
        by_contra hkn
        rw [(htable3 k hkj).1, lookup_none_of_not_mem k g.layers hkn] at hk
        simp at hk
    intro X Y hedge
    have hablX2 := (edgeOKb_ABL g2 X Y hedge).1
    obtain ⟨hdepXY, hdepsY, lb2, la2, hlb2, hlb2abl, hla2, hlen2⟩ :
        FwdGuard g2 X Y := ((edgeOKb_iff_fwd g2 X Y).mp hedge).1
    -- consolidated facts about X: original layer, Blockwise, equal length,
    -- and a stopped forward walk
    obtain ⟨laX, hlaX, hlaXabl, hlaXlen, hXstop⟩ :
        ∃ laX, g.layers.lookup X = some laX ∧ laX.isABL = true ∧
          laX.pyLen = la2.pyLen ∧ fwdStep g X = .ok none := by
      have habl2X : la2.isABL = true := by
        have h5 := hablX2
        unfold layerABL at h5
        rw [hla2] at h5
        exact h5
      rcases hclass X (by rw [hla2]; simp) with ⟨hXnames, hXnj⟩ | ⟨cX, hcX, htX⟩
      · have heq3 := (htable3 X hXnj).1
        have habl_gX : layerABL g X = true := by
          unfold layerABL
          rw [← heq3, hla2]
          exact habl2X
        exact ⟨la2, by rw [← heq3]; exact hla2, habl2X, rfl,
          (hsingle X hXnames hXnj habl_gX).1⟩
      · obtain ⟨⟨v0, v, hv0, hv1, hvabl, hvlen⟩, -⟩ := htable1 cX hcX X htX
        have hveq : v = la2 := by
          rw [hla2] at hv1
          exact (Option.some_inj.mp hv1).symm
        rw [hveq] at hvabl hvlen
        exact ⟨v0, hv0, hvabl.symm.trans habl2X, hvlen.symm,
          (hstops cX hcX).1 X htX⟩
    have hnosucc : ∀ b, edgeOKb g X b = true → False := by
      intro b hb
      have hstep := (fwdStep_some_iff g X b).mpr ((edgeOKb_iff_fwd g X b).mp hb).1
      rw [hXstop] at hstep
      simp at hstep
    -- every dependent of X in g maps into the dependents of X in g2
    have hallcore : ∀ b ∈ dependentsOf g X,
        (b ∉ chains.join ∧ b ∈ dependentsOf g2 X) ∨
        (∃ cb ∈ chains, cb.head? = some b ∧
          ∀ tb, cb.getLast? = some tb → tb ∈ dependentsOf g2 X) := by
      intro b hb
      obtain ⟨ds, hdsmem, hXds⟩ := (mem_dependentsOf g X b).mp hb
      have hdslk : g.dependencies.lookup b = some ds :=
        mem_lookup_of_nodup b ds _ hndd hdsmem
      by_cases hbj : b ∈ chains.join
      · right
        obtain ⟨cb, hcb, hbcb⟩ := List.mem_join.mp hbj
        have hbhead : cb.head? = some b := by
          rcases chain_mem_pred g cb (hchok cb hcb) b hbcb with hh | ⟨p, hp, hpe⟩
          · exact hh
          · exfalso
            have hlkb : g.dependencies.lookup b = some [p] := by
              unfold edgeOKb at hpe
              simp only [Bool.and_eq_true, beq_iff_eq] at hpe
              exact hpe.1.1.1.2
            have hds2 : ds = [p] := by
              rw [hdslk] at hlkb
              exact Option.some_inj.mp hlkb
            have hXp : X = p := by
              rw [hds2] at hXds
              simpa using hXds
            subst hXp
            exact hnosucc b hpe
        refine ⟨cb, hcb, hbhead, ?_⟩
        intro tb htb
        obtain ⟨-, h0', rest2', hcons', hdept'⟩ := htable1 cb hcb tb htb
        have hb0 : h0' = b := by
          have hh' : cb.head? = some h0' := by rw [hcons']; rfl
          rw [hbhead] at hh'
          exact (Option.some_inj.mp hh').symm
        have hlk2 : g2.dependencies.lookup tb = some ds := by
          rw [hdept', hb0, hdslk]
        exact (mem_dependentsOf g2 X tb).mpr ⟨ds, lookup_mem tb ds _ hlk2, hXds⟩
      · left
        refine ⟨hbj, ?_⟩
        have hlk2 : g2.dependencies.lookup b = some ds := by
          rw [(htable3 b hbj).2, hdslk]
        exact (mem_dependentsOf g2 X b).mpr ⟨ds, lookup_mem b ds _ hlk2, hXds⟩
    -- consolidated facts about the g-level unique dependent of X
    obtain ⟨Yb, lYb, hYbdep, hYblk, hYbabl, hYblen, hall⟩ :
        ∃ Yb lYb, g.dependencies.lookup Yb = some [X] ∧
          g.layers.lookup Yb = some lYb ∧ lYb.isABL = true ∧
          lYb.pyLen = lb2.pyLen ∧
          ∀ b ∈ dependentsOf g X, b = Yb := by
      rcases hclass Y (by rw [hlb2]; simp) with ⟨hYnames, hYnj⟩ | ⟨cY, hcY, htY⟩
      · refine ⟨Y, lb2, ?_, ?_, ?_, rfl, ?_⟩
        · rw [← (htable3 Y hYnj).2]
          exact hdepsY
        · rw [← (htable3 Y hYnj).1]
          exact hlb2
        · exact hlb2abl
        · intro b hb
          rcases hallcore b hb with ⟨hbnj, hbdep2⟩ | ⟨cb, hcb, hbhead, htbdep⟩
          · rw [hdepXY] at hbdep2
            simpa using hbdep2
          · exfalso
            have hcbne : cb ≠ [] := hnemp cb hcb
            obtain ⟨tb, htb⟩ : ∃ tb, cb.getLast? = some tb :=
              ⟨cb.getLast hcbne, List.getLast?_eq_getLast _ _⟩
            have h6 := htbdep tb htb
            rw [hdepXY] at h6
            have htbY : tb = Y := by simpa using h6
            apply hYnj
            rw [← htbY]
            exact List.mem_join.mpr ⟨cb, hcb, mem_of_getLast? cb tb htb⟩
      · obtain ⟨⟨v0Y, vY2, hv0Y, hv1Y, hvablY, hvlenY⟩, h0, rest2, hcons, hdept⟩ :=
          htable1 cY hcY Y htY
        have hvYeq : vY2 = lb2 := by
          rw [hlb2] at hv1Y
          exact (Option.some_inj.mp hv1Y).symm
        rw [hvYeq] at hvablY hvlenY
        have hh0abl : layerABL g h0 = true :=
          chain_member_ABL g cY (hchok cY hcY) (hlenc cY hcY) h0
            (by rw [hcons]; exact List.mem_cons_self _ _)
        obtain ⟨lh0, hlh0⟩ := Option.isSome_iff_exists.mp (layerABL_isSome g h0 hh0abl)
        have hlh0abl : lh0.isABL = true := by
          have h5 := hh0abl
          unfold layerABL at h5
          rw [hlh0] at h5
          exact h5
        have hheadY : cY.head? = some h0 := by rw [hcons]; rfl
        have hlenY : lh0.pyLen = lb2.pyLen := by
          have h7 := chain_pyLen g cY (hchok cY hcY) h0 Y lh0 v0Y hheadY htY hlh0 hv0Y
          rw [h7]
          exact hvlenY.symm
        refine ⟨h0, lh0, ?_, hlh0, hlh0abl, hlenY, ?_⟩
        · rw [← hdept]
          exact hdepsY
        · intro b hb
          rcases hallcore b hb with ⟨hbnj, hbdep2⟩ | ⟨cb, hcb, hbhead, htbdep⟩
          · exfalso
            rw [hdepXY] at hbdep2
            have hbY : b = Y := by simpa using hbdep2
            apply hbnj
            rw [hbY]
            exact List.mem_join.mpr ⟨cY, hcY, mem_of_getLast? cY Y htY⟩
          · have hcbne : cb ≠ [] := hnemp cb hcb
            obtain ⟨tb, htb⟩ : ∃ tb, cb.getLast? = some tb :=
              ⟨cb.getLast hcbne, List.getLast?_eq_getLast _ _⟩
            have h6 := htbdep tb htb
            rw [hdepXY] at h6
            have htbY : tb = Y := by simpa using h6
            have hcbcY : cb = cY := join_nodup_mem_unique chains hjnd cb hcb cY hcY Y
              (htbY ▸ mem_of_getLast? cb tb htb) (mem_of_getLast? cY Y htY)
            rw [hcbcY, hheadY] at hbhead
            exact (Option.some_inj.mp hbhead).symm
    have hYbmem : Yb ∈ dependentsOf g X :=
      (mem_dependentsOf g X Yb).mpr ⟨[X], lookup_mem Yb [X] _ hYbdep, by simp⟩
    have hdepsEq : dependentsOf g X = [Yb] :=
      eq_singleton_of_all_eq _ _ (dependentsOf_nodup g hndd X) hall hYbmem
    have habl_gX : layerABL g X = true := by
      unfold layerABL
      rw [hlaX]
      exact hlaXabl
    exact hnosucc Yb ((edgeOKb_iff_fwd g X Yb).mpr
      ⟨⟨hdepsEq, hYbdep, lYb, laX, hYblk, hYbabl, hlaX,
        (hlaXlen.trans hlen2).trans hYblen.symm⟩, habl_gX⟩)

theorem dictSet_keys_subset {α : Type} (k x : String) (v : α) :
    ∀ (m : List (String × α)), x ∈ (dictSet m k v).map Prod.fst →
      x ∈ m.map Prod.fst ∨ x = k := by
  intro m
  induction m with
  | nil =>
    intro hx
    simp only [dictSet, List.map_cons, List.map_nil, List.mem_singleton] at hx
    exact Or.inr hx
  | cons p rest ih =>
    intro hx
    obtain ⟨k0, v0⟩ := p
    rw [dictSet] at hx
    by_cases hk : k0 = k
    · rw [if_pos hk] at hx
      simp only [List.map_cons, List.mem_cons] at hx
      rcases hx with hx | hx
      · exact Or.inr hx
      · exact Or.inl (by simp only [List.map_cons, List.mem_cons]; exact Or.inr hx)
    · rw [if_neg hk] at hx
      simp only [List.map_cons, List.mem_cons] at hx
      rcases hx with hx | hx
      · exact Or.inl (by simp only [List.map_cons, List.mem_cons]; exact Or.inl hx)
      · rcases ih hx with h | h
        · exact Or.inl (by simp only [List.map_cons, List.mem_cons]; exact Or.inr h)
        · exact Or.inr h

theorem dictSet_nodup_keys {α : Type} (k : String) (v : α) :
    ∀ (m : List (String × α)), (m.map Prod.fst).Nodup →
      ((dictSet m k v).map Prod.fst).Nodup := by
  intro m
  induction m with
  | nil => intro _; simp [dictSet]
  | cons p rest ih =>
    intro hnd
    obtain ⟨k0, v0⟩ := p
    rw [List.map_cons, List.nodup_cons] at hnd
    rw [dictSet]
    by_cases hk : k0 = k
    · rw [if_pos hk]
      rw [List.map_cons, List.nodup_cons]
      subst hk
      exact hnd
    · rw [if_neg hk]
      rw [List.map_cons, List.nodup_cons]
      refine ⟨?_, ih hnd.2⟩
      intro hc
      rcases dictSet_keys_subset k k0 v rest hc with h | h
      · exact hnd.1 h
      · exact hk h

/-- Setting an absent key appends the binding. -/
theorem dictSet_append_of_none {α : Type} (k : String) (v : α) :
    ∀ (m : List (String × α)), m.lookup k = none →
      dictSet m k v = m ++ [(k, v)] := by
  intro m
  induction m with
  | nil => intro _; rfl
  | cons p rest ih =>
    intro hlk
    obtain ⟨k0, v0⟩ := p
    rw [List.lookup] at hlk
    have hk : (k == k0) = false := by
      cases hkk : (k == k0) with
      | true => rw [hkk] at hlk; simp at hlk
      | false => rfl
    rw [hk] at hlk
    have hk0 : k0 ≠ k := by
      simp only [beq_eq_false_iff_ne, ne_eq] at hk
      exact fun hc => hk hc.symm
    rw [dictSet, if_neg hk0, ih hlk]
    rfl

theorem lookup_append_none {α : Type} (k : String) :
    ∀ (m1 m2 : List (String × α)), m1.lookup k = none → m2.lookup k = none →
      (m1 ++ m2).lookup k = none := by
  intro m1
  induction m1 with
  | nil => intro m2 _ h2; exact h2
  | cons p rest ih =>
    intro m2 h1 h2
    obtain ⟨k0, v0⟩ := p
    rw [List.lookup] at h1
    rw [List.cons_append, List.lookup]
    cases hkk : (k == k0) with
    | true => rw [hkk] at h1; simp at h1
    | false =>
      rw [hkk] at h1
      exact ih m2 h1 h2

/-- Folding `d[k] = layers[k]` over fresh distinct keys appends the
corresponding bindings in order. -/
theorem foldl_build (m : List (String × Layer)) :
    ∀ (rest : List (String × Layer)) (acc : List (String × Layer)),
      (∀ p ∈ rest, m.lookup p.1 = some p.2) →
      (∀ p ∈ rest, acc.lookup p.1 = none) →
      ((rest.map Prod.fst).Nodup) →
      (rest.map Prod.fst).foldl (fun acc2 k =>
        match m.lookup k with
        | some v => dictSet acc2 k v
        | none => acc2) acc = acc ++ rest := by
  intro rest
  induction rest with
  | nil => intro acc _ _ _; simp
  | cons p rs ih =>
    intro acc hvals hfresh hnd
    obtain ⟨k1, v1⟩ := p
    rw [List.map_cons, List.foldl_cons]
    rw [List.map_cons, List.nodup_cons] at hnd
    have hv1 : m.lookup k1 = some v1 := hvals (k1, v1) (List.mem_cons_self _ _)
    simp only [hv1]
    rw [dictSet_append_of_none k1 v1 acc (hfresh (k1, v1) (List.mem_cons_self _ _))]
    rw [ih (acc ++ [(k1, v1)])
      (fun q hq => hvals q (List.mem_cons_of_mem _ hq))
      (fun q hq => by
        refine lookup_append_none q.1 acc [(k1, v1)]
          (hfresh q (List.mem_cons_of_mem _ hq)) ?_
        rw [List.lookup]
        have hne : (q.1 == k1) = false := by
          simp only [beq_eq_false_iff_ne, ne_eq]
          intro hc
          exact hnd.1 (hc ▸ List.mem_map.mpr ⟨q, hq, rfl⟩)
        rw [hne]
        rfl)
      hnd.2]
    simp

/-- Folding `d[k] = layers[k]` over a mapping's own keys rebuilds it. -/
theorem foldl_restore (m : List (String × Layer))
    (hnd : (m.map Prod.fst).Nodup) :
    (m.map Prod.fst).foldl (fun acc2 k =>
      match m.lookup k with
      | some v => dictSet acc2 k v
      | none => acc2) [] = m := by
  have h := foldl_build m m []
    (fun p hp => mem_lookup_of_nodup p.1 p.2 m hnd hp)
    (fun p _ => rfl) hnd
  simpa using h

/-- The discovery loop's output mapping keeps unique keys. -/
theorem chainLoop_lys_nodup (g : HLG) (al : List String)
    (chains : List (List String)) (lys : List (String × Layer)) :
    ∀ chains2 lys2, chainLoop g al chains lys = .ok (chains2, lys2) →
      (lys.map Prod.fst).Nodup → (lys2.map Prod.fst).Nodup := by
  induction al, chains, lys using chainLoop.induct g with
  | case1 chains lys =>
    intro chains2 lys2 h hnd
    rw [chainLoop] at h
    simp only [Except.ok.injEq, Prod.mk.injEq] at h
    rw [← h.2]
    exact hnd
  | case2 chains lys lay rest e heq =>
    intro chains2 lys2 h hnd
    rw [chainLoop_eq_err g lay rest chains lys e heq] at h
    exact absurd h (by simp)
  | case3 chains lys lay rest ml heq habl e hwf =>
    intro chains2 lys2 h hnd
    rw [chainLoop_eq_fwdErr g lay rest chains lys ml e heq habl hwf] at h
    exact absurd h (by simp)
  | case4 chains lys lay rest ml heq habl chain1 al1 hwf e hwb =>
    intro chains2 lys2 h hnd
    rw [chainLoop_eq_bwdErr g lay rest chains lys ml chain1 al1 e heq habl hwf hwb] at h
    exact absurd h (by simp)
  | case5 chains lys lay rest ml heq habl chain1 al1 hwf chain2 al2 hwb hlen hlast =>
    intro chains2 lys2 h hnd
    have hne : chain2 ≠ [] := by
      intro hc
      rw [hc] at hlen
      simp at hlen
    rw [← List.getLast?_isSome, hlast] at hne
    simp at hne
  | case6 chains lys lay rest ml heq habl chain1 al1 hwf chain2 al2 hwb hlen tail hlast e htl =>
    intro chains2 lys2 h hnd
    rw [chainLoop_eq_tailErr g lay rest chains lys ml chain1 al1 chain2 al2 tail e
      heq habl hwf hwb hlen hlast htl] at h
    exact absurd h (by simp)
  | case7 chains lys lay rest ml heq habl chain1 al1 hwf chain2 al2 hwb hlen tail hlast ml2 htl ih =>
    intro chains2 lys2 h hnd
    rw [chainLoop_eq_chain g lay rest chains lys ml chain1 al1 chain2 al2 tail ml2
      heq habl hwf hwb hlen hlast htl] at h
    exact ih chains2 lys2 h (dictSet_nodup_keys tail ml2 lys hnd)
  | case8 chains lys lay rest ml heq habl chain1 al1 hwf chain2 al2 hwb hlen ih =>
    intro chains2 lys2 h hnd
    rw [chainLoop_eq_single g lay rest chains lys ml chain1 al1 chain2 al2
      heq habl hwf hwb hlen] at h
    exact ih chains2 lys2 h (dictSet_nodup_keys lay ml lys hnd)
  | case9 chains lys lay rest ml heq hnabl ih =>
    intro chains2 lys2 h hnd
    rw [chainLoop_eq_nonABL g lay rest chains lys ml heq hnabl] at h
    exact ih chains2 lys2 h (dictSet_nodup_keys lay ml lys hnd)

theorem filter_keys_nodup {α : Type} (p : String × α → Bool)
    (m : List (String × α)) (hnd : (m.map Prod.fst).Nodup) :
    ((m.filter p).map Prod.fst).Nodup :=
  hnd.sublist ((m.filter_sublist).map Prod.fst)

theorem popDeps_keys_nodup :
    ∀ (ks : List String) (d d2 : List (String × List String)),
      popDeps d ks = .ok d2 → (d.map Prod.fst).Nodup →
      (d2.map Prod.fst).Nodup := by
  intro ks
  induction ks with
  | nil =>
    intro d d2 h hnd
    rw [popDeps] at h
    simp only [Except.ok.injEq] at h
    rw [← h]
    exact hnd
  | cons k krest ih =>
    intro d d2 h hnd
    rw [popDeps] at h
    split at h
    · exact absurd h (by simp)
    · rename_i dd hdp
      have := dictPop_ok d dd k hdp
      subst this
      exact ih _ d2 h (filter_keys_nodup _ d hnd)

/-- Each chain rewrite sets exactly one key of the output mapping and keeps
the dependency keys a subset of the previous ones plus that key. -/
theorem fuseChain_lys_shape (g : HLG) (st st' : FuseState) (c : List String)
    (h : fuseChain g st c = .ok st') :
    (∃ k v, st'.lys = dictSet st.lys k v) ∧
    ((st.deps.map Prod.fst).Nodup → (st'.deps.map Prod.fst).Nodup) := by
  cases c with
  | nil => rw [fuseChain] at h; simp at h
  | cons c0 members =>
    rw [fuseChain] at h
    split at h
    · simp at h
    · rename_i layer0 hlay0
      split at h
      · simp at h
      · rename_i outlayer hout
        split at h
        · simp at h
        · rename_i nb hnb
          split at h
          · simp at h
          · rename_i d0 hd0
            split at h
            · simp at h
            · rename_i deps2 hpop
              split at h
              · simp at h
              · rename_i acc hacc
                simp only [Except.ok.injEq] at h
                subst h
                refine ⟨⟨_, _, rfl⟩, ?_⟩
                intro hnd
                exact popDeps_keys_nodup _ _ deps2 hpop
                  (dictSet_nodup_keys _ d0 st.deps hnd)

theorem fuseAll_keys_nodup (g : HLG) :
    ∀ (cs : List (List String)) (st st' : FuseState),
      fuseAll g st cs = .ok st' →
      (st.lys.map Prod.fst).Nodup → (st.deps.map Prod.fst).Nodup →
      (st'.lys.map Prod.fst).Nodup ∧ (st'.deps.map Prod.fst).Nodup := by
  intro cs
  induction cs with
  | nil =>
    intro st st' h hnd1 hnd2
    rw [fuseAll] at h
    simp only [Except.ok.injEq] at h
    rw [← h]
    exact ⟨hnd1, hnd2⟩
  | cons c rest ih =>
    intro st st' h hnd1 hnd2
    rw [fuseAll] at h
    split at h
    · simp at h
    · rename_i st1 hfc
      obtain ⟨⟨k, v, hlys⟩, hdeps⟩ := fuseChain_lys_shape g st st1 c hfc
      refine ih st1 st' h ?_ (hdeps hnd2)
      rw [hlys]
      exact dictSet_nodup_keys k v st.lys hnd1

/-- On a graph with no fusable edge, the discovery loop records no chain and
rebuilds the layer mapping by passing every layer through. -/
theorem chainLoop_passthrough (g2 : HLG)
    (hnoedge : ∀ a b, ¬ edgeOKb g2 a b = true)
    (hkeys1 : ∀ k, (g2.layers.lookup k).isSome → (g2.dependencies.lookup k).isSome)
    (hdepkeys : ∀ n ∈ g2.dependencies.map Prod.fst, (g2.layers.lookup n).isSome)
    (hdepvals : ∀ p ∈ g2.dependencies, ∀ a ∈ p.2, (g2.layers.lookup a).isSome) :
    ∀ (al : List String) (chains : List (List String)) (lys : List (String × Layer)),
      (∀ x ∈ al, (g2.layers.lookup x).isSome) →
      chainLoop g2 al chains lys =
        .ok (chains, al.foldl (fun acc2 k =>
          match g2.layers.lookup k with
          | some v => dictSet acc2 k v
          | none => acc2) lys) := by
  intro al
  induction al with
  | nil =>
    intro chains lys _
    rw [chainLoop]
    rfl
  | cons lay rest ih =>
    intro chains lys hmem
    obtain ⟨ml, hml⟩ := Option.isSome_iff_exists.mp (hmem lay (List.mem_cons_self _ _))
    have hpg : pyGet g2.layers lay = .ok ml := (pyGet_ok _ _ _).mpr hml
    rw [List.foldl_cons]
    by_cases habl : ml.isABL = true
    · have hfw : fwdStep g2 lay = .ok none := by
        cases hres : fwdStep g2 lay with
        | error e =>
          exfalso
          obtain ⟨o, ho⟩ := fwdStep_total g2 lay (by rw [hml]; simp) hdepkeys
          rw [ho] at hres
          simp at hres
        | ok o =>
          cases o with
          | none => rfl
          | some child =>
            exfalso
            have hguard := (fwdStep_some_iff g2 lay child).mp hres
            exact hnoedge lay child ((edgeOKb_iff_fwd g2 lay child).mpr
              ⟨hguard, layerABL_of_pyGet g2 lay ml hpg habl⟩)
      have hbw : bwdStep g2 lay = .ok none := by
        cases hres : bwdStep g2 lay with
        | error e =>
          exfalso
          obtain ⟨o, ho⟩ := bwdStep_total g2 lay (hkeys1 lay (by rw [hml]; simp))
            hdepvals (by rw [hml]; simp)
          rw [ho] at hres
          simp at hres
        | ok o =>
          cases o with
          | none => rfl
          | some p =>
            exfalso
            have hguard := (bwdStep_some_iff g2 p lay).mp hres
            exact hnoedge p lay ((edgeOKb_iff_bwd g2 p lay).mpr
              ⟨hguard, layerABL_of_pyGet g2 lay ml hpg habl⟩)
      have hwf : walkFwd g2 rest lay [lay] = .ok ([lay], rest) := by
        rw [walkFwd, hfw]
      have hwb : walkBwd g2 rest lay [lay] = .ok ([lay], rest) := by
        rw [walkBwd, hbw]
      rw [chainLoop_eq_single g2 lay rest chains lys ml [lay] rest [lay] rest
        hpg habl hwf hwb (by simp)]
      simp only [hml]
      exact ih chains (dictSet lys lay ml)
        (fun x hx => hmem x (List.mem_cons_of_mem _ hx))
    · rw [chainLoop_eq_nonABL g2 lay rest chains lys ml hpg habl]
      simp only [hml]
      exact ih chains (dictSet lys lay ml)
        (fun x hx => hmem x (List.mem_cons_of_mem _ hx))

theorem join_nodup_each {α : Type} :
    ∀ (cs : List (List α)), cs.join.Nodup → ∀ c ∈ cs, c.Nodup := by
  intro cs
  induction cs with
  | nil => intro _ c h; simp at h
  | cons c0 rest ih =>
    intro hnd c hc
    have hjoin : (c0 :: rest).join = c0 ++ rest.join := rfl
    rw [hjoin, List.nodup_append] at hnd
    rcases List.mem_cons.mp hc with h | h
    · rw [h]; exact hnd.1
    · exact ih hnd.2.1 c h

/-- C8: `rewrite_layer_chains` is idempotent.  On every well-formed acyclic
input graph, one pass fuses every maximal chain; its output graph admits no
fusable edge any more, so a second pass discovers no chain of length two or
more, passes every layer through unchanged, and returns exactly the same
graph (with no further in-place io_deps effects). -/
theorem rewrite_layer_chains_idempotent (g : HLG) (r : String → Nat)
    (hr : RankOk g r) (hwf : WfHLG g) (g2 : HLG)
    (eff : List (String × List (String × String)))
    (hrw : rewriteLayerChains g = .ok (g2, eff)) :
    rewriteLayerChains g2 = .ok (g2, []) := by
  have hnoedge := g2_no_fusable_edge g r hr hwf g2 eff hrw
  obtain ⟨hnd, hndd, hkd, hkl, hdv, hablw⟩ := hwf
  have hrw2 := hrw
  rw [rewriteLayerChains] at hrw2
  split at hrw2
  · simp at hrw2
  · rename_i chains lys hcl
    split at hrw2
    · simp at hrw2
    · rename_i st' hfa
      simp only [Except.ok.injEq, Prod.mk.injEq] at hrw2
      obtain ⟨hg2eq, heffeq⟩ := hrw2
      obtain ⟨nc, hchains0, hjnd, hjsub, hnemp, hlenc, hkeepl, hmids0, hpass, htails⟩ :=
        chainLoop_master g (g.layers.map Prod.fst) [] [] chains lys hcl hnd
          (by intro k _; rfl)
      rw [List.nil_append] at hchains0
      subst hchains0
      have hchok : ∀ c ∈ chains, ChainPairsOK g c :=
        chainLoop_chains_ok g (g.layers.map Prod.fst) [] [] (chains, lys) hcl
          (by intro c hc; simp at hc)
      obtain ⟨nc2, hchains2, hstops, hsingle⟩ :=
        chainLoop_maximal g (g.layers.map Prod.fst) [] [] chains lys hcl hnd
      rw [List.nil_append] at hchains2
      subst hchains2
      obtain ⟨htable1, htable2, htable3⟩ :=
        rewrite_lookup_table g g2 eff chains lys hcl hrw hnd
      have hlysnd : (lys.map Prod.fst).Nodup :=
        chainLoop_lys_nodup g (g.layers.map Prod.fst) [] [] chains lys hcl (by simp)
      obtain ⟨hlysnd2, hdepsnd2⟩ := fuseAll_keys_nodup g chains
        ⟨lys, g.dependencies, []⟩ st' hfa hlysnd hndd
      have hndk2 : (g2.layers.map Prod.fst).Nodup := by
        rw [← hg2eq]
        exact hlysnd2
      have hnddk2 : (g2.dependencies.map Prod.fst).Nodup := by
        rw [← hg2eq]
        exact hdepsnd2
      have hclass : ∀ k, (g2.layers.lookup k).isSome →
          (k ∈ g.layers.map Prod.fst ∧ k ∉ chains.join) ∨
          (∃ c ∈ chains, c.getLast? = some k) := by
        intro k hk
        by_cases hkj : k ∈ chains.join
        · right
          obtain ⟨c, hc, hkc⟩ := List.mem_join.mp hkj
          have hcne : c ≠ [] := hnemp c hc
          obtain ⟨t, ht⟩ : ∃ t, c.getLast? = some t :=
            ⟨c.getLast hcne, List.getLast?_eq_getLast _ _⟩
          rcases mem_dropLast_or_last c t k ht hkc with hkt | hkd2
          · exact ⟨c, hc, by rw [hkt]; exact ht⟩
          · exfalso
            rw [(htable2 c hc k hkd2).1] at hk
            simp at hk
        · left
          refine ⟨?_, hkj⟩
          by_contra hkn
          rw [(htable3 k hkj).1, lookup_none_of_not_mem k g.layers hkn] at hk
          simp at hk
      have hkeys1 : ∀ k, (g2.layers.lookup k).isSome →
          (g2.dependencies.lookup k).isSome := by
        intro k hk
        rcases hclass k hk with ⟨hkn, hkj⟩ | ⟨c, hc, ht⟩
        · rw [(htable3 k hkj).2]
          exact lookup_isSome_of_mem_keys k _ (hkl k hkn)
        · obtain ⟨-, h0, rest2, hcons, hdept⟩ := htable1 c hc k ht
          rw [hdept]
          have hh0n : h0 ∈ g.layers.map Prod.fst :=
            hjsub h0 (List.mem_join.mpr
              ⟨c, hc, by rw [hcons]; exact List.mem_cons_self _ _⟩)
          exact lookup_isSome_of_mem_keys h0 _ (hkl h0 hh0n)
      have hdepkeys2 : ∀ n ∈ g2.dependencies.map Prod.fst,
          (g2.layers.lookup n).isSome := by
        intro n hn
        have hnl : (g2.dependencies.lookup n).isSome :=
          lookup_isSome_of_mem_keys n _ hn
        by_cases hnj : n ∈ chains.join
        · obtain ⟨c, hc, hnc⟩ := List.mem_join.mp hnj
          have hcne : c ≠ [] := hnemp c hc
          obtain ⟨t, ht⟩ : ∃ t, c.getLast? = some t :=
            ⟨c.getLast hcne, List.getLast?_eq_getLast _ _⟩
          rcases mem_dropLast_or_last c t n ht hnc with hnt | hnd3
          · obtain ⟨⟨v0, v, hv0, hv1, -, -⟩, -⟩ := htable1 c hc t ht
            rw [hnt, hv1]
            simp
          · exfalso
            rw [(htable2 c hc n hnd3).2] at hnl
            simp at hnl
        · by_cases hnn : n ∈ g.layers.map Prod.fst
          · rw [(htable3 n hnj).1]
            exact lookup_isSome_of_mem_keys n _ hnn
          · exfalso
            have hnn2 : n ∉ g.dependencies.map Prod.fst := fun hc => hnn (hkd n hc)
            rw [(htable3 n hnj).2, lookup_none_of_not_mem n g.dependencies hnn2] at hnl
            simp at hnl
      have hdepvals2 : ∀ p ∈ g2.dependencies, ∀ a ∈ p.2,
          (g2.layers.lookup a).isSome := by
        intro p hp a ha
        obtain ⟨k2, ds⟩ := p
        have hlk2 : g2.dependencies.lookup k2 = some ds :=
          mem_lookup_of_nodup k2 ds _ hnddk2 hp
        obtain ⟨w, hwlk, hwstop⟩ :
            ∃ w, g.dependencies.lookup w = some ds ∧
              (∀ b, edgeOKb g b w = true → False) := by
          have hk2some : (g2.dependencies.lookup k2).isSome := by
            rw [hlk2]
            simp
          by_cases hk2j : k2 ∈ chains.join
          · obtain ⟨c, hc, hk2c⟩ := List.mem_join.mp hk2j
            have hcne : c ≠ [] := hnemp c hc
            obtain ⟨t, ht⟩ : ∃ t, c.getLast? = some t :=
              ⟨c.getLast hcne, List.getLast?_eq_getLast _ _⟩
            rcases mem_dropLast_or_last c t k2 ht hk2c with hkt | hkd3
            · obtain ⟨-, h0, rest2, hcons, hdept⟩ := htable1 c hc t ht
              subst hkt
              refine ⟨h0, ?_, ?_⟩
              · rw [← hdept]
                exact hlk2
              · intro b hb
                have hstep := (bwdStep_some_iff g b h0).mpr
                  ((edgeOKb_iff_bwd g b h0).mp hb).1
                have hhead : c.head? = some h0 := by rw [hcons]; rfl
                rw [(hstops c hc).2 h0 hhead] at hstep
                simp at hstep
            · exfalso
              rw [(htable2 c hc k2 hkd3).2] at hk2some
              simp at hk2some
          · have hk2n : k2 ∈ g.layers.map Prod.fst := by
              by_contra hk2n
              have hk2n2 : k2 ∉ g.dependencies.map Prod.fst :=
                fun hc => hk2n (hkd k2 hc)
              rw [(htable3 k2 hk2j).2,
                lookup_none_of_not_mem k2 _ hk2n2] at hk2some
              simp at hk2some
            refine ⟨k2, ?_, ?_⟩
            · rw [← (htable3 k2 hk2j).2]
              exact hlk2
            · intro b hb
              have habk2 : layerABL g k2 = true := (edgeOKb_ABL g b k2 hb).2
              have hstep := (bwdStep_some_iff g b k2).mpr
                ((edgeOKb_iff_bwd g b k2).mp hb).1
              rw [(hsingle k2 hk2n hk2j habk2).2] at hstep
              simp at hstep
        have hadl : ∀ c ∈ chains, a ∉ c.dropLast := by
          intro c hc hadla
          have hcnd : c.Nodup := join_nodup_each chains hjnd c hc
          obtain ⟨nxt, hnxt, henxt⟩ := dropLast_succ_edge g c (hchok c hc) hcnd a hadla
          have hdep : dependentsOf g a = [nxt] := by
            unfold edgeOKb at henxt
            simp only [Bool.and_eq_true, beq_iff_eq] at henxt
            exact henxt.1.1.1.1
          have hwmem : w ∈ dependentsOf g a :=
            (mem_dependentsOf g a w).mpr ⟨ds, lookup_mem w ds _ hwlk, ha⟩
          rw [hdep] at hwmem
          have hwn : w = nxt := by simpa using hwmem
          exact hwstop a (hwn ▸ henxt)
        have han : a ∈ g.layers.map Prod.fst :=
          hdv (w, ds) (lookup_mem w ds _ hwlk) a ha
        by_cases haj : a ∈ chains.join
        · obtain ⟨c, hc, hac⟩ := List.mem_join.mp haj
          have hcne : c ≠ [] := hnemp c hc
          obtain ⟨t, ht⟩ : ∃ t, c.getLast? = some t :=
            ⟨c.getLast hcne, List.getLast?_eq_getLast _ _⟩
          rcases mem_dropLast_or_last c t a ht hac with hat | had
          · obtain ⟨⟨v0, v, hv0, hv1, -, -⟩, -⟩ := htable1 c hc t ht
            rw [hat, hv1]
            simp
          · exact absurd had (hadl c hc)
        · rw [(htable3 a haj).1]
          exact lookup_isSome_of_mem_keys a _ han
      rw [rewriteLayerChains]
      rw [chainLoop_passthrough g2 hnoedge hkeys1 hdepkeys2 hdepvals2
        (g2.layers.map Prod.fst) [] []
        (fun x hx => lookup_isSome_of_mem_keys x _ hx)]
      simp only [foldl_restore g2.layers hndk2]
      rw [fuseAll]

/-- Witness for C8: a second pass over the fused output of the concrete
two-layer chain graph returns that output unchanged with no effects. -/
theorem rewrite_layer_chains_idempotent_witness :
    rewriteLayerChains (⟨[("B", fusedB)], [("B", [])]⟩ : HLG) =
      .ok (⟨[("B", fusedB)], [("B", [])]⟩, []) :=
  rewrite_layer_chains_idempotent gChain rankAB (by unfold RankOk; decide)
    (by unfold WfHLG; decide) ⟨[("B", fusedB)], [("B", [])]⟩ []
    rewriteLayerChains_gChain

end DaskAwk
